import Mathlib

/-!
# PennOS: scheduler, process control and PennFAT

A shallow embedding of the kernel of PennOS (`src/scheduler`, `src/kernel`,
`src/pennfat`, `src/syscall`) and theorems about it.

Conventions of the embedding.

* A `pcb_t*` is an address (`Nat`) into `Kernel.heap`; a freed PCB leaves `none`
  at its address, and an operation that dereferences such an address, or indexes
  an array out of bounds, has no defined result and returns `none`.
* Logging (`log_event`, `log_tick`), printing (`k_print`) and the host thread
  primitives (`spthread_*`) do not touch the kernel tables and are left out.
* C `int` values are `Int`; counters that never go below zero are `Nat`.
-/

namespace PennOS

/-! ## Process control blocks (`pcb.h`) -/

abbrev P_RUNNING : Nat := 0
abbrev P_STOPPED : Nat := 1
abbrev P_BLOCKED : Nat := 2
abbrev P_ZOMBIED : Nat := 3

abbrev P_SIGSTOP : Int := 1
abbrev P_SIGCONT : Int := 2
abbrev P_SIGTERM : Int := 3
abbrev P_SIGEXIT : Int := 4
abbrev P_SIGQUIT : Int := 5

abbrev MAX_OPEN_FILES : Nat := 32

/-- Entry of a per-process descriptor table (`proc_fd_ent`, pennfat_help.h). -/
structure proc_fd_ent where
  proc_fd : Int
  mode : Int
  offset : Int
  global_fd : Int
deriving DecidableEq, Repr

/-- Process control block (`pcb_t`, pcb.h).  `cmd`, `argv` and the thread handle
are only printed, logged or handed to the host and are left out. -/
structure pcb_t where
  pid : Int
  job_id : Int
  ppid : Int
  priority : Int
  file_descriptors : List proc_fd_ent
  status : Nat
  children : List Nat
  wake_tick : Int
  remaining_sleep_ticks : Int
  waited_by : Int
  is_background : Bool
deriving DecidableEq, Repr

/-- Global tables of kernel.c, scheduler.c and scheduler_helper.c. -/
structure Kernel where
  heap : List (Option pcb_t)
  pcb_list : List Nat
  background_jobs : List Nat
  stopped_jobs : List Nat
  job_list : List Nat
  sleeping_processes : List Nat
  job_counter : Int
  current_tick : Int
  q0 : List Nat
  q1 : List Nat
  q2 : List Nat
  schedule_index : Nat
  running_pid : Int
deriving DecidableEq, Repr

/-- Dereference of a `pcb_t*`. -/
def deref (k : Kernel) (p : Nat) : Option pcb_t :=
  (k.heap.getD p none)

/-- Store through a `pcb_t*`. -/
def store (k : Kernel) (p : Nat) (v : pcb_t) : Kernel :=
  { k with heap := k.heap.set p (some v) }

/-- The linked list `priority_queues[p]`; `none` outside the array. -/
def queue_get (k : Kernel) (p : Int) : Option (List Nat) :=
  if p = 0 then some k.q0 else if p = 1 then some k.q1
  else if p = 2 then some k.q2 else none

/-- Assignment to `priority_queues[p]` (for `p` in 0..2). -/
def queue_set (k : Kernel) (p : Int) (q : List Nat) : Kernel :=
  if p = 0 then { k with q0 := q } else if p = 1 then { k with q1 := q }
  else if p = 2 then { k with q2 := q } else k

/-! ## Priority queues (`scheduler_helper.c`) -/

/-- `are_all_queues_empty`. -/
def are_all_queues_empty (k : Kernel) : Bool :=
  k.q0.isEmpty && k.q1.isEmpty && k.q2.isEmpty

/-- `add_to_queue(pcb)`: append a node at the tail of the queue of
`pcb->priority`. -/
def add_to_queue (k : Kernel) (p : Nat) : Option Kernel :=
  match deref k p with
  | none => none
  | some pcb =>
    match queue_get k pcb.priority with
    | none => none
    | some q => some (queue_set k pcb.priority (q ++ [p]))

/-- `remove_from_queue(priority)`: pop the head of the queue, `NULL` (here
`none` in the second component) when it is empty. -/
def remove_from_queue (k : Kernel) (priority : Int) : Option (Kernel × Option Nat) :=
  match queue_get k priority with
  | none => none
  | some [] => some (k, none)
  | some (p :: rest) => some (queue_set k priority rest, some p)

/-- `remove_pcb_from_queue(pcb, priority)`: unlink the first node holding `pcb`.
A priority outside 0..2 panics. -/
def remove_pcb_from_queue (k : Kernel) (p : Nat) (priority : Int) : Option Kernel :=
  match queue_get k priority with
  | none => none
  | some q => some (queue_set k priority (q.erase p))

/-! ## Scheduler (`scheduler.c`) -/

/-- The table `priority_schedule`. -/
def priority_schedule : List Int :=
  [0, 0, 0, 0, 0, 0, 0, 0, 0, 1, 1, 1, 1, 1, 1, 2, 2, 2, 2]

/-- The selection loop of `run_scheduler` (lines 46-51); the first argument is
the number of attempts left, `19 - attempts`.  Returns the kernel, `next_pcb`
and `selected_priority`. -/
def select_loop : Nat → Kernel → Int → Option (Kernel × Option Nat × Int)
  | 0, k, sel => some (k, none, sel)
  | n + 1, k, _ =>
    match priority_schedule[k.schedule_index]? with
    | none => none
    | some prio =>
      match remove_from_queue k prio with
      | none => none
      | some (k1, next) =>
        let k2 := { k1 with schedule_index := (k1.schedule_index + 1) % 19 }
        match next with
        | some pcb => some (k2, some pcb, prio)
        | none => select_loop n k2 prio

/-- Lines 42-51 of `run_scheduler`: pick the next PCB. -/
def select_next (k : Kernel) : Option (Kernel × Option Nat × Int) :=
  select_loop 19 k 0

/-- Lines 22-39 of `run_scheduler`: the PCB in the process list that has
`running_pid` and status `P_RUNNING`. -/
def find_current : Kernel → List Nat → Option (Option Nat)
  | _, [] => some none
  | k, p :: rest =>
    match deref k p with
    | none => none
    | some pcb =>
      if pcb.pid = k.running_pid ∧ pcb.status = P_RUNNING then some (some p)
      else find_current k rest

/-- Lines 22-39 of `run_scheduler`: re-queue the running PCB. -/
def requeue_current (k : Kernel) : Option Kernel :=
  if k.running_pid ≠ 0 then
    match find_current k k.pcb_list with
    | none => none
    | some none => some k
    | some (some p) =>
      match deref k p with
      | none => none
      | some pcb => if pcb.status = P_RUNNING then add_to_queue k p else some k
  else some k

/-- `run_scheduler`. -/
def run_scheduler (k : Kernel) : Option Kernel :=
  if are_all_queues_empty k then some k
  else
    match requeue_current k with
    | none => none
    | some k1 =>
      match select_next k1 with
      | none => none
      | some (k2, some p, _) =>
        match deref k2 p with
        | none => none
        | some pcb =>
          some (store { k2 with running_pid := pcb.pid } p { pcb with status := P_RUNNING })
      | some (k2, none, _) => some { k2 with running_pid := 0 }

/-- The wake-up loop of `scheduler_tick` (lines 67-90) at index `i`.  The first
argument bounds the number of iterations still allowed; the loop is entered
with the length of the sleeping set, and running out of it gives `none`.
An iteration that wakes the PCB erases position `i` and stays at `i`
(`vec_shallow_erase(&sleeping_processes, i--)` followed by `i++`). -/
def wake_loop : Nat → Nat → Kernel → Option Kernel
  | 0, i, k => if i < k.sleeping_processes.length then none else some k
  | fuel + 1, i, k =>
    if i < k.sleeping_processes.length then
      match deref k (k.sleeping_processes.getD i 0) with
      | none => none
      | some pcb =>
        if pcb.status = P_BLOCKED ∧ pcb.wake_tick ≤ k.current_tick then
          match add_to_queue
              (store k (k.sleeping_processes.getD i 0) { pcb with status := P_RUNNING })
              (k.sleeping_processes.getD i 0) with
          | none => none
          | some k2 =>
            wake_loop fuel i
              { k2 with sleeping_processes := k2.sleeping_processes.eraseIdx i }
        else wake_loop fuel (i + 1) k
    else some k

/-- Lines 65-90 of `scheduler_tick`: advance the tick and wake the sleepers that
are due; the state returned is the one `run_scheduler` is then called on. -/
def scheduler_tick_wake (k : Kernel) : Option Kernel :=
  wake_loop k.sleeping_processes.length 0 { k with current_tick := k.current_tick + 1 }

/-- `scheduler_tick`. -/
def scheduler_tick (k : Kernel) : Option Kernel :=
  match scheduler_tick_wake k with
  | none => none
  | some k1 => run_scheduler k1

/-- The wake-up condition of `scheduler_tick` (line 69) for the PCB at `p`, at
tick `t`. -/
def due (k : Kernel) (t : Int) (p : Nat) : Bool :=
  match deref k p with
  | none => false
  | some pcb => decide (pcb.status = P_BLOCKED ∧ pcb.wake_tick ≤ t)

/-- The address holds a PCB whose priority indexes one of the three queues. -/
def valid_pcb (k : Kernel) (p : Nat) : Prop :=
  ∃ pcb, deref k p = some pcb ∧ (pcb.priority = 0 ∨ pcb.priority = 1 ∨ pcb.priority = 2)

/-! ## Process control (`kernel.c`, `kernel_helper.c`) -/

abbrev P_EWAITPID_I : Int := 9
abbrev P_EWAITPID_II : Int := 10

/-- `k_get_pcb_with_given_pid`, as a walk over the given list of PCB pointers:
the first PCB with this pid, `NULL` (inner `none`) when there is none. -/
def find_pid (k : Kernel) (pid : Int) : List Nat → Option (Option Nat)
  | [] => some none
  | p :: rest =>
    match deref k p with
    | none => none
    | some pcb => if pcb.pid = pid then some (some p) else find_pid k pid rest

/-- `k_get_pcb_with_given_pid`. -/
def k_get_pcb_with_given_pid (k : Kernel) (pid : Int) : Option (Option Nat) :=
  find_pid k pid k.pcb_list

/-- `find_parent_with_current_thread`: the PCB in the process list whose thread
is the calling one.  Every PCB gets its own thread when it is created, so the
calling thread is named by the address `self` of the PCB it was created for. -/
def find_thread (k : Kernel) (self : Nat) : List Nat → Option (Option Nat)
  | [] => some none
  | p :: rest =>
    match deref k p with
    | none => none
    | some _ => if p = self then some (some p) else find_thread k self rest

/-- `find_parent_with_current_thread`. -/
def find_parent_with_current_thread (k : Kernel) (self : Nat) : Option (Option Nat) :=
  find_thread k self k.pcb_list

/-- The loop of `reparent_children` over the children of the dead parent;
`init` is the pointer looked up before the loop. -/
def reparent_loop (init : Nat) : List Nat → Kernel → Option Kernel
  | [], k => some k
  | g :: gs, k =>
    match deref k g with
    | none => none
    | some gp =>
      let k1 := store k g { gp with ppid := 1, waited_by := 1 }
      -- add_child_to_init_pcb
      match k_get_pcb_with_given_pid k1 1 with
      | none => none
      | some none => none
      | some (some ia) =>
        match deref k1 ia with
        | none => none
        | some ip =>
          match add_to_queue (store k1 ia { ip with children := ip.children ++ [g] }) init with
          | none => none
          | some k3 => reparent_loop init gs k3

/-- `reparent_children(parent)`.  A missing init panics.  When `parent` is init
itself and has children, every pass of the loop appends to the vector it walks
and the loop does not end: no result. -/
def reparent_children (k : Kernel) (parent : Nat) : Option Kernel :=
  match k_get_pcb_with_given_pid k 1 with
  | none => none
  | some none => none
  | some (some init) =>
    match deref k parent with
    | none => none
    | some pp =>
      if parent = init ∧ pp.children ≠ [] then none
      else
        match reparent_loop init pp.children k with
        | none => none
        | some k1 =>
          match deref k1 parent with
          | none => none
          | some pp1 => some (store k1 parent { pp1 with children := [] })

/-- `add_child_to_parent_pcb`. -/
def add_child_to_parent_pcb (k : Kernel) (parent child : Nat) : Option Kernel :=
  match deref k parent with
  | none => none
  | some pp => some (store k parent { pp with children := pp.children ++ [child] })

/-- `remove_child_from_parent_pcb`: erase the first entry equal to `child`. -/
def remove_child_from_parent_pcb (k : Kernel) (parent child : Nat) : Option Kernel :=
  match deref k parent with
  | none => none
  | some pp => some (store k parent { pp with children := pp.children.erase child })

/-- The search loops of `remove_process_pcb_from_job`,
`remove_process_pcb_from_background_job` and `remove_process_from_pcb`: erase
the first entry whose pid is `pid`; also returns the erased pointer. -/
def erase_first_pid (k : Kernel) (pid : Int) : List Nat → Option (List Nat × Option Nat)
  | [] => some ([], none)
  | a :: rest =>
    match deref k a with
    | none => none
    | some pa =>
      if pa.pid = pid then some (rest, some a)
      else
        match erase_first_pid k pid rest with
        | none => none
        | some (l, r) => some (a :: l, r)

/-- `k_proc_cleanup(proc)`.  The process list was made with `free` as element
destructor, so `vec_erase` in `remove_process_from_pcb` frees the erased PCB;
the buffers freed besides (`file_descriptors`, the children vector) are no
kernel table. -/
def k_proc_cleanup (k : Kernel) (proc : Nat) : Option Kernel :=
  match deref k proc with
  | none => none
  | some pp =>
    match erase_first_pid k pp.pid k.job_list with
    | none => none
    | some (jobs, _) =>
      match erase_first_pid k pp.pid k.background_jobs with
      | none => none
      | some (bg, _) =>
        match erase_first_pid k pp.pid k.pcb_list with
        | none => none
        | some (pl, none) =>
          some { k with job_list := jobs, background_jobs := bg, pcb_list := pl }
        | some (pl, some a) =>
          some { k with job_list := jobs, background_jobs := bg, pcb_list := pl,
                        heap := k.heap.set a none }

/-- How a call of `k_waitpid` ends: it returns a pid (or 0), it returns -1 with
`P_ERRNO` set, or the caller is suspended in `k_proc_suspend` and repeats the
scan when it is resumed. -/
inductive WaitOutcome where
  | ret (pid : Int)
  | fail (errno : Int)
  | blocked
deriving DecidableEq, Repr

/-- The scan of `k_waitpid` over the children (lines 156-182).  `wstatus` is the
status word (`none` for a NULL pointer).  The inner `none` means the scan ended
without returning. -/
def waitpid_scan (k : Kernel) (parent : Nat) (pid : Int) (wstatus : Option Int) :
    List Nat → Option (Option (Kernel × Option Int × Int))
  | [] => some none
  | c :: rest =>
    match deref k c with
    | none => none
    | some child =>
      if pid ≠ -1 ∧ child.pid ≠ pid then waitpid_scan k parent pid wstatus rest
      else if child.status = P_ZOMBIED then
        match reparent_children k c with
        | none => none
        | some k1 =>
          match remove_child_from_parent_pcb k1 parent c with
          | none => none
          | some k2 =>
            match k_proc_cleanup k2 c with
            | none => none
            | some k3 => some (some (k3, wstatus.map (fun _ => P_SIGEXIT), child.pid))
      else if child.status = P_STOPPED then
        some (some (k, wstatus.map (fun _ => P_SIGSTOP), child.pid))
      else waitpid_scan k parent pid wstatus rest

/-- Lines 187-193 of `k_waitpid`: `waited_by` of every child becomes the pid of
the parent. -/
def mark_waited (ppid : Int) : List Nat → Kernel → Option Kernel
  | [], k => some k
  | c :: rest, k =>
    match deref k c with
    | none => none
    | some child => mark_waited ppid rest (store k c { child with waited_by := ppid })

/-- The parent PCB of `k_waitpid` (lines 140-144). -/
def waitpid_parent (k : Kernel) (self : Nat) (ppid : Int) : Option (Option Nat) :=
  if ppid > 0 then k_get_pcb_with_given_pid k ppid
  else find_parent_with_current_thread k self

/-- `k_waitpid(pid, wstatus, nohang, is_init, ppid)` called by the thread of the
PCB at `self`, up to its return or its first suspension.  `is_init` only selects
the text of the log line. -/
def k_waitpid (k : Kernel) (self : Nat) (pid : Int) (wstatus : Option Int) (nohang : Bool)
    (ppid : Int) : Option (Kernel × Option Int × WaitOutcome) :=
  match waitpid_parent k self ppid with
  | none => none
  | some none => some (k, wstatus, WaitOutcome.fail P_EWAITPID_I)
  | some (some parent) =>
    match deref k parent with
    | none => none
    | some pp =>
      if pp.children = [] then some (k, wstatus, WaitOutcome.fail P_EWAITPID_II)
      else
        match waitpid_scan k parent pid wstatus pp.children with
        | none => none
        | some (some (k1, ws, r)) => some (k1, ws, WaitOutcome.ret r)
        | some none =>
          if nohang then some (k, wstatus, WaitOutcome.ret 0)
          else
            match mark_waited pp.pid pp.children k with
            | none => none
            | some k1 =>
              match deref k1 parent with
              | none => none
              | some pp1 =>
                some (store k1 parent { pp1 with status := P_BLOCKED }, wstatus,
                      WaitOutcome.blocked)

/-- The test of `k_waitpid` on one child: it matches `pid` and is `P_ZOMBIED` or
`P_STOPPED`. -/
def reapable (k : Kernel) (pid : Int) (c : Nat) : Bool :=
  match deref k c with
  | none => false
  | some child =>
    decide ((pid = -1 ∨ child.pid = pid) ∧
      (child.status = P_ZOMBIED ∨ child.status = P_STOPPED))

/-- Well-formed process tables: the process list holds distinct live PCBs with
distinct positive pids and a priority in 0..2; the children of a listed PCB are
distinct listed PCBs whose `ppid` is its pid; no PCB is its own parent; the job
tables point into the process list; init (pid 1, ppid 0) is listed. -/
def wf_kernel (k : Kernel) : Prop :=
  k.pcb_list.Nodup ∧
  (∀ p ∈ k.pcb_list, ∃ pcb, deref k p = some pcb ∧
    (pcb.priority = 0 ∨ pcb.priority = 1 ∨ pcb.priority = 2) ∧
    0 < pcb.pid ∧ pcb.ppid ≠ pcb.pid ∧ pcb.children.Nodup ∧
    ∀ c ∈ pcb.children, c ∈ k.pcb_list ∧ ∃ cp, deref k c = some cp ∧ cp.ppid = pcb.pid) ∧
  (∀ a ∈ k.pcb_list, ∀ b ∈ k.pcb_list, ∀ pa pb, deref k a = some pa → deref k b = some pb →
    pa.pid = pb.pid → a = b) ∧
  (∀ j ∈ k.job_list, j ∈ k.pcb_list) ∧
  (∀ j ∈ k.background_jobs, j ∈ k.pcb_list) ∧
  (∃ ia ∈ k.pcb_list, ∃ ip, deref k ia = some ip ∧ ip.pid = 1 ∧ ip.ppid = 0)

/-- `init_fd_table`: descriptors 0, 1, 2 point to the global slots 0, 1, 2; the
other entries get `proc_fd = -1` and are otherwise not initialised (taken as
zero). -/
def init_fd_table : List proc_fd_ent :=
  [{ proc_fd := 0, mode := 0, offset := 0, global_fd := 0 },
   { proc_fd := 1, mode := 1, offset := 0, global_fd := 1 },
   { proc_fd := 2, mode := 1, offset := 0, global_fd := 2 }] ++
  List.replicate 29 { proc_fd := -1, mode := 0, offset := 0, global_fd := 0 }

/-- `init_kernel`, from the initial values of the globals.  `waited_by` is not
initialised by the source; `uninit` is the value the field happens to hold. -/
def init_kernel (uninit : Int) : Option Kernel :=
  add_to_queue
    { heap := [some { pid := 1, job_id := 0, ppid := 0, priority := 0,
                      file_descriptors := init_fd_table, status := P_BLOCKED, children := [],
                      wake_tick := 0, remaining_sleep_ticks := 0, waited_by := uninit,
                      is_background := false }],
      pcb_list := [0], background_jobs := [], stopped_jobs := [], job_list := [],
      sleeping_processes := [], job_counter := 2, current_tick := 0,
      q0 := [], q1 := [], q2 := [], schedule_index := 0, running_pid := 0 } 0

/-- `k_proc_create` with `initialize_new_process`: the new PCB is allocated at
the next free address, gets the pid after that of the last PCB of the process
list and a copy of the descriptor table of the parent.  `uninit` is the value
the field `waited_by`, which the source does not initialise, happens to hold. -/
def k_proc_create (k : Kernel) (parent : Nat) (priority : Int) (status : Nat)
    (is_background : Bool) (uninit : Int) : Option (Kernel × Nat) :=
  match k.pcb_list.getLast? with
  | none => none
  | some last =>
    match deref k last, deref k parent with
    | some last_pcb, some pp =>
      let job_counter := if pp.pid = 2 then k.job_counter + 1 else k.job_counter
      let new_pcb : pcb_t :=
        { pid := last_pcb.pid + 1,
          job_id := if pp.pid = 2 then job_counter else pp.job_id,
          ppid := pp.pid, priority := priority,
          file_descriptors := pp.file_descriptors,
          status := if status ≠ 0 then status else P_BLOCKED,
          children := [], wake_tick := 0, remaining_sleep_ticks := 0, waited_by := uninit,
          is_background := is_background }
      some ({ k with
              heap := k.heap ++ [some new_pcb],
              job_counter := job_counter,
              job_list := if pp.pid = 2 then k.job_list ++ [k.heap.length] else k.job_list,
              pcb_list := k.pcb_list ++ [k.heap.length] }, k.heap.length)
    | _, _ => none

/-- `k_fork(func, argv, fd0, fd1, parent_id, priority, status, is_init,
is_background)` called by the thread of the PCB at `self`: the new kernel and
the pid of the child.  `fd0` and `fd1` are not used by the source. -/
def k_fork (k : Kernel) (self : Nat) (parent_id : Int) (priority : Int) (status : Nat)
    (is_init is_background : Bool) (uninit : Int) : Option (Kernel × Int) :=
  match (if is_init then k_get_pcb_with_given_pid k parent_id
         else find_parent_with_current_thread k self) with
  | none => none
  | some none => none
  | some (some parent) =>
    match k_proc_create k parent priority status is_background uninit with
    | none => none
    | some (k1, child) =>
      match add_to_queue k1 child with
      | none => none
      | some k2 =>
        match add_child_to_parent_pcb k2 parent child with
        | none => none
        | some k3 =>
          match deref k3 child with
          | none => none
          | some cp =>
            some (if is_background then
                    { k3 with background_jobs := k3.background_jobs ++ [child] }
                  else k3, cp.pid)

/-- The number of entries in use (`proc_fd ≥ 0`) in the descriptor tables of the
PCBs of the process list whose `global_fd` is `slot`. -/
def fd_refs (k : Kernel) (slot : Int) : Nat :=
  (k.pcb_list.map (fun p =>
    match deref k p with
    | none => 0
    | some pcb =>
      pcb.file_descriptors.countP (fun e => decide (e.proc_fd ≥ 0 ∧ e.global_fd = slot)))).sum

/-- A field of the PCB at address `a`, if the address is live. -/
def pcb_field {α : Type} (f : pcb_t → α) (k : Kernel) (a : Nat) : Option α :=
  (deref k a).map f

/-- The kernel `k'` has the process list and job tables of `k`, and the same
addresses alive with the same pid, priority and status. -/
def frame (k k' : Kernel) : Prop :=
  k'.pcb_list = k.pcb_list ∧ k'.job_list = k.job_list ∧
  k'.background_jobs = k.background_jobs ∧
  (∀ a, pcb_field (fun p => p.pid) k' a = pcb_field (fun p => p.pid) k a) ∧
  (∀ a, pcb_field (fun p => p.priority) k' a = pcb_field (fun p => p.priority) k a) ∧
  (∀ a, pcb_field (fun p => p.status) k' a = pcb_field (fun p => p.status) k a)

/-- A run of consecutive dispatches.  Each element of the list is the kernel at
the moment of one selection (whatever happened to the tables since the previous
dispatch); `schedule_index`, which only the scheduler writes, is carried from
one dispatch to the next.  The result lists, for every dispatch, the selected
PCB and the priority of the queue it was taken from. -/
def dispatch_run : Nat → List Kernel → Option (List (Option Nat × Int))
  | _, [] => some []
  | idx, k :: ks =>
    match select_next { k with schedule_index := idx } with
    | none => none
    | some (k1, next, prio) =>
      match dispatch_run k1.schedule_index ks with
      | none => none
      | some rest => some ((next, prio) :: rest)

/-- All three run queues hold at least one PCB. -/
def all_queues_nonempty (k : Kernel) : Prop :=
  k.q0 ≠ [] ∧ k.q1 ≠ [] ∧ k.q2 ≠ []


/-! ## PennFAT state (`pennfat_help.h`) -/

abbrev FAT_ENTRY_FREE : Nat := 0
abbrev FAT_ENTRY_LAST : Nat := 65535
abbrev MAX_FILENAME_LEN : Nat := 32
abbrev DIR_ENTRY_DELETED : Nat := 1
abbrev DIR_ENTRY_IN_USE : Nat := 2
abbrev FT_REGULAR : Nat := 1
abbrev PERM_NONE : Nat := 0
abbrev PERM_WRITE : Nat := 2
abbrev PERM_READ : Nat := 4
abbrev PERM_READ_WRITE : Nat := 6
abbrev PERM_ALL : Nat := 7
abbrev F_READ : Int := 0
abbrev F_WRITE : Int := 1
abbrev F_APPEND : Int := 2
abbrev F_SEEK_SET : Int := 0
abbrev F_SEEK_CUR : Int := 1
abbrev F_SEEK_END : Int := 2

abbrev FD_INVALID : Int := -1
abbrev FS_NOT_MOUNTED : Int := -2
abbrev FILE_NOT_FOUND : Int := -3
abbrev INVALID_MODE : Int := -4
abbrev PERMISSION_DENIED : Int := -5
abbrev DISK_FULL : Int := -6
abbrev INVALID_WHENCE : Int := -9
abbrev INVALID_FAT_CONFIG : Int := -10

/-- Directory entry (`dir_entry_t`), 64 bytes on disk: `name` is the array of 32
bytes, `reserved` the 16 bytes at the end. -/
structure dir_entry_t where
  name : List Nat
  size : Nat
  first_block : Nat
  type : Nat
  perm : Nat
  mtime : Nat
  reserved : List Nat
deriving DecidableEq, Repr

/-- A `dir_entry_t*` held by an open-file slot: into the in-memory root
directory, or to one of the three entries allocated by `pmount` for
stdin, stdout and stderr. -/
inductive entry_ptr where
  | root (i : Nat)
  | std (i : Nat)
deriving DecidableEq, Repr

/-- Slot of the global open-file table (`file_descriptor_t`); `entry = none` is
the NULL pointer of a free slot. -/
structure file_descriptor_t where
  fd : Int
  current_block : Nat
  offset : Nat
  mode : Int
  ref_count : Int
  entry : Option entry_ptr
deriving DecidableEq, Repr

/-- The host file that holds an image: its length and its bytes. -/
structure host_file where
  size : Nat
  bytes : Nat → Nat

/-- The global `state` (`pennfat_state_t`) together with the image it is mounted
on and `P_ERRNO`.  `fat` is the table of 16-bit entries mapped (shared) on the
first `fat_size` bytes of the image; `data` gives the bytes of the image from
`fat_size` on, at their offset in the file, and `img_size` is the length of the
file. -/
structure pennfat_state_t where
  fat : List Nat
  data : Nat → Nat
  img_size : Nat
  fat_blocks : Nat
  block_size : Nat
  fat_size : Nat
  data_start : Nat
  root_dir : List dir_entry_t
  std_entries : List dir_entry_t
  is_mounted : Bool
  open_files : List file_descriptor_t
  root_dir_blocks : Nat
  p_errno : Int

/-! ### Bytes -/

/-- The C string held by an array of bytes: the bytes before the first NUL. -/
def cstr (l : List Nat) : List Nat := l.takeWhile (fun b => b != 0)

/-- The `k` low bytes of `v`, least significant first. -/
def le_bytes : Nat → Nat → List Nat
  | 0, _ => []
  | k + 1, v => (v % 256) :: le_bytes k (v / 256)

/-- The number whose little-endian bytes are given. -/
def le_value : List Nat → Nat
  | [] => 0
  | b :: rest => b + 256 * le_value rest

/-- `l` cut or padded with zeros to `n` elements. -/
def pad_to (n : Nat) (l : List Nat) : List Nat :=
  l.take n ++ List.replicate (n - l.length) 0

/-- The 64 bytes of a directory entry in memory and on disk. -/
def encode_entry (e : dir_entry_t) : List Nat :=
  pad_to 32 e.name ++ le_bytes 4 e.size ++ le_bytes 2 e.first_block ++ [e.type % 256]
    ++ [e.perm % 256] ++ le_bytes 8 e.mtime ++ pad_to 16 e.reserved

/-- The directory entry held by 64 bytes. -/
def decode_entry (b : List Nat) : dir_entry_t :=
  { name := pad_to 32 (b.take 32),
    size := le_value ((b.drop 32).take 4),
    first_block := le_value ((b.drop 36).take 2),
    type := (b.drop 38).headD 0,
    perm := (b.drop 39).headD 0,
    mtime := le_value ((b.drop 40).take 8),
    reserved := pad_to 16 ((b.drop 48).take 16) }

/-- A zeroed directory entry (`memset(entry, 0, sizeof(dir_entry_t))`). -/
def zero_entry : dir_entry_t :=
  { name := List.replicate 32 0, size := 0, first_block := 0, type := 0, perm := 0,
    mtime := 0, reserved := List.replicate 16 0 }

/-! ### The image file and the mapped FAT -/

/-- A byte stored at offset `pos` of the FAT mapping. -/
def fat_store_byte (fat : List Nat) (pos b : Nat) : List Nat :=
  let e := fat.getD (pos / 2) 0
  fat.set (pos / 2) (if pos % 2 = 0 then e / 256 * 256 + b else e % 256 + 256 * b)

/-- The FAT after `write(fs_fd, bytes, len)` at file offset `pos`: the bytes that
fall below `fat_size` land in the shared mapping. -/
def fat_after_write (fat : List Nat) (fat_size pos : Nat) : List Nat → List Nat
  | [] => fat
  | b :: rest =>
    fat_after_write (if pos < fat_size then fat_store_byte fat pos b else fat)
      fat_size (pos + 1) rest

/-- `lseek(fs_fd, pos, SEEK_SET); write(fs_fd, bytes, len)` on the image (the host
write succeeds and extends the file when it ends beyond its length). -/
def host_write (s : pennfat_state_t) (pos : Nat) (bytes : List Nat) : pennfat_state_t :=
  { s with
    fat := if s.fat_size ≤ pos then s.fat else fat_after_write s.fat s.fat_size pos bytes,
    data := fun a =>
      if s.fat_size ≤ a ∧ pos ≤ a ∧ a < pos + bytes.length then bytes.getD (a - pos) 0
      else s.data a,
    img_size := if bytes = [] then s.img_size else max s.img_size (pos + bytes.length) }

/-- The byte of the image at offset `a`. -/
def img_byte (s : pennfat_state_t) (a : Nat) : Nat :=
  if a < s.fat_size then
    (if a % 2 = 0 then s.fat.getD (a / 2) 0 % 256 else s.fat.getD (a / 2) 0 / 256)
  else s.data a

/-- `lseek(fs_fd, pos, SEEK_SET); read(fs_fd, buf, len)`: the bytes read, fewer
than `len` when the file ends before. -/
def host_read (s : pennfat_state_t) (pos len : Nat) : List Nat :=
  (List.range (min len (s.img_size - pos))).map (fun j => img_byte s (pos + j))

/-- The file offset `data_start + (block - 1) * block_size + off` of the sources,
computed as they do in 32 bits without sign. -/
def data_pos (s : pennfat_state_t) (block off : Nat) : Nat :=
  (s.data_start + (block + 4294967295) * s.block_size + off) % 4294967296

/-- `state.fat[i]`; no value outside the mapping. -/
def fat_get (s : pennfat_state_t) (i : Nat) : Option Nat := s.fat[i]?

/-- `state.fat[i] = v`. -/
def fat_set (s : pennfat_state_t) (i v : Nat) : Option pennfat_state_t :=
  if i < s.fat.length then some { s with fat := s.fat.set i v } else none

/-- The entry a `dir_entry_t*` points to. -/
def entry_get (s : pennfat_state_t) : entry_ptr → Option dir_entry_t
  | entry_ptr.root i => s.root_dir[i]?
  | entry_ptr.std i => s.std_entries[i]?

/-- Store through a `dir_entry_t*`. -/
def entry_set (s : pennfat_state_t) (p : entry_ptr) (e : dir_entry_t) : pennfat_state_t :=
  match p with
  | entry_ptr.root i => { s with root_dir := s.root_dir.set i e }
  | entry_ptr.std i => { s with std_entries := s.std_entries.set i e }

/-! ### `pennfat_help.c` -/

/-- The loop of `find_free_fat_entry`, `i` being the 16-bit counter and `n` the
bound `fat_size / 2`.  The first argument limits the number of iterations. -/
def find_free_loop (fat : List Nat) (n : Nat) : Nat → Nat → Option Nat
  | 0, _ => none
  | fuel + 1, i =>
    if i < n then
      match fat[i]? with
      | none => none
      | some v => if v = FAT_ENTRY_FREE then some i else find_free_loop fat n fuel ((i + 1) % 65536)
    else some 0

/-- `find_free_fat_entry`.  The counter has 65536 values and the table does not
change during the search, so a search that is not over after 65536 iterations
never ends; it has no result. -/
def find_free_fat_entry (s : pennfat_state_t) : Option Nat :=
  find_free_loop s.fat (s.fat_size / 2) 65536 2

/-- `root_dir_blocks * (block_size / sizeof(dir_entry_t))`. -/
def total_entries (s : pennfat_state_t) : Nat :=
  s.root_dir_blocks * (s.block_size / 64)

/-- The loop of `find_dir_entry` from index `i`, `m` entries left to inspect. -/
def find_dir_loop (s : pennfat_state_t) (name : List Nat) : Nat → Nat → Option (Option Nat)
  | 0, _ => some none
  | m + 1, i =>
    match s.root_dir[i]? with
    | none => none
    | some e =>
      if e.name.headD 0 > DIR_ENTRY_DELETED ∧ cstr e.name = cstr name then some (some i)
      else find_dir_loop s name m (i + 1)

/-- `find_dir_entry(name)`: the index of the entry in the root directory. -/
def find_dir_entry (s : pennfat_state_t) (name : List Nat) : Option (Option Nat) :=
  find_dir_loop s name (total_entries s) 0

/-- The bytes of block `j` of the in-memory root directory. -/
def dir_block_bytes (s : pennfat_state_t) (j : Nat) : List Nat :=
  (((s.root_dir.drop (j * (s.block_size / 64))).take (s.block_size / 64)).map
    encode_entry).flatten

/-- The loop of `sync_directory_entry`: `block` walks the chain of the root
directory, `j` counts the blocks written. -/
def sync_loop : Nat → pennfat_state_t → Nat → Nat → Option pennfat_state_t
  | 0, s, _, _ => some s
  | m + 1, s, block, j =>
    if block ≠ FAT_ENTRY_LAST then
      match fat_get (host_write s (data_pos s block 0) (dir_block_bytes s j)) block with
      | none => none
      | some next =>
        sync_loop m (host_write s (data_pos s block 0) (dir_block_bytes s j)) next (j + 1)
    else some s

/-- `sync_directory_entry`: write the in-memory root directory along its chain. -/
def sync_directory_entry (s : pennfat_state_t) : Option pennfat_state_t :=
  sync_loop s.root_dir_blocks s 1 0


/-! ### `kfat_helper.c` -/

/-- The loop of `find_open_fd` over the slots from index `i`. -/
def find_open_loop (s : pennfat_state_t) (fname : List Nat) (mode : Int) :
    List file_descriptor_t → Nat → Option (pennfat_state_t × Int)
  | [], _ => some (s, -1)
  | f :: rest, i =>
    match f.entry with
    | none => find_open_loop s fname mode rest (i + 1)
    | some p =>
      match entry_get s p with
      | none => none
      | some e =>
        if cstr e.name = cstr fname then
          if (mode = F_WRITE ∨ mode = F_APPEND) ∧
              (e.perm ≠ PERM_READ_WRITE ∧ e.perm ≠ PERM_WRITE ∧ e.perm ≠ PERM_ALL) then
            some (s, PERMISSION_DENIED)
          else if e.perm = PERM_NONE then some (s, PERMISSION_DENIED)
          else
            some ({ s with open_files :=
                      s.open_files.set i { f with ref_count := f.ref_count + 1 } }, (i : Int))
        else find_open_loop s fname mode rest (i + 1)

/-- `find_open_fd(fname, mode)`. -/
def find_open_fd (s : pennfat_state_t) (fname : List Nat) (mode : Int) :
    Option (pennfat_state_t × Int) :=
  find_open_loop s fname mode s.open_files 0

/-- The scan of `find_or_create_entry` for a free directory slot (lines 31-36 and
61-66): the first entry whose first name byte is below `DIR_ENTRY_IN_USE`.  The
source walks on until it meets one; no result when the array holds none. -/
def free_slot (dir : List dir_entry_t) : Option Nat :=
  if dir.findIdx (fun e => decide (e.name.headD 0 < DIR_ENTRY_IN_USE)) < dir.length then
    some (dir.findIdx (fun e => decide (e.name.headD 0 < DIR_ENTRY_IN_USE)))
  else none

/-- The number of entries whose first name byte is above `DIR_ENTRY_DELETED`. -/
def valid_entries (dir : List dir_entry_t) : Nat :=
  dir.countP (fun e => decide (e.name.headD 0 > DIR_ENTRY_DELETED))

/-- `while (state.fat[last] != FAT_ENTRY_LAST) last = state.fat[last];`, the
first argument limiting the number of steps. -/
def chain_last : Nat → pennfat_state_t → Nat → Option Nat
  | 0, _, _ => none
  | fuel + 1, s, last =>
    match fat_get s last with
    | none => none
    | some v => if v ≠ FAT_ENTRY_LAST then chain_last fuel s v else some last

/-- The name stored by `strncpy(entry->name, fname, MAX_FILENAME_LEN - 1)` and
`entry->name[MAX_FILENAME_LEN - 1] = 0` in a zeroed entry. -/
def stored_name (fname : List Nat) : List Nat :=
  pad_to 32 ((cstr fname).take 31)

/-- Lines 45-67 of `find_or_create_entry`: grow the root directory by one block
when at most one slot is left.  The second component is false when no block
is free (the function then returns NULL). -/
def expand_root_dir (s : pennfat_state_t) : Option (pennfat_state_t × Bool) :=
  if valid_entries (s.root_dir.take (total_entries s)) + 1 ≥ total_entries s then
    match find_free_fat_entry s with
    | none => none
    | some new_block =>
      if new_block = 0 then some (s, false)
      else
        match chain_last (s.fat.length + 1) s 1 with
        | none => none
        | some last =>
          match fat_set s last new_block with
          | none => none
          | some s1 =>
            match fat_set s1 new_block FAT_ENTRY_LAST with
            | none => none
            | some s2 =>
              some ({ s2 with
                      root_dir := s2.root_dir ++ List.replicate (s2.block_size / 64) zero_entry,
                      root_dir_blocks := s2.root_dir_blocks + 1 }, true)
  else some (s, true)

/-- `find_or_create_entry(fname, mode)`; `now` is the value of `time(NULL)`.
The result is the index of the entry in the root directory, `none` for NULL.
The in-memory directory must hold `total_entries` entries.  The scan for a free
slot that the source makes before the test for expansion is made here after it,
its result being used only then. -/
def find_or_create_entry (s : pennfat_state_t) (fname : List Nat) (mode : Int) (now : Nat) :
    Option (pennfat_state_t × Option Nat) :=
  match find_dir_entry s fname with
  | none => none
  | some (some i) => some (s, some i)
  | some none =>
    if mode ≠ F_WRITE then some (s, none)
    else if s.root_dir.length ≠ total_entries s then none
    else
      match expand_root_dir s with
      | none => none
      | some (s1, false) => some (s1, none)
      | some (s1, true) =>
        match free_slot s1.root_dir with
        | none => none
        | some i =>
          let s2 : pennfat_state_t :=
            { s1 with root_dir :=
                s1.root_dir.set i { zero_entry with name := stored_name fname, size := 0 } }
          match find_free_fat_entry s2 with
          | none => none
          | some first_block =>
            if first_block = 0 then some (s2, none)
            else
              match fat_set s2 first_block FAT_ENTRY_LAST with
              | none => none
              | some s3 =>
                some ({ s3 with root_dir :=
                  s3.root_dir.set i { zero_entry with
                    name := stored_name fname, size := 0, first_block := first_block,
                    type := FT_REGULAR, perm := PERM_READ_WRITE, mtime := now } }, some i)

/-- The loop of `allocate_fd` that frees the blocks after the first (lines
98-102), the first argument limiting the number of steps. -/
def truncate_loop : Nat → pennfat_state_t → Nat → Option pennfat_state_t
  | 0, _, _ => none
  | fuel + 1, s, curr =>
    if curr ≠ FAT_ENTRY_LAST then
      match fat_get s curr with
      | none => none
      | some next =>
        match fat_set s curr FAT_ENTRY_FREE with
        | none => none
        | some s1 => truncate_loop fuel s1 next
    else some s

/-- `allocate_fd(entry, mode)` for the entry at index `i` of the root directory. -/
def allocate_fd (s : pennfat_state_t) (i : Nat) (mode : Int) : Option (pennfat_state_t × Int) :=
  if s.open_files.findIdx (fun f => f.entry.isNone) < s.open_files.length then
    match s.root_dir[i]? with
    | none => none
    | some e =>
      let j := s.open_files.findIdx (fun f => f.entry.isNone)
      let slot : file_descriptor_t :=
        { fd := j, entry := some (entry_ptr.root i), current_block := e.first_block,
          offset := if mode = F_APPEND then e.size else 0, mode := mode, ref_count := 1 }
      let s1 : pennfat_state_t := { s with open_files := s.open_files.set j slot }
      if mode = F_WRITE then
        let s2 : pennfat_state_t :=
          { s1 with root_dir := s1.root_dir.set i { e with size := 0 } }
        match fat_get s2 e.first_block with
        | none => none
        | some curr =>
          match fat_set s2 e.first_block FAT_ENTRY_LAST with
          | none => none
          | some s3 =>
            match truncate_loop (s3.fat.length + 1) s3 curr with
            | none => none
            | some s4 => some (s4, (j : Int))
      else some (s1, (j : Int))
  else some ({ s with p_errno := FD_INVALID }, -1)

/-- `k_open(fname, mode)`. -/
def k_open (s : pennfat_state_t) (fname : List Nat) (mode : Int) (now : Nat) :
    Option (pennfat_state_t × Int) :=
  if ¬ s.is_mounted then some ({ s with p_errno := FS_NOT_MOUNTED }, -1)
  else if mode ≠ F_READ ∧ mode ≠ F_WRITE ∧ mode ≠ F_APPEND then
    some ({ s with p_errno := INVALID_MODE }, -1)
  else
    match find_open_fd s fname mode with
    | none => none
    | some (s1, fd) =>
      if fd ≥ 0 then some (s1, fd)
      else
        match find_or_create_entry s1 fname mode now with
        | none => none
        | some (s2, none) => some ({ s2 with p_errno := FILE_NOT_FOUND }, -1)
        | some (s2, some i) => allocate_fd s2 i mode

/-- The slot `state.open_files[fd]` and the entry it points to, when `fd` is in
range and the slot is in use. -/
def slot_get (s : pennfat_state_t) (fd : Int) : Option (file_descriptor_t × entry_ptr) :=
  if fd < 0 ∨ fd ≥ 32 then none
  else
    match s.open_files[fd.toNat]? with
    | none => none
    | some f =>
      match f.entry with
      | none => none
      | some p => some (f, p)

/-- Assignment to `state.open_files[fd]`. -/
def slot_set (s : pennfat_state_t) (fd : Int) (f : file_descriptor_t) : pennfat_state_t :=
  { s with open_files := s.open_files.set fd.toNat f }

/-- The read loop of `k_read` (lines 175-201).  `acc` holds the bytes read so
far, `cb` and `oib` are `current_block` and `offset_in_block`; the first argument
limits the number of iterations. -/
def read_loop (fd : Int) (n : Nat) :
    Nat → pennfat_state_t → List Nat → Nat → Nat → Option (pennfat_state_t × List Nat)
  | 0, _, _, _, _ => none
  | fuel + 1, s, acc, cb, oib =>
    if acc.length < n ∧ cb ≠ FAT_ENTRY_LAST then
      match slot_get s fd with
      | none => none
      | some (f, p) =>
        match entry_get s p with
        | none => none
        | some e =>
          let want := min (min (s.block_size - oib) (n - acc.length))
            ((e.size + 4294967296 - f.offset) % 4294967296)
          if want = 0 then some (s, acc)
          else
            let chunk := host_read s (data_pos s cb oib) want
            let off := (f.offset + chunk.length) % 4294967296
            if off % s.block_size = 0 then
              match fat_get s cb with
              | none => none
              | some next =>
                read_loop fd n fuel
                  (slot_set s fd { f with offset := off, current_block := next })
                  (acc ++ chunk) next 0
            else
              read_loop fd n fuel (slot_set s fd { f with offset := off }) (acc ++ chunk) cb 0
    else some (s, acc)

/-- `k_read(fd, n, buf)` with `0 ≤ n`: the state, the value returned and the bytes
put in `buf`.  Reading the standard input of the host (descriptor 0 named
"stdin") is outside the model and has no result here. -/
def k_read (s : pennfat_state_t) (fd : Int) (n : Nat) :
    Option (pennfat_state_t × Int × List Nat) :=
  match slot_get s fd with
  | none => some ({ s with p_errno := FD_INVALID }, -1, [])
  | some (f, p) =>
    match entry_get s p with
    | none => none
    | some e =>
      if (e.perm / 4) % 2 = 0 then some ({ s with p_errno := PERMISSION_DENIED }, -1, [])
      else if fd = 0 ∧ cstr e.name = [115, 116, 100, 105, 110] then none
      else if e.size = 0 ∨ f.current_block = FAT_ENTRY_LAST then some (s, 0, [])
      else if s.block_size = 0 ∨ n ≥ 2147483648 then none
      else
        match read_loop fd n (n + 1) s [] f.current_block (f.offset % s.block_size) with
        | none => none
        | some (s1, bytes) => some (s1, (bytes.length : Int), bytes)

/-- Lines 359-377 of `k_write`: allocate a new block if needed.  The value is the
state with the new `current_block` and `offset_in_block`; the inner `none` means
that no block is free (the function then returns `DISK_FULL`). -/
def write_alloc (fd : Int) (p : entry_ptr) (s : pennfat_state_t) (w n cb oib : Nat) :
    Option (Option (pennfat_state_t × Nat × Nat)) :=
  if cb = FAT_ENTRY_LAST ∨ (oib = s.block_size ∧ w < n) then
    match find_free_fat_entry s with
    | none => none
    | some new_block =>
      if new_block = 0 then some none
      else
        let linked : Option pennfat_state_t :=
          if cb = FAT_ENTRY_LAST then
            match entry_get s p with
            | none => none
            | some e => some (entry_set s p { e with first_block := new_block })
          else fat_set s cb new_block
        match linked with
        | none => none
        | some s1 =>
          match fat_set s1 new_block FAT_ENTRY_LAST with
          | none => none
          | some s2 =>
            match slot_get s2 fd with
            | none => none
            | some (f, _) =>
              some (some (slot_set s2 fd { f with current_block := new_block }, new_block, 0))
  else some (some (s, cb, oib))

/-- Lines 379-401 of `k_write`: write the `len` bytes `buf[w ..]` at offset `oib`
of block `cb`, advance the offset of the slot, set the size of the entry to it
and write the directory back. -/
def write_chunk (fd : Int) (p : entry_ptr) (buf : Nat → Nat) (s : pennfat_state_t)
    (w len cb oib : Nat) : Option pennfat_state_t :=
  match slot_get (host_write s (data_pos s cb oib) ((List.range len).map (fun j => buf (w + j))))
      fd with
  | none => none
  | some (f, _) =>
    match entry_get
        (slot_set (host_write s (data_pos s cb oib) ((List.range len).map (fun j => buf (w + j))))
          fd { f with offset := (f.offset + len) % 4294967296 }) p with
    | none => none
    | some e =>
      sync_directory_entry
        (entry_set
          (slot_set
            (host_write s (data_pos s cb oib) ((List.range len).map (fun j => buf (w + j))))
            fd { f with offset := (f.offset + len) % 4294967296 })
          p { e with size := (f.offset + len) % 4294967296 })

/-- The write loop of `k_write` (lines 358-402).  `w` is `bytes_written`, `cb` and
`oib` are `current_block` and `offset_in_block`, `p` is the `entry` pointer; the
first argument limits the number of iterations.  The value is the state and
`DISK_FULL` or the number of bytes written. -/
def write_loop (fd : Int) (p : entry_ptr) (buf : Nat → Nat) (n : Nat) :
    Nat → pennfat_state_t → Nat → Nat → Nat → Option (pennfat_state_t × Int)
  | 0, _, _, _, _ => none
  | fuel + 1, s, w, cb, oib =>
    if w < n then
      match write_alloc fd p s w n cb oib with
      | none => none
      | some none => some (s, DISK_FULL)
      | some (some (s1, cb1, oib1)) =>
        match write_chunk fd p buf s1 w (min (s1.block_size - oib1) (n - w)) cb1 oib1 with
        | none => none
        | some s4 =>
          write_loop fd p buf n fuel s4 (w + min (s1.block_size - oib1) (n - w)) cb1
            (oib1 + min (s1.block_size - oib1) (n - w))
    else some (s, (w : Int))

/-- `k_write(fd, buf, n)` with `0 ≤ n`; `buf j` is the byte `buf[j]` and `now` the
value of `time(NULL)`.  Descriptors 1 and 2 hand the bytes to the host, which
takes them all. -/
def k_write (s : pennfat_state_t) (fd : Int) (buf : Nat → Nat) (n : Nat) (now : Nat) :
    Option (pennfat_state_t × Int) :=
  match slot_get s fd with
  | none => some ({ s with p_errno := FD_INVALID }, -1)
  | some (f, p) =>
    match entry_get s p with
    | none => none
    | some e =>
      if (e.perm / 2) % 2 = 0 then some ({ s with p_errno := PERMISSION_DENIED }, -1)
      else if fd = 1 ∨ fd = 2 then some (s, (n : Int))
      else if s.block_size = 0 ∨ n ≥ 2147483648 then none
      else
        -- handle append mode
        let prepared : Option (pennfat_state_t × file_descriptor_t) :=
          if f.mode = F_APPEND then
            if e.first_block ≠ FAT_ENTRY_LAST then
              match chain_last (s.fat.length + 1) s e.first_block with
              | none => none
              | some block =>
                some (slot_set s fd { f with offset := e.size, current_block := block },
                  { f with offset := e.size, current_block := block })
            else some (slot_set s fd { f with offset := e.size }, { f with offset := e.size })
          else some (s, f)
        match prepared with
        | none => none
        | some (s1, f1) =>
          match write_loop fd p buf n (n + 1) s1 0 f1.current_block
              (f1.offset % s1.block_size) with
          | none => none
          | some (s2, r) =>
            if r < 0 then some (s2, r)
            else
              match entry_get s2 p with
              | none => none
              | some e2 => some (entry_set s2 p { e2 with mtime := now }, r)

/-- The loop of `k_unlink` that frees the chain (lines 452-458): `m` is
`max_blocks - blocks_freed`. -/
def unlink_loop : Nat → pennfat_state_t → Nat → Option pennfat_state_t
  | 0, s, _ => some s
  | m + 1, s, block =>
    if block ≠ FAT_ENTRY_LAST ∧ block ≠ FAT_ENTRY_FREE then
      match fat_get s block with
      | none => none
      | some next =>
        match fat_set s block FAT_ENTRY_FREE with
        | none => none
        | some s1 => unlink_loop m s1 next
    else some s

/-- `k_unlink(fname)`. -/
def k_unlink (s : pennfat_state_t) (fname : List Nat) : Option (pennfat_state_t × Int) :=
  if ¬ s.is_mounted then some (s, FS_NOT_MOUNTED)
  else
    match find_dir_entry s fname with
    | none => none
    | some none => some (s, FILE_NOT_FOUND)
    | some (some i) =>
      match s.root_dir[i]? with
      | none => none
      | some e =>
        if s.open_files.any (fun f => decide (f.entry = some (entry_ptr.root i))) then
          -- mark as deleted but in use
          some ({ s with root_dir := s.root_dir.set i { e with name := e.name.set 0 2 } }, 0)
        else
          match unlink_loop (s.fat_size / 2) s e.first_block with
          | none => none
          | some s1 =>
            let gone : dir_entry_t :=
              { e with name := (List.replicate 32 0).set 0 DIR_ENTRY_DELETED }
            let s2 : pennfat_state_t := { s1 with root_dir := s1.root_dir.set i gone }
            match sync_directory_entry (host_write s2 s2.block_size (dir_block_bytes s2 0)) with
            | none => none
            | some s3 => some (s3, 0)

/-- The loop of `k_lseek` that walks `target_block` links from the first block
(lines 516-518). -/
def seek_walk : Nat → pennfat_state_t → Nat → Option Nat
  | 0, _, block => some block
  | m + 1, s, block =>
    if block ≠ FAT_ENTRY_LAST then
      match fat_get s block with
      | none => none
      | some next => seek_walk m s next
    else some block

/-- The `int` with the bits of a 32-bit unsigned value. -/
def to_int32 (v : Nat) : Int :=
  if v < 2147483648 then (v : Int) else (v : Int) - 4294967296

/-- `k_lseek(fd, offset, whence)`. -/
def k_lseek (s : pennfat_state_t) (fd : Int) (offset : Int) (whence : Int) :
    Option (pennfat_state_t × Int) :=
  match slot_get s fd with
  | none => some (s, FD_INVALID)
  | some (f, p) =>
    match entry_get s p with
    | none => none
    | some e =>
      if whence ≠ F_SEEK_SET ∧ whence ≠ F_SEEK_CUR ∧ whence ≠ F_SEEK_END then
        some (s, INVALID_WHENCE)
      else if s.block_size = 0 then none
      else
        let raw : Nat :=
          if whence = F_SEEK_SET then (offset % 4294967296).toNat
          else if whence = F_SEEK_CUR then (((f.offset : Int) + offset) % 4294967296).toNat
          else (((e.size : Int) + offset) % 4294967296).toNat
        let new_offset := if raw > e.size ∧ f.mode % 4 = 0 then e.size else raw
        if new_offset / s.block_size ≠ f.offset / s.block_size then
          match seek_walk (new_offset / s.block_size) s e.first_block with
          | none => none
          | some block =>
            some (slot_set s fd { f with current_block := block, offset := new_offset },
              to_int32 new_offset)
        else some (slot_set s fd { f with offset := new_offset }, to_int32 new_offset)

/-- The cleared slot left by `k_close` (`memset` to 0, then `fd = -1`). -/
def closed_slot : file_descriptor_t :=
  { fd := -1, current_block := 0, offset := 0, mode := 0, ref_count := 0, entry := none }

/-- `k_close(fd)`. -/
def k_close (s : pennfat_state_t) (fd : Int) : pennfat_state_t × Int :=
  match slot_get s fd with
  | none => ({ s with p_errno := FD_INVALID }, -1)
  | some (f, _) =>
    if f.ref_count - 1 ≤ 0 then (slot_set s fd closed_slot, 0)
    else (slot_set s fd { f with ref_count := f.ref_count - 1 }, 0)


/-! ### `pennfat.c` -/

/-- The global `state` before anything is mounted (`pennfat_state_t state = {0}`),
with no image attached. -/
def state0 : pennfat_state_t :=
  { fat := [], data := fun _ => 0, img_size := 0, fat_blocks := 0, block_size := 0,
    fat_size := 0, data_start := 0, root_dir := [], std_entries := [], is_mounted := false,
    open_files := List.replicate 32
      { fd := 0, current_block := 0, offset := 0, mode := 0, ref_count := 0, entry := none },
    root_dir_blocks := 0, p_errno := 0 }

/-- The table `block_sizes` of `mkfs`. -/
def block_sizes : List Nat := [256, 512, 1024, 2048, 4096]

/-- `mkfs(fs_name, blocks_in_fat, block_size_config)`, the host calls succeeding:
the value returned and, when the image is created, the host file.  The counts
are computed in 32 bits as in the source. -/
def mkfs (s : pennfat_state_t) (blocks_in_fat block_size_config : Int) :
    Int × Option host_file :=
  if s.is_mounted then (FS_NOT_MOUNTED, none)
  else if blocks_in_fat < 1 ∨ blocks_in_fat > 32 then (INVALID_FAT_CONFIG, none)
  else if block_size_config < 0 ∨ block_size_config > 4 then (INVALID_FAT_CONFIG, none)
  else
    let b := blocks_in_fat.toNat
    let block_size := block_sizes.getD block_size_config.toNat 0
    let fat_entries := (b * block_size) / 2
    let data_blocks := (fat_entries + 4294967295) % 4294967296
    let total_blocks := (b + data_blocks) % 4294967296
    let total := (total_blocks * block_size) % 4294967296
    let total_size :=
      if blocks_in_fat = 32 ∧ block_size_config = 4 then (total + 4294967296 - 4096) % 4294967296
      else total
    let header := (b * 256 + block_size_config.toNat) % 65536
    (0, some
      { size := total_size,
        bytes := fun a =>
          if a ≥ total_size then 0
          else if a = 0 then header % 256
          else if a = 1 then header / 256
          else if a = 2 ∨ a = 3 then 255
          else 0 })

/-- The entry made by `pmount` for a standard stream: only the name and the
permission are set by the source; the other fields are taken as zero. -/
def std_entry (name : List Nat) (perm : Nat) : dir_entry_t :=
  { zero_entry with name := stored_name name, perm := perm }

/-- The loop of `pmount` that loads the root directory (lines 136-143): `m` is
`max_dir_blocks - blocks_read`, `dir` the entries read so far.  A block that the
file does not hold in full leaves the rest of the buffer as it was, taken as
zero. -/
def load_root_loop (s : pennfat_state_t) :
    Nat → Nat → List dir_entry_t → Nat → Option (List dir_entry_t × Nat)
  | 0, _, dir, blocks_read => some (dir, blocks_read)
  | m + 1, root_block, dir, blocks_read =>
    if root_block ≠ FAT_ENTRY_LAST then
      match fat_get s root_block with
      | none => none
      | some next =>
        load_root_loop s m next
          (dir ++ (List.range (s.block_size / 64)).map (fun j =>
            decode_entry (pad_to 64
              (((pad_to s.block_size (host_read s (data_pos s root_block 0) s.block_size)).drop
                (64 * j)).take 64))))
          (blocks_read + 1)
    else some (dir, blocks_read)

/-- `pmount(fs_name)` on the host file `img`, the host calls succeeding: the new
state and the value returned. -/
def pmount (s : pennfat_state_t) (img : host_file) : Option (pennfat_state_t × Int) :=
  if s.is_mounted then some (s, FS_NOT_MOUNTED)
  else
    let e := img.bytes 0 % 256 + 256 * (img.bytes 1 % 256)
    if e % 256 > 22 then none
    else
      let block_size := (256 * 2 ^ (e % 256)) % 65536
      let fat_blocks := e / 256
      let fat_size := block_size * fat_blocks
      let s1 : pennfat_state_t :=
        { s with block_size := block_size, fat_blocks := fat_blocks, fat_size := fat_size,
                 img_size := img.size, data := img.bytes }
      if fat_size = 0 then some (s1, -1)
      else
        let s2 : pennfat_state_t :=
          { s1 with
            fat := (List.range (fat_size / 2)).map (fun i =>
              img.bytes (2 * i) % 256 + 256 * (img.bytes (2 * i + 1) % 256)),
            data_start := fat_size }
        match load_root_loop s2 64 1 [] 0 with
        | none => none
        | some (dir, blocks_read) =>
          let std (i : Int) (mode : Int) : file_descriptor_t :=
            { fd := i, current_block := 0, offset := 0, mode := mode, ref_count := 1,
              entry := some (entry_ptr.std i.toNat) }
          some ({ s2 with
            root_dir := dir, root_dir_blocks := blocks_read,
            std_entries := [std_entry [115, 116, 100, 105, 110] PERM_READ,
                            std_entry [115, 116, 100, 111, 117, 116] PERM_WRITE,
                            std_entry [115, 116, 100, 101, 114, 114] PERM_WRITE],
            open_files := [std 0 F_READ, std 1 F_WRITE, std 2 F_WRITE] ++
              (s2.open_files.drop 3).map (fun f => { f with fd := -1 }),
            is_mounted := true }, 0)

/-! ### Chains -/

/-- Following the FAT from block `b` visits exactly the blocks of the list, in
order, and then reaches `FAT_ENTRY_LAST`. -/
def is_chain (fat : List Nat) : Nat → List Nat → Prop
  | b, [] => b = FAT_ENTRY_LAST
  | b, c :: rest =>
    c = b ∧ b ≠ FAT_ENTRY_LAST ∧ ∃ next, fat[b]? = some next ∧ is_chain fat next rest

/-- Every open-file slot points to an entry, and none of these entries, except
those reached through a pointer accepted by `skip`, has the name `fname`. -/
def open_names_differ (s : pennfat_state_t) (skip : entry_ptr → Bool) (fname : List Nat) :
    Bool :=
  s.open_files.all (fun f =>
    match f.entry with
    | none => true
    | some p =>
      match entry_get s p with
      | none => false
      | some e => skip p || decide (cstr e.name ≠ cstr fname))

/-- The geometry that `pmount` derives from the header of an image made by
`mkfs`: `b` FAT blocks (1..32) of `256 * 2^c` bytes (`c` in 0..4), the data
region starting right after the FAT, which has one 16-bit entry for every two
bytes. -/
def mounted_geometry (s : pennfat_state_t) : Prop :=
  ∃ b c, 1 ≤ b ∧ b ≤ 32 ∧ c ≤ 4 ∧ s.block_size = 256 * 2 ^ c ∧
    s.fat_size = b * s.block_size ∧ s.data_start = s.fat_size ∧
    s.fat.length = s.fat_size / 2

/-- The free blocks of the image: the indices from 2 on whose FAT entry is
`FAT_ENTRY_FREE`, below 65535 (with 65536 entries the last index is the value
`FAT_ENTRY_LAST` and, after the deduction `mkfs` makes for that geometry, it
has no block in the image). -/
def free_blocks (s : pennfat_state_t) : List Nat :=
  (List.range s.fat.length).filter
    (fun i => decide (2 ≤ i ∧ i < 65535 ∧ s.fat.getD i 1 = FAT_ENTRY_FREE))

/-- The offset in the image of byte `o` of data block `b`. -/
def block_addr (s : pennfat_state_t) (b o : Nat) : Nat :=
  s.data_start + (b - 1) * s.block_size + o

/-- The state `s'` differs from `s` at most in the bytes of the data region and
in the length of the image. -/
def same_meta (s s' : pennfat_state_t) : Prop :=
  s' = { s with data := s'.data, img_size := s'.img_size }

/-- The root directory occupies the blocks `D`: the chain that starts at block
1, one block for each block of the in-memory directory, none of them block 0. -/
def dir_chain (s : pennfat_state_t) (D : List Nat) : Prop :=
  is_chain s.fat 1 D ∧ D.length = s.root_dir_blocks ∧ 0 ∉ D

/-- The state of a file while it is written from offset 0 through a write
descriptor: descriptor `fd` (3 or more) is open on the entry at index `i` of the
root directory, a regular readable and writable file whose chain is the
non-empty list of blocks `B`, disjoint from the blocks `D` of the directory; the
write head and the size are `w`, the head stands in the last block of the
chain, and the first `w` bytes stored along the chain are those of `buf`, all
inside the image. -/
structure write_inv (s : pennfat_state_t) (fd : Int) (i : Nat) (B D : List Nat)
    (buf : Nat → Nat) (w : Nat) : Prop where
  geom : mounted_geometry s
  fd_ge : 3 ≤ fd
  slot : ∃ f, slot_get s fd = some (f, entry_ptr.root i) ∧ f.offset = w ∧
    f.mode = F_WRITE ∧ B.getLast? = some f.current_block
  entry : ∃ e, s.root_dir[i]? = some e ∧ B.head? = some e.first_block ∧ e.size = w ∧
    e.perm = PERM_READ_WRITE
  chain : is_chain s.fat (B.headD 0) B
  blocks : ∀ b ∈ B, 2 ≤ b
  dir : dir_chain s D
  disj : ∀ b ∈ B, b ∉ D
  content : ∀ k o, k < B.length → o < s.block_size → k * s.block_size + o < w →
    s.data (block_addr s (B.getD k 0) o) = buf (k * s.block_size + o) ∧
    block_addr s (B.getD k 0) o < s.img_size

/-! ## Sample states -/

/-- A PCB of the given pid and priority, child of init, runnable. -/
def sample_pcb (pid prio : Int) : pcb_t :=
  { pid := pid, job_id := 0, ppid := 1, priority := prio, file_descriptors := [],
    status := P_RUNNING, children := [], wake_tick := 0, remaining_sleep_ticks := 0,
    waited_by := 0, is_background := false }

/-- A kernel with one CPU-bound PCB queued at each priority. -/
def kernel_three : Kernel :=
  { heap := [some (sample_pcb 3 0), some (sample_pcb 4 1), some (sample_pcb 5 2)],
    pcb_list := [0, 1, 2], background_jobs := [], stopped_jobs := [], job_list := [],
    sleeping_processes := [], job_counter := 2, current_tick := 0,
    q0 := [0], q1 := [1], q2 := [2], schedule_index := 0, running_pid := 0 }

/-- A sleeper that is due at tick 1, entered twice in the sleeping set (as
`k_sleep` followed by `k_kill(pid, P_SIGCONT)` leaves it). -/
def kernel_dup : Kernel :=
  { heap := [some { sample_pcb 3 0 with status := P_BLOCKED, wake_tick := 1,
                                        remaining_sleep_ticks := 0 }],
    pcb_list := [0], background_jobs := [], stopped_jobs := [], job_list := [],
    sleeping_processes := [0, 0], job_counter := 2, current_tick := 0,
    q0 := [], q1 := [], q2 := [], schedule_index := 0, running_pid := 0 }

/-- Two sleepers, the first due at tick 1 and the second at tick 9. -/
def kernel_sleepers : Kernel :=
  { heap := [some { sample_pcb 3 1 with status := P_BLOCKED, wake_tick := 1 },
             some { sample_pcb 4 2 with status := P_BLOCKED, wake_tick := 9 }],
    pcb_list := [0, 1], background_jobs := [], stopped_jobs := [], job_list := [],
    sleeping_processes := [0, 1], job_counter := 2, current_tick := 0,
    q0 := [], q1 := [], q2 := [], schedule_index := 0, running_pid := 0 }

/-- Init, the shell with two children (pid 3 running, pid 4 a zombie), and a
child of the zombie. -/
def kernel_wait : Kernel :=
  { heap := [some { sample_pcb 1 0 with ppid := 0, status := P_BLOCKED, children := [1] },
             some { sample_pcb 2 0 with ppid := 1, children := [2, 3] },
             some { sample_pcb 3 1 with ppid := 2, job_id := 3 },
             some { sample_pcb 4 1 with ppid := 2, job_id := 4, status := P_ZOMBIED,
                                        children := [4] },
             some { sample_pcb 5 2 with ppid := 4, job_id := 4 }],
    pcb_list := [0, 1, 2, 3, 4], background_jobs := [], stopped_jobs := [],
    job_list := [2, 3], sleeping_processes := [], job_counter := 4, current_tick := 0,
    q0 := [1], q1 := [2], q2 := [4], schedule_index := 0, running_pid := 2 }

/-- The state after `mkfs(img, 1, 0)` and `pmount(img)` from the initial state. -/
def mounted_1_0 : Option pennfat_state_t :=
  match (mkfs state0 1 0).2 with
  | none => none
  | some img => (pmount state0 img).map Prod.fst

/-- The file name `big`. -/
def name_big : List Nat := [98, 105, 103]

/-- The file name `f`. -/
def name_f : List Nat := [102]

/-- The buffer whose bytes are those of a list. -/
def buf_of (l : List Nat) : Nat → Nat := fun j => l.getD j 0

/-- On the fresh image of geometry (1, 0): `f` is created with
`k_open(f, F_WRITE)` and `n` bytes `a` are written through the descriptor, which
stays open. -/
def scen_written (n : Nat) : Option pennfat_state_t :=
  match mounted_1_0 with
  | none => none
  | some s =>
    match k_open s name_f F_WRITE 0 with
    | none => none
    | some (s1, fd) => (k_write s1 fd (fun _ => 97) n 0).map Prod.fst

/-- The scenario of C6: `f` holds one full block (256 bytes `a`) and is closed;
it is opened again with `F_APPEND` and the byte `b` is written.  The value is
the state and what `k_write` returned. -/
def scen_append : Option (pennfat_state_t × Int) :=
  match scen_written 256 with
  | none => none
  | some s =>
    match k_open (k_close s 3).1 name_f F_APPEND 0 with
    | none => none
    | some (s1, fd) => k_write s1 fd (buf_of [98]) 1 0

/-- Reading `n` bytes of descriptor 3 from offset 0: `k_lseek(3, 0, F_SEEK_SET)`
then `k_read(3, n, buf)`; the value returned and the bytes read. -/
def read_back (s : pennfat_state_t) (n : Nat) : Option (Int × List Nat) :=
  match k_lseek s 3 0 F_SEEK_SET with
  | none => none
  | some (s1, _) => (k_read s1 3 n).map Prod.snd

/-- The kernel after `init_kernel` and the spawn of the shell by `pennos.c`
(`s_spawn(penn_shell, .., 1, 0, P_BLOCKED, true, false)`). -/
def kernel_booted : Option Kernel :=
  match init_kernel 0 with
  | none => none
  | some k => (k_fork k 0 1 0 P_BLOCKED true false 0).map Prod.fst

/-- The image of geometry (1, 0) with the file `f` of 300 bytes (blocks 2 and 3)
open on descriptor 3. -/
def state_written : pennfat_state_t := (scen_written 300).getD state0

/-- On the fresh image of geometry (1, 0): `big` is created with
`k_open(big, F_WRITE)`; the state and the descriptor returned. -/
def scen_big_open : Option (pennfat_state_t × Int) :=
  match mounted_1_0 with
  | none => none
  | some s => k_open s name_big F_WRITE 0

/-- The image of geometry (1, 0) with the new file `big` open on descriptor 3. -/
def big_open : pennfat_state_t := (scen_big_open.map Prod.fst).getD state0

/-- The directory entry of `big` right after its creation. -/
def entry_big : dir_entry_t :=
  { zero_entry with name := stored_name name_big, size := 0, first_block := 2,
                    type := FT_REGULAR, perm := PERM_READ_WRITE }

/-- The state `t` has the FAT, the image, the geometry and the in-memory root
directory of `s`. -/
def same_disk (s t : pennfat_state_t) : Prop :=
  t.fat = s.fat ∧ t.data = s.data ∧ t.img_size = s.img_size ∧ t.block_size = s.block_size ∧
    t.fat_size = s.fat_size ∧ t.data_start = s.data_start ∧ t.root_dir = s.root_dir

/-- The blocks that the growth of the root directory takes before a file is
created: one when at most one entry of the directory is unused. -/
def dir_cost (s : pennfat_state_t) : Nat :=
  if valid_entries (s.root_dir.take (total_entries s)) + 1 ≥ total_entries s then 1 else 0

/-- The entry that `find_or_create_entry` makes for a new file. -/
def new_entry (fname : List Nat) (first_block now : Nat) : dir_entry_t :=
  { zero_entry with
    name := stored_name fname, size := 0, first_block := first_block,
    type := FT_REGULAR, perm := PERM_READ_WRITE, mtime := now }

/-- The state after `mkfs(img, 1, 0)` and `pmount(img)`. -/
def fresh_1_0 : pennfat_state_t := mounted_1_0.getD state0

/-- A call on the queue of one priority level: `add_to_queue(pcb)` for the PCB at
an address, or `remove_from_queue(priority)`. -/
inductive queue_op where
  | add (p : Nat)
  | remove
deriving DecidableEq, Repr

/-- A sequence of calls of `add_to_queue` and `remove_from_queue(priority)`, with
the values returned by the calls of `remove_from_queue`, in order (`none` is
NULL). -/
def run_queue_ops (priority : Int) : Kernel → List queue_op → Option (Kernel × List (Option Nat))
  | k, [] => some (k, [])
  | k, queue_op.add p :: ops =>
    match add_to_queue k p with
    | none => none
    | some k1 => run_queue_ops priority k1 ops
  | k, queue_op.remove :: ops =>
    match remove_from_queue k priority with
    | none => none
    | some (k1, r) =>
      match run_queue_ops priority k1 ops with
      | none => none
      | some (k2, rs) => some (k2, r :: rs)

/-- What a first-in first-out queue holding `q` (oldest first) answers to a
sequence of calls: an insertion puts the element behind all others, a removal
answers with the oldest element, or with nothing when the queue is empty. -/
def fifo_answers : List Nat → List queue_op → List (Option Nat)
  | _, [] => []
  | q, queue_op.add p :: ops => fifo_answers (q ++ [p]) ops
  | [], queue_op.remove :: ops => none :: fifo_answers [] ops
  | x :: q, queue_op.remove :: ops => some x :: fifo_answers q ops

/-- The elements inserted by a sequence of calls, in order. -/
def inserted : List queue_op → List Nat
  | [] => []
  | queue_op.add p :: ops => p :: inserted ops
  | queue_op.remove :: ops => inserted ops

/-- `k_sleep(ticks)` called by the thread of the PCB at `self`, up to the
suspension of the caller.  `ticks` is an `unsigned int`; the sum with
`current_tick` is formed in 32 bits without sign and stored in an `int`. -/
def k_sleep (k : Kernel) (self : Nat) (ticks : Nat) : Option Kernel :=
  if ticks = 0 then some k
  else
    match find_parent_with_current_thread k self with
    | none => none
    | some none => none
    | some (some p) =>
      match deref k p with
      | none => none
      | some pcb =>
        match remove_pcb_from_queue k p pcb.priority with
        | none => none
        | some k1 =>
          some { store k1 p
                  { pcb with status := P_BLOCKED,
                             wake_tick :=
                               to_int32 (((k1.current_tick + (ticks : Int)) % 4294967296).toNat),
                             remaining_sleep_ticks := to_int32 ticks } with
                 sleeping_processes := k1.sleeping_processes ++ [p] }

/-- Lines 360-363 of `k_proc_kill`: a blocked parent is made `P_RUNNING` and
enqueued.  `parent` is the pointer looked up at the start of the function; NULL
is dereferenced without a test. -/
def wake_parent (k : Kernel) (parent : Option Nat) : Option Kernel :=
  match parent with
  | none => none
  | some pa =>
    match deref k pa with
    | none => none
    | some pp =>
      if pp.status = P_BLOCKED then add_to_queue (store k pa { pp with status := P_RUNNING }) pa
      else some k

/-- Lines 326-340 and 341-354 of `k_proc_kill` (`P_SIGTERM` and `P_SIGQUIT`, which
differ in the log line only): the PCB becomes a zombie and leaves its queue; when
`waited_by` is not 0 the PCB of that pid is made `P_RUNNING` and enqueued.  The
suspension of the calling thread that follows leaves the tables alone. -/
def kill_zombie (k : Kernel) (proc : Nat) : Option Kernel :=
  match deref k proc with
  | none => none
  | some pcb =>
    match remove_pcb_from_queue (store k proc { pcb with status := P_ZOMBIED }) proc
        pcb.priority with
    | none => none
    | some k1 =>
      match k_get_pcb_with_given_pid k1 pcb.waited_by with
      | none => none
      | some waiting =>
        if pcb.waited_by ≠ 0 then
          match waiting with
          | none => none
          | some wa =>
            match deref k1 wa with
            | none => none
            | some wp => add_to_queue (store k1 wa { wp with status := P_RUNNING }) wa
        else some k1

/-- `k_proc_kill(proc, signal)`: the new kernel and the value returned.  The
differences of ticks are taken in `Int` (no overflow of `int`). -/
def k_proc_kill (k : Kernel) (proc : Nat) (signal : Int) : Option (Kernel × Int) :=
  match deref k proc with
  | none => none
  | some pcb =>
    match k_get_pcb_with_given_pid k pcb.ppid with
    | none => none
    | some parent =>
      if signal = P_SIGSTOP then
        match remove_from_queue (store k proc { pcb with status := P_STOPPED }) pcb.priority with
        | none => none
        | some (k2, _) =>
          (wake_parent
            { (if proc ∈ k2.sleeping_processes then
                 { store k2 proc
                     { pcb with status := P_STOPPED,
                                remaining_sleep_ticks := pcb.wake_tick - k2.current_tick } with
                   sleeping_processes := k2.sleeping_processes.erase proc }
               else k2) with
              stopped_jobs := k2.stopped_jobs ++ [proc] } parent).map (fun k5 => (k5, 0))
      else if signal = P_SIGCONT then
        if pcb.remaining_sleep_ticks > 0 then
          match remove_pcb_from_queue
              { store k proc
                  { pcb with status := P_BLOCKED,
                             wake_tick := k.current_tick + pcb.remaining_sleep_ticks,
                             remaining_sleep_ticks := 0 } with
                sleeping_processes := k.sleeping_processes ++ [proc] } proc pcb.priority with
          | none => none
          | some k2 => (wake_parent k2 parent).map (fun k5 => (k5, 0))
        else
          match add_to_queue (store k proc { pcb with status := P_RUNNING }) proc with
          | none => none
          | some k2 => (wake_parent k2 parent).map (fun k5 => (k5, 0))
      else if signal = P_SIGTERM ∨ signal = P_SIGQUIT then
        match kill_zombie k proc with
        | none => none
        | some k2 => (wake_parent k2 parent).map (fun k5 => (k5, 0))
      else some (k, -1)

/-- `k_kill(pid, signal)`.  A signal outside 0..5 panics. -/
def k_kill (k : Kernel) (pid : Int) (signal : Int) : Option (Kernel × Int) :=
  match k_get_pcb_with_given_pid k pid with
  | none => none
  | some none => some (k, -1)
  | some (some proc) =>
    if signal < 0 ∨ signal > 5 then none
    else k_proc_kill k proc signal

/-- `k_exit()` called by the thread of the PCB at `self`. -/
def k_exit (k : Kernel) (self : Nat) : Option Kernel :=
  match find_parent_with_current_thread k self with
  | none => none
  | some none => none
  | some (some cur) =>
    match deref k cur with
    | none => none
    | some pcb =>
      match k_get_pcb_with_given_pid k pcb.ppid with
      | none => none
      | some parent =>
        match remove_pcb_from_queue (store k cur { pcb with status := P_ZOMBIED }) cur
            pcb.priority with
        | none => none
        | some k1 =>
          match parent with
          | none => none
          | some _ =>
            match k_get_pcb_with_given_pid k1 pcb.waited_by with
            | none => none
            | some none => some k1
            | some (some wa) =>
              match deref k1 wa with
              | none => none
              | some wp => if wp.status = P_BLOCKED then add_to_queue k1 wa else some k1

/-- The shell (PCB at address 1, pid 2) of the booted kernel calls `k_sleep(2)` and
two ticks pass: the wake-up phase of the second one makes it `P_RUNNING` again and
takes it out of the sleeping set. -/
def scen_woken : Option Kernel :=
  ((kernel_booted.bind (fun k => k_sleep k 1 2)).bind scheduler_tick).bind scheduler_tick

/-- After `scen_woken`: `k_kill(2, P_SIGSTOP)` followed by `k_kill(2, P_SIGCONT)`. -/
def scen_stop_cont : Option Kernel :=
  scen_woken.bind (fun k =>
    (k_kill k 2 P_SIGSTOP).bind (fun r => (k_kill r.1 2 P_SIGCONT).map Prod.fst))

/-- The pid, status and `wake_tick` of the PCB at address `a`, and whether the
address is in the sleeping set and in the run queue of priority 0. -/
def pcb_view (k : Kernel) (a : Nat) : Option (Int × Nat × Int) × Bool × Bool :=
  ((deref k a).map (fun p => (p.pid, p.status, p.wake_tick)),
    decide (a ∈ k.sleeping_processes), decide (a ∈ k.q0))

/-- From the booted kernel: the shell (address 1) forks a child, which exits and
is reaped by the shell with `k_waitpid(-1, NULL, nohang)`; the shell forks again.
The value is the pair of the pids returned by the two calls of `k_fork`. -/
def scen_pid_reuse : Option (Int × Int) :=
  kernel_booted.bind (fun k0 =>
    (k_fork k0 1 0 1 P_RUNNING false false 0).bind (fun r1 =>
      (k_exit r1.1 2).bind (fun k2 =>
        (k_waitpid k2 1 (-1) none true (-1)).bind (fun r3 =>
          (k_fork r3.1 1 0 1 P_RUNNING false false 0).map (fun r4 => (r1.2, r4.2))))))

/-- From the booted kernel: the shell (address 1) forks a child (address 2), which
forks a child of its own (address 3). -/
def scen_grandchild : Option Kernel :=
  kernel_booted.bind (fun k0 =>
    (k_fork k0 1 0 1 P_RUNNING false false 0).bind (fun r1 =>
      (k_fork r1.1 2 0 1 P_RUNNING false false 0).map Prod.fst))

abbrev PERM_EXEC : Nat := 1

/-- `chmod(filename, perm)`: add `perm` to the permission byte of the entry;
`now` is the value of `time(NULL)`. -/
def chmod (s : pennfat_state_t) (filename : List Nat) (perm : Int) (now : Nat) :
    Option (pennfat_state_t × Int) :=
  if ¬ s.is_mounted then some (s, FS_NOT_MOUNTED)
  else
    match find_dir_entry s filename with
    | none => none
    | some none => some (s, FILE_NOT_FOUND)
    | some (some i) =>
      match s.root_dir[i]? with
      | none => none
      | some e =>
        if (e.perm : Int) + perm < 0 ∨ (e.perm : Int) + perm > 7 then some (s, INVALID_MODE)
        else
          match sync_directory_entry
              { s with root_dir :=
                  s.root_dir.set i { e with perm := ((e.perm : Int) + perm).toNat,
                                            mtime := now } } with
          | none => none
          | some s1 => some (s1, 0)

/-- The loop of `s_chmod` over the characters that follow the sign: `r`, `w` and
`x` each call `chmod` with the signed value of the bit; other characters are
skipped.  The values returned by `chmod` are only printed. -/
def s_chmod_loop (filename : List Nat) (sign : Int) (now : Nat) :
    List Nat → pennfat_state_t → Option pennfat_state_t
  | [], s => some s
  | c :: rest, s =>
    if c = 114 then
      match chmod s filename (sign * (PERM_READ : Int)) now with
      | none => none
      | some (s1, _) => s_chmod_loop filename sign now rest s1
    else if c = 119 then
      match chmod s filename (sign * (PERM_WRITE : Int)) now with
      | none => none
      | some (s1, _) => s_chmod_loop filename sign now rest s1
    else if c = 120 then
      match chmod s filename (sign * (PERM_EXEC : Int)) now with
      | none => none
      | some (s1, _) => s_chmod_loop filename sign now rest s1
    else s_chmod_loop filename sign now rest s

/-- `s_chmod(argv)` with `argv[1] = flags` and `argv[2] = filename`, both given;
`now` is the value `time(NULL)` has during the call. -/
def s_chmod (s : pennfat_state_t) (flags filename : List Nat) (now : Nat) :
    Option pennfat_state_t :=
  match cstr flags with
  | 45 :: rest => s_chmod_loop filename (-1) now rest s
  | 43 :: rest => s_chmod_loop filename 1 now rest s
  | _ => some s

/-- The flags `-w`. -/
def flags_minus_w : List Nat := [45, 119]

/-- The image of geometry (1, 0) with the file `f` of 300 bytes (blocks 2 and 3)
open on descriptor 3, after `chmod "-w" f`: the permission of `f` is `PERM_READ`. -/
def state_readonly : pennfat_state_t :=
  (s_chmod state_written flags_minus_w name_f 0).getD state0

/-- The kernel `k'` has the process list and the job counter of `k`, the same
addresses alive, and every PCB has the pid, ppid, job id and children it has in
`k`: the two differ at most in what `k_fork` and `k_waitpid` do not decide
(status, priority, sleep and wait fields, descriptor tables, queues, job
tables, ticks). -/
def same_tree (k k' : Kernel) : Prop :=
  k'.pcb_list = k.pcb_list ∧ k'.job_counter = k.job_counter ∧
    (∀ a, pcb_field (fun p => p.pid) k' a = pcb_field (fun p => p.pid) k a) ∧
    (∀ a, pcb_field (fun p => p.ppid) k' a = pcb_field (fun p => p.ppid) k a) ∧
    (∀ a, pcb_field (fun p => p.job_id) k' a = pcb_field (fun p => p.job_id) k a) ∧
    (∀ a, pcb_field (fun p => p.children) k' a = pcb_field (fun p => p.children) k a)

/-- The states of the kernel within one boot: the state `init_kernel` leaves, and
from a state, the state after a `k_fork` that returns, after a `k_waitpid` that
returns or suspends its caller, and after any other step, which leaves the
process tree alone. -/
inductive reachable : Kernel → Prop where
  | boot (uninit : Int) (k : Kernel) : init_kernel uninit = some k → reachable k
  | fork (k k' : Kernel) (self : Nat) (parent_id priority : Int) (status : Nat)
      (is_init is_background : Bool) (uninit pid : Int) :
      reachable k →
      k_fork k self parent_id priority status is_init is_background uninit = some (k', pid) →
      reachable k'
  | waitpid (k k' : Kernel) (self : Nat) (pid : Int) (ws ws' : Option Int) (nohang : Bool)
      (ppid : Int) (out : WaitOutcome) :
      reachable k → k_waitpid k self pid ws nohang ppid = some (k', ws', out) → reachable k'
  | other (k k' : Kernel) : reachable k → same_tree k k' → reachable k'

/-- The shape of the process tables in a reachable state: the process list holds
live PCBs in the order of their pids, init (pid 1, ppid 0) first; the ppid of a
PCB is below its pid; the children of a listed PCB are distinct listed PCBs that
name it as parent; a PCB with a non-zero ppid is among the children of a listed
PCB of that pid; no job id exceeds the job counter, which is 2 at least. -/
structure tree_inv (k : Kernel) : Prop where
  live : ∀ a ∈ k.pcb_list, (deref k a).isSome
  sorted : k.pcb_list.Pairwise (fun a b =>
    ∀ pa pb, deref k a = some pa → deref k b = some pb → pa.pid < pb.pid)
  init : ∃ ia ip, k.pcb_list.head? = some ia ∧ deref k ia = some ip ∧ ip.pid = 1 ∧ ip.ppid = 0
  below : ∀ a ∈ k.pcb_list, ∀ pa, deref k a = some pa → pa.ppid < pa.pid
  kids : ∀ q ∈ k.pcb_list, ∀ qp, deref k q = some qp → qp.children.Nodup ∧
    ∀ c ∈ qp.children, c ∈ k.pcb_list ∧ ∃ cp, deref k c = some cp ∧ cp.ppid = qp.pid
  parent : ∀ a ∈ k.pcb_list, ∀ pa, deref k a = some pa → pa.ppid ≠ 0 →
    ∃ q ∈ k.pcb_list, ∃ qp, deref k q = some qp ∧ qp.pid = pa.ppid ∧ a ∈ qp.children
  jobs : 2 ≤ k.job_counter ∧
    ∀ a ∈ k.pcb_list, ∀ pa, deref k a = some pa → pa.job_id ≤ k.job_counter

/-- The reachable states together with the job ids handed out so far within the
boot (newest first): init gets job id 0, and every `k_fork` that returns adds
the job id of the PCB it made. -/
inductive history : Kernel → List Int → Prop where
  | boot (uninit : Int) (k : Kernel) : init_kernel uninit = some k → history k [0]
  | fork (k k' : Kernel) (js : List Int) (self : Nat) (parent_id priority : Int) (status : Nat)
      (is_init is_background : Bool) (uninit pid : Int) (cp : pcb_t) :
      history k js →
      k_fork k self parent_id priority status is_init is_background uninit = some (k', pid) →
      deref k' k.heap.length = some cp →
      history k' (cp.job_id :: js)
  | waitpid (k k' : Kernel) (js : List Int) (self : Nat) (pid : Int) (ws ws' : Option Int)
      (nohang : Bool) (ppid : Int) (out : WaitOutcome) :
      history k js → k_waitpid k self pid ws nohang ppid = some (k', ws', out) → history k' js
  | other (k k' : Kernel) (js : List Int) : history k js → same_tree k k' → history k' js

/-- The kernel after `init_kernel`. -/
def kernel_start : Kernel := (init_kernel 0).getD kernel_three

/-- The kernel after `init_kernel` and the spawn of the shell. -/
def kernel_shell : Kernel := kernel_booted.getD kernel_three

/-- The kernel after the shell of `kernel_shell` has forked a child. -/
def kernel_child : Kernel :=
  ((k_fork kernel_shell 1 0 1 P_RUNNING false false 0).map Prod.fst).getD kernel_three

/-- The run queues, the sleeping set and the stopped set of a kernel. -/
def queue_view (k : Kernel) : List Nat × List Nat × List Nat × List Nat × List Nat :=
  (k.q0, k.q1, k.q2, k.sleeping_processes, k.stopped_jobs)

/-- The pid and the status of the PCB at every address of the heap. -/
def status_view (k : Kernel) : List (Option (Int × Nat)) :=
  k.heap.map (fun o => o.map (fun p => (p.pid, p.status)))

/-- From `kernel_child` (init, the shell, and the child of pid 3 and priority 1 at
address 2): the shell forks a second child of priority 1 (pid 4, address 3), and
`k_kill(4, P_SIGSTOP)` follows. -/
def scen_stop_second : Option (Kernel × Int) :=
  (k_fork kernel_child 1 0 1 P_BLOCKED false false 0).bind (fun r => k_kill r.1 4 P_SIGSTOP)

/-- From `kernel_child`: the child (address 2, pid 3) calls `k_sleep(5)` and
`k_kill(3, signal)` follows. -/
def scen_kill_sleeper (signal : Int) : Option (Kernel × Int) :=
  (k_sleep kernel_child 2 5).bind (fun k => k_kill k 3 signal)

/-- From `kernel_child`: the child (address 2, pid 3) calls `k_exit`, and
`k_kill(3, P_SIGCONT)` follows. -/
def scen_cont_zombie : Option (Kernel × Int) :=
  (k_exit kernel_child 2).bind (fun k => k_kill k 3 P_SIGCONT)

/-- The entries of a FAT that are not `FAT_ENTRY_FREE`, with their index. -/
def used_entries (fat : List Nat) : List (Nat × Nat) :=
  fat.enum.filter (fun p => p.2 != FAT_ENTRY_FREE)

/-- The state after `mkfs(img, 2, 0)` and `pmount(img)` from the initial state:
two FAT blocks of 256 bytes. -/
def mounted_2_0 : Option pennfat_state_t :=
  match (mkfs state0 2 0).2 with
  | none => none
  | some img => (pmount state0 img).map Prod.fst

/-- On the fresh image of geometry (2, 0): `f` is created with
`k_open(f, F_WRITE)` and the descriptor is closed. -/
def scen_created_2_0 : Option pennfat_state_t :=
  mounted_2_0.bind (fun s => (k_open s name_f F_WRITE 0).map (fun r => (k_close r.1 r.2).1))

/-- After `scen_created_2_0`: `k_unlink(f)`. -/
def scen_unlinked_2_0 : Option (pennfat_state_t × Int) :=
  scen_created_2_0.bind (fun s => k_unlink s name_f)

/-- On the fresh image of geometry (1, 0): `f` is created with
`k_open(f, F_WRITE)`, then 256 bytes `a` and the byte `b` are written by two
calls of `k_write` on the descriptor.  The value is the final state and what
the two calls returned. -/
def scen_two_writes : Option (pennfat_state_t × Int × Int) :=
  mounted_1_0.bind (fun s =>
    (k_open s name_f F_WRITE 0).bind (fun r =>
      (k_write r.1 r.2 (fun _ => 97) 256 0).bind (fun r1 =>
        (k_write r1.1 r.2 (buf_of [98]) 1 0).map (fun r2 => (r2.1, r1.2, r2.2)))))

/-- The image of geometry (1, 0) with no free block: the file `big` of 32256
bytes holds the blocks 2..127. -/
def state_full : pennfat_state_t :=
  { fresh_1_0 with
    fat := [256, 65535] ++ (List.range 125).map (fun i => i + 3) ++ [65535],
    root_dir := fresh_1_0.root_dir.set 0 { entry_big with size := 32256 } }

/-- The first name byte, size, first block, type and perm of the entries of the
root directory. -/
def dir_view (s : pennfat_state_t) : List (Nat × Nat × Nat × Nat × Nat) :=
  s.root_dir.map (fun e => (e.name.headD 0, e.size, e.first_block, e.type, e.perm))

/-- A FAT of 65536 entries: `FAT[0]` is the header of the geometry (32, 4),
`FAT[65535]` is free and every other entry is `FAT_ENTRY_LAST`. -/
def fat_last_free : List Nat :=
  (List.range 65536).map
    (fun i => if i = 0 then 8196 else if i = 65535 then FAT_ENTRY_FREE else FAT_ENTRY_LAST)

/-- A mounted image of geometry (32, 4) in which every block but the last is in
use. -/
def state_last_free : pennfat_state_t :=
  { state0 with
    fat := fat_last_free,
    fat_blocks := 32, block_size := 4096, fat_size := 131072, data_start := 131072,
    is_mounted := true }

/-- The 16-bit entry `i` of the FAT held by a host file, read as `pmount` maps it
(little endian). -/
def image_fat_entry (img : host_file) (i : Nat) : Nat :=
  img.bytes (2 * i) % 256 + 256 * (img.bytes (2 * i + 1) % 256)

abbrev FILE_IN_USE : Int := -8

/-- The host file under a mounted state: its length and its bytes, those below
`fat_size` being the ones of the shared FAT mapping. -/
def image_of (s : pennfat_state_t) : host_file :=
  { size := s.img_size, bytes := fun a => img_byte s a }

/-- `punmount()`: the new state, the host file as it is left, and the value
returned.  The loop over the open files starts at `i = MAX_OPEN_FILES` and reads
`open_files[MAX_OPEN_FILES].entry`, beyond the array; `past_end` tells whether
the word found there is non-NULL.  The loop that writes the root directory is
that of `sync_directory_entry`.  The FAT is unmapped and the geometry reset;
the buffers freed (root directory, standard entries) are not read again before
`pmount` replaces them. -/
def punmount (s : pennfat_state_t) (past_end : Bool) :
    Option (pennfat_state_t × host_file × Int) :=
  if ¬ s.is_mounted then some (s, image_of s, FS_NOT_MOUNTED)
  else if past_end then some (s, image_of s, FILE_IN_USE)
  else if (s.open_files.drop 3).any (fun f => f.entry.isSome) then
    some (s, image_of s, FILE_IN_USE)
  else
    match sync_directory_entry s with
    | none => none
    | some s1 =>
      some ({ s1 with fat := [], is_mounted := false, block_size := 0, fat_blocks := 0,
                      fat_size := 0, data_start := 0 }, image_of s1, 0)

/-- The state after `mkfs(img, 4, 0)` and `pmount(img)`: four FAT blocks of 256
bytes, 512 FAT entries. -/
def mounted_4_0 : pennfat_state_t :=
  (match (mkfs state0 4 0).2 with
   | none => none
   | some img => (pmount state0 img).map Prod.fst).getD state0

/-- The name of the file number `i`: two letters. -/
def name_of (i : Nat) : List Nat := [97 + i / 16, 97 + i % 16]

/-- An image of geometry (4, 0) with 257 files of size 0, as 257 creations leave
it up to the numbering of the blocks: the root directory has grown to 65 blocks
(the chain 1, 2, .., 65), the files number 0 to 255 fill the first 64 blocks of
the directory and hold the blocks 66 to 321, the file `f` is the first entry of
block 65 and holds block 322. -/
def state_dir65 : pennfat_state_t :=
  { mounted_4_0 with
    fat := [1024] ++ (List.range 64).map (fun i => i + 2) ++ [65535]
      ++ List.replicate 257 65535 ++ List.replicate 189 0,
    root_dir := (List.range 256).map (fun i => new_entry (name_of i) (66 + i) 0) ++
      [new_entry name_f 322 0, zero_entry, zero_entry, zero_entry],
    root_dir_blocks := 65 }

/-- `punmount()` then `pmount` of the image it leaves. -/
def remount (s : pennfat_state_t) : Option (pennfat_state_t × Int) :=
  match punmount s false with
  | none => none
  | some (s1, img, r) => if r = 0 then pmount s1 img else some (s1, r)

/-! # Theorems -/

/-! ## Run queues -/

theorem queue_get_schedule (idx : Nat) (hidx : idx < 19) :
    ∃ prio, priority_schedule[idx]? = some prio ∧ (prio = 0 ∨ prio = 1 ∨ prio = 2) := by
  interval_cases idx <;> simp [priority_schedule]

theorem select_next_nonempty (k : Kernel) (hidx : k.schedule_index < 19)
    (hne : all_queues_nonempty k) :
    ∃ prio p rest k1, priority_schedule[k.schedule_index]? = some prio ∧
      queue_get k prio = some (p :: rest) ∧
      select_next k = some (k1, some p, prio) ∧
      k1.schedule_index = (k.schedule_index + 1) % 19 := by
  obtain ⟨prio, hp, hcase⟩ := queue_get_schedule k.schedule_index hidx
  obtain ⟨h0, h1, h2⟩ := hne
  have hq : ∃ p rest, queue_get k prio = some (p :: rest) := by
    rcases hcase with h | h | h <;> subst h
    · cases hq0 : k.q0 with
      | nil => exact absurd hq0 h0
      | cons p rest => exact ⟨p, rest, by simp [queue_get, hq0]⟩
    · cases hq1 : k.q1 with
      | nil => exact absurd hq1 h1
      | cons p rest => exact ⟨p, rest, by simp [queue_get, hq1]⟩
    · cases hq2 : k.q2 with
      | nil => exact absurd hq2 h2
      | cons p rest => exact ⟨p, rest, by simp [queue_get, hq2]⟩
  obtain ⟨p, rest, hq⟩ := hq
  refine ⟨prio, p, rest, { queue_set k prio rest with
      schedule_index := ((queue_set k prio rest).schedule_index + 1) % 19 }, hp, hq, ?_, ?_⟩
  · simp only [select_next, select_loop, hp, remove_from_queue, hq]
  · rcases hcase with h | h | h <;> subst h <;> simp [queue_set]

/-- The priorities selected by `n` dispatches that start at index `idx`. -/
theorem dispatch_run_priorities (ks : List Kernel) :
    ∀ idx, idx < 19 → (∀ k ∈ ks, all_queues_nonempty k) →
    ∃ tr, dispatch_run idx ks = some tr ∧
      tr.map Prod.snd
        = (List.range ks.length).map (fun j => priority_schedule.getD ((idx + j) % 19) 0) ∧
      List.Forall₂ (fun k r => ∃ p rest, r.1 = some p ∧ queue_get k r.2 = some (p :: rest))
        ks tr := by
  induction ks with
  | nil => intro idx _ _; exact ⟨[], rfl, by simp, List.Forall₂.nil⟩
  | cons k ks ih =>
    intro idx hidx hne
    have hk : all_queues_nonempty { k with schedule_index := idx } :=
      hne k (List.mem_cons_self _ _)
    obtain ⟨prio, p, rest, k1, hp, hq, hsel, hidx1⟩ :=
      select_next_nonempty { k with schedule_index := idx } hidx hk
    have hidx1lt : k1.schedule_index < 19 := by rw [hidx1]; exact Nat.mod_lt _ (by decide)
    obtain ⟨tr, htr, hmap, hall⟩ :=
      ih k1.schedule_index hidx1lt (fun k' hk' => hne k' (List.mem_cons_of_mem _ hk'))
    refine ⟨(some p, prio) :: tr, ?_, ?_, ?_⟩
    · simp only [dispatch_run, hsel, htr]
    · simp only [List.map_cons, List.length_cons, List.range_succ_eq_map, hmap, List.map_map]
      congr 1
      · simp only [Nat.add_zero, Nat.mod_eq_of_lt hidx]
        simp only [List.getD_eq_getElem?_getD]
        simp at hp
        simp [hp]
      · apply List.map_congr_left
        intro j _
        simp only [Function.comp, hidx1]
        congr 1
        simp only [Nat.add_mod, Nat.mod_mod]
        omega
    · refine List.Forall₂.cons ⟨p, rest, rfl, ?_⟩ hall
      have : queue_get { k with schedule_index := idx } prio = queue_get k prio := rfl
      rw [← this]; exact hq

/-- C1: from every starting value of `schedule_index` in 0..18, 19 consecutive
dispatches of `run_scheduler` during which the three run queues are non-empty at
the moment of selection take exactly 9 PCBs from queue 0, 6 from queue 1 and 4
from queue 2; each selected PCB is the head of the queue it is counted for. -/
theorem C1_dispatch_counts (idx : Nat) (hidx : idx < 19) (ks : List Kernel)
    (hlen : ks.length = 19) (hne : ∀ k ∈ ks, all_queues_nonempty k) :
    ∃ tr, dispatch_run idx ks = some tr ∧
      (tr.map Prod.snd).count 0 = 9 ∧ (tr.map Prod.snd).count 1 = 6 ∧
      (tr.map Prod.snd).count 2 = 4 ∧
      List.Forall₂ (fun k r => ∃ p rest, r.1 = some p ∧ queue_get k r.2 = some (p :: rest))
        ks tr := by
  obtain ⟨tr, htr, hmap, hall⟩ := dispatch_run_priorities ks idx hidx hne
  refine ⟨tr, htr, ?_, ?_, ?_, hall⟩ <;> rw [hmap, hlen] <;>
    interval_cases idx <;> decide

theorem C1_dispatch_counts_witness :
    ∃ tr, dispatch_run 7 (List.replicate 19 kernel_three) = some tr ∧
      (tr.map Prod.snd).count 0 = 9 ∧ (tr.map Prod.snd).count 1 = 6 ∧
      (tr.map Prod.snd).count 2 = 4 ∧
      List.Forall₂ (fun k r => ∃ p rest, r.1 = some p ∧ queue_get k r.2 = some (p :: rest))
        (List.replicate 19 kernel_three) tr :=
  C1_dispatch_counts 7 (by decide) (List.replicate 19 kernel_three) (by simp)
    (by
      intro k hk
      rw [List.eq_of_mem_replicate hk]
      simp [all_queues_nonempty, kernel_three])

/-! ## Wake-up phase of the tick handler -/

theorem deref_lt {k : Kernel} {p : Nat} {pcb : pcb_t} (h : deref k p = some pcb) :
    p < k.heap.length := by
  unfold deref at h
  by_contra hlt
  rw [List.getD_eq_default _ _ (Nat.le_of_not_lt hlt)] at h
  cases h

theorem deref_store_same {k : Kernel} {p : Nat} (v : pcb_t) (h : p < k.heap.length) :
    deref (store k p v) p = some v := by
  simp [deref, store, List.getD_eq_getElem?_getD, List.getElem?_set, h]

theorem deref_store_other {k : Kernel} {p q : Nat} (v : pcb_t) (h : p ≠ q) :
    deref (store k p v) q = deref k q := by
  simp [deref, store, List.getD_eq_getElem?_getD, List.getElem?_set, h]


theorem add_to_queue_spec {k : Kernel} {p : Nat} {pcb : pcb_t} (h : deref k p = some pcb)
    (hp : pcb.priority = 0 ∨ pcb.priority = 1 ∨ pcb.priority = 2) :
    ∃ k2, add_to_queue k p = some k2 ∧ k2.heap = k.heap ∧
      k2.sleeping_processes = k.sleeping_processes ∧ k2.current_tick = k.current_tick ∧
      k.q0 <+: k2.q0 ∧ k.q1 <+: k2.q1 ∧ k.q2 <+: k2.q2 ∧
      ∃ q, queue_get k2 pcb.priority = some q ∧ p ∈ q := by
  rcases hp with h0 | h0 | h0
  · refine ⟨{ k with q0 := k.q0 ++ [p] }, ?_, rfl, rfl, rfl, ?_, ?_, ?_, ?_⟩
    · simp [add_to_queue, h, h0, queue_get, queue_set]
    · simp
    · simp
    · simp
    · exact ⟨k.q0 ++ [p], by simp [h0, queue_get], by simp⟩
  · refine ⟨{ k with q1 := k.q1 ++ [p] }, ?_, rfl, rfl, rfl, ?_, ?_, ?_, ?_⟩
    · simp [add_to_queue, h, h0, queue_get, queue_set]
    · simp
    · simp
    · simp
    · exact ⟨k.q1 ++ [p], by simp [h0, queue_get], by simp⟩
  · refine ⟨{ k with q2 := k.q2 ++ [p] }, ?_, rfl, rfl, rfl, ?_, ?_, ?_, ?_⟩
    · simp [add_to_queue, h, h0, queue_get, queue_set]
    · simp
    · simp
    · simp
    · exact ⟨k.q2 ++ [p], by simp [h0, queue_get], by simp⟩

theorem queue_get_prefix {k k' : Kernel} (h0 : k.q0 <+: k'.q0) (h1 : k.q1 <+: k'.q1)
    (h2 : k.q2 <+: k'.q2) {j : Int} {q : List Nat} {p : Nat}
    (hq : queue_get k j = some q) (hp : p ∈ q) :
    ∃ q', queue_get k' j = some q' ∧ p ∈ q' := by
  unfold queue_get at hq ⊢
  split_ifs at hq ⊢ with a b c
  · cases hq; exact ⟨_, rfl, h0.subset hp⟩
  · cases hq; exact ⟨_, rfl, h1.subset hp⟩
  · cases hq; exact ⟨_, rfl, h2.subset hp⟩

theorem due_congr {k k' : Kernel} {t : Int} {p : Nat} (h : deref k' p = deref k p) :
    due k' t p = due k t p := by
  simp only [due, h]

theorem wake_loop_spec : ∀ (post pre : List Nat) (k : Kernel) (fuel : Nat),
    k.sleeping_processes = pre ++ post → post.length ≤ fuel → post.Nodup →
    (∀ p ∈ post, valid_pcb k p) →
    ∃ k', wake_loop fuel pre.length k = some k' ∧
      k'.sleeping_processes = pre ++ post.filter (fun p => !due k k.current_tick p) ∧
      k'.current_tick = k.current_tick ∧
      (∀ p ∈ post, due k k.current_tick p = true →
        ∃ pcb, deref k p = some pcb ∧
          deref k' p = some { pcb with status := P_RUNNING } ∧
          ∃ q, queue_get k' pcb.priority = some q ∧ p ∈ q) ∧
      (∀ p, ¬ (p ∈ post ∧ due k k.current_tick p = true) → deref k' p = deref k p) ∧
      k.q0 <+: k'.q0 ∧ k.q1 <+: k'.q1 ∧ k.q2 <+: k'.q2 := by
  intro post
  induction post with
  | nil =>
    intro pre k fuel hs _ _ _
    have hlen : ¬ pre.length < k.sleeping_processes.length := by simp [hs]
    refine ⟨k, ?_, by simpa using hs, rfl, by simp, by simp, List.prefix_refl _,
      List.prefix_refl _, List.prefix_refl _⟩
    cases fuel <;> simp [wake_loop, hlen]
  | cons p rest ih =>
    intro pre k fuel hs hfuel hnd hvalid
    obtain ⟨hpn, hrn⟩ := List.nodup_cons.mp hnd
    have hlen : pre.length < k.sleeping_processes.length := by simp [hs]
    have hget : k.sleeping_processes.getD pre.length 0 = p := by
      rw [hs, List.getD_eq_getElem?_getD, List.getElem?_append_right (Nat.le_refl _)]
      simp
    obtain ⟨pcb, hpcb, hprio⟩ := hvalid p (List.mem_cons_self _ _)
    cases fuel with
    | zero => simp at hfuel
    | succ fuel =>
      have hfuel' : rest.length ≤ fuel := by simpa using hfuel
      by_cases hdue : pcb.status = P_BLOCKED ∧ pcb.wake_tick ≤ k.current_tick
      · -- the PCB is woken
        have hduep : due k k.current_tick p = true := by simp [due, hpcb, hdue]
        have hp1 : deref (store k p { pcb with status := P_RUNNING }) p
            = some { pcb with status := P_RUNNING } := deref_store_same _ (deref_lt hpcb)
        obtain ⟨k2, hk2, hheap2, hsl2, htick2, hq0, hq1, hq2, q, hq, hpq⟩ :=
          add_to_queue_spec hp1 hprio
        obtain ⟨k3, hk3⟩ : ∃ k3 : Kernel,
            k3 = { k2 with sleeping_processes := k2.sleeping_processes.eraseIdx pre.length } :=
          ⟨_, rfl⟩
        have hstep : wake_loop (fuel + 1) pre.length k = wake_loop fuel pre.length k3 := by
          simp only [wake_loop, hlen, if_true, hget, hpcb, hdue, and_self, hk2, hk3]
        have hheap3 : ∀ x, deref k3 x = deref (store k p { pcb with status := P_RUNNING }) x := by
          intro x; simp [deref, hk3, hheap2]
        have htick3 : k3.current_tick = k.current_tick := by rw [hk3]; exact htick2
        have h30 : k3.q0 = k2.q0 := by rw [hk3]
        have h31 : k3.q1 = k2.q1 := by rw [hk3]
        have h32 : k3.q2 = k2.q2 := by rw [hk3]
        have hq3 : queue_get k3 pcb.priority = some q := by
          rw [← hq]; simp [queue_get, h30, h31, h32]
        have hs3 : k3.sleeping_processes = pre ++ rest := by
          rw [hk3]
          show k2.sleeping_processes.eraseIdx pre.length = pre ++ rest
          rw [hsl2]
          show k.sleeping_processes.eraseIdx pre.length = pre ++ rest
          rw [hs, List.eraseIdx_append_of_length_le (Nat.le_refl _)]
          simp
        clear hk3
        have hother : ∀ x, x ≠ p → deref k3 x = deref k x := by
          intro x hx
          rw [hheap3, deref_store_other _ (Ne.symm hx)]
        have hvalid3 : ∀ x ∈ rest, valid_pcb k3 x := by
          intro x hx
          obtain ⟨pc, hpc, hpr⟩ := hvalid x (List.mem_cons_of_mem _ hx)
          have hxp : x ≠ p := fun e => hpn (e ▸ hx)
          exact ⟨pc, by rw [hother x hxp]; exact hpc, hpr⟩
        obtain ⟨k', hk', hsl', htick', hwoken, hsame, hp0, hp1', hp2⟩ :=
          ih pre k3 fuel hs3 hfuel' hrn hvalid3
        have hduerest : ∀ x ∈ rest, due k3 k.current_tick x = due k k.current_tick x := by
          intro x hx
          exact due_congr (hother x (fun e => hpn (e ▸ hx)))
        rw [htick3] at hsl' hwoken hsame htick'
        refine ⟨k', ?_, ?_, htick', ?_, ?_, ?_, ?_, ?_⟩
        · rw [hstep]; exact hk'
        · rw [hsl']
          congr 1
          rw [List.filter_cons]
          simp only [hduep, Bool.not_true, Bool.false_eq_true, if_false]
          apply List.filter_congr
          intro x hx
          rw [hduerest x hx]
        · intro x hx hduex
          rcases List.mem_cons.mp hx with rfl | hxr
          · refine ⟨pcb, hpcb, ?_, ?_⟩
            · have hnot : ¬ (x ∈ rest ∧ due k3 k.current_tick x = true) := fun h => hpn h.1
              rw [hsame x hnot, hheap3]; exact hp1
            · exact queue_get_prefix hp0 hp1' hp2 hq3 hpq
          · have hd3 := hduerest x hxr
            obtain ⟨pc, hpc, hpc', hqq⟩ := hwoken x hxr (by rw [hd3]; exact hduex)
            exact ⟨pc, by rw [← hother x (fun e => hpn (e ▸ hxr))]; exact hpc, hpc', hqq⟩
        · intro x hx
          have hxp : x ≠ p := by
            rintro rfl
            exact hx ⟨List.mem_cons_self _ _, hduep⟩
          have hnot : ¬ (x ∈ rest ∧ due k3 k.current_tick x = true) := by
            rintro ⟨hxr, hd⟩
            exact hx ⟨List.mem_cons_of_mem _ hxr, by rw [← hduerest x hxr]; exact hd⟩
          rw [hsame x hnot, hother x hxp]
        · exact hq0.trans (h30 ▸ hp0)
        · exact hq1.trans (h31 ▸ hp1')
        · exact hq2.trans (h32 ▸ hp2)
      · -- the PCB stays asleep
        have hduep : due k k.current_tick p = false := by simp [due, hpcb, hdue]
        have hs' : k.sleeping_processes = (pre ++ [p]) ++ rest := by simp [hs]
        obtain ⟨k', hk', hsl', htick', hwoken, hsame, hp0, hp1', hp2⟩ :=
          ih (pre ++ [p]) k fuel hs' hfuel' hrn
            (fun x hx => hvalid x (List.mem_cons_of_mem _ hx))
        refine ⟨k', ?_, ?_, htick', ?_, ?_, hp0, hp1', hp2⟩
        · simp only [wake_loop, hlen, if_true, hget, hpcb, hdue, if_false]
          simpa using hk'
        · rw [hsl', List.filter_cons]
          simp [hduep]
        · intro x hx hduex
          rcases List.mem_cons.mp hx with rfl | hxr
          · rw [hduep] at hduex; cases hduex
          · exact hwoken x hxr hduex
        · intro x hx
          apply hsame
          rintro ⟨hxr, hd⟩
          exact hx ⟨List.mem_cons_of_mem _ hxr, hd⟩

/-- C3 (amended): when no PCB is entered twice in the sleeping set (and its
entries are live PCBs of priority 0..2), the wake-up phase of `scheduler_tick`
at tick `t = current_tick + 1` gives every sleeper that was `P_BLOCKED` with
`wake_tick ≤ t` status `P_RUNNING`, enqueues it in the run queue of its
priority and removes it from the sleeping set; the other members stay, in the
same relative order. -/
theorem C3_wake_phase (k : Kernel) (hnd : k.sleeping_processes.Nodup)
    (hvalid : ∀ p ∈ k.sleeping_processes, valid_pcb k p) :
    ∃ k', scheduler_tick_wake k = some k' ∧ k'.current_tick = k.current_tick + 1 ∧
      (∀ p ∈ k.sleeping_processes, due k (k.current_tick + 1) p = true →
        (∃ pcb, deref k p = some pcb ∧
          deref k' p = some { pcb with status := P_RUNNING } ∧
          ∃ q, queue_get k' pcb.priority = some q ∧ p ∈ q) ∧
        p ∉ k'.sleeping_processes) ∧
      k'.sleeping_processes
        = k.sleeping_processes.filter (fun p => !due k (k.current_tick + 1) p) := by
  obtain ⟨k', hk', hsl, htick, hwoken, _, _, _, _⟩ :=
    wake_loop_spec k.sleeping_processes [] { k with current_tick := k.current_tick + 1 }
      k.sleeping_processes.length rfl (Nat.le_refl _) hnd hvalid
  have hsl' : k'.sleeping_processes
      = k.sleeping_processes.filter (fun p => !due k (k.current_tick + 1) p) := by
    simpa using hsl
  refine ⟨k', hk', htick, ?_, hsl'⟩
  intro p hp hdue
  refine ⟨hwoken p hp hdue, ?_⟩
  rw [hsl', List.mem_filter]
  rintro ⟨_, h⟩
  rw [hdue] at h
  cases h

theorem C3_wake_phase_witness :
    ∃ k', scheduler_tick_wake kernel_sleepers = some k' ∧
      k'.current_tick = kernel_sleepers.current_tick + 1 ∧
      (∀ p ∈ kernel_sleepers.sleeping_processes,
        due kernel_sleepers (kernel_sleepers.current_tick + 1) p = true →
        (∃ pcb, deref kernel_sleepers p = some pcb ∧
          deref k' p = some { pcb with status := P_RUNNING } ∧
          ∃ q, queue_get k' pcb.priority = some q ∧ p ∈ q) ∧
        p ∉ k'.sleeping_processes) ∧
      k'.sleeping_processes
        = kernel_sleepers.sleeping_processes.filter
            (fun p => !due kernel_sleepers (kernel_sleepers.current_tick + 1) p) :=
  C3_wake_phase kernel_sleepers (by decide)
    (by
      intro p hp
      have h : p = 0 ∨ p = 1 := by simpa [kernel_sleepers] using hp
      rcases h with rfl | rfl
      · exact ⟨_, rfl, Or.inr (Or.inl rfl)⟩
      · exact ⟨_, rfl, Or.inr (Or.inr rfl)⟩)

/-- C3, as stated, fails on a sleeping set that holds a PCB twice: PCB 0 is in
the set, `P_BLOCKED` and due at tick 1, and after the wake-up phase of tick 1 it
is still a member of the sleeping set. -/
theorem C3_counterexample :
    0 ∈ kernel_dup.sleeping_processes ∧
    due kernel_dup (kernel_dup.current_tick + 1) 0 = true ∧
    (scheduler_tick_wake kernel_dup).map (fun k => k.sleeping_processes) = some [0] := by
  decide


/-! ## Waiting for children -/

theorem pcb_field_store {α : Type} (f : pcb_t → α) {k : Kernel} {a : Nat} {old v : pcb_t}
    (hold : deref k a = some old) (hf : f v = f old) (b : Nat) :
    pcb_field f (store k a v) b = pcb_field f k b := by
  unfold pcb_field
  by_cases hab : a = b
  · subst hab
    rw [deref_store_same v (deref_lt hold), hold]
    simp [hf]
  · rw [deref_store_other v hab]

theorem find_pid_congr {k k' : Kernel} (h : ∀ a, pcb_field (fun p => p.pid) k' a
    = pcb_field (fun p => p.pid) k a) (pid : Int) (l : List Nat) :
    find_pid k' pid l = find_pid k pid l := by
  induction l with
  | nil => rfl
  | cons a rest ih =>
    have ha := h a
    unfold pcb_field at ha
    unfold find_pid
    cases h1 : deref k a with
    | none => rw [h1] at ha; cases h2 : deref k' a with
      | none => rfl
      | some x => rw [h2] at ha; cases ha
    | some pa =>
      rw [h1] at ha
      cases h2 : deref k' a with
      | none => rw [h2] at ha; cases ha
      | some x =>
        rw [h2] at ha
        simp only [Option.map_some', Option.some.injEq] at ha
        simp only [ha, ih]

theorem erase_first_pid_congr {k k' : Kernel} (h : ∀ a, pcb_field (fun p => p.pid) k' a
    = pcb_field (fun p => p.pid) k a) (pid : Int) (l : List Nat) :
    erase_first_pid k' pid l = erase_first_pid k pid l := by
  induction l with
  | nil => rfl
  | cons a rest ih =>
    have ha := h a
    unfold pcb_field at ha
    unfold erase_first_pid
    cases h1 : deref k a with
    | none => rw [h1] at ha; cases h2 : deref k' a with
      | none => rfl
      | some x => rw [h2] at ha; cases ha
    | some pa =>
      rw [h1] at ha
      cases h2 : deref k' a with
      | none => rw [h2] at ha; cases ha
      | some x =>
        rw [h2] at ha
        simp only [Option.map_some', Option.some.injEq] at ha
        simp only [ha, ih]

/-- In a list of live PCBs with pairwise distinct pids, the search by pid finds
the PCB that has it. -/
theorem find_pid_mem {k : Kernel} {l : List Nat} {c : Nat} {cp : pcb_t}
    (hlive : ∀ a ∈ l, (deref k a).isSome)
    (hinj : ∀ a ∈ l, ∀ pa, deref k a = some pa → pa.pid = cp.pid → a = c)
    (hc : c ∈ l) (hcp : deref k c = some cp) :
    find_pid k cp.pid l = some (some c) := by
  induction l with
  | nil => cases hc
  | cons a rest ih =>
    unfold find_pid
    cases h1 : deref k a with
    | none => have := hlive a (List.mem_cons_self _ _); rw [h1] at this; cases this
    | some pa =>
      by_cases hp : pa.pid = cp.pid
      · have := hinj a (List.mem_cons_self _ _) pa h1 hp
        simp [hp, this]
      · simp only [hp, if_false]
        rcases List.mem_cons.mp hc with rfl | hcr
        · rw [hcp] at h1; cases h1; exact absurd rfl hp
        · exact ih (fun x hx => hlive x (List.mem_cons_of_mem _ hx))
            (fun x hx => hinj x (List.mem_cons_of_mem _ hx)) hcr

theorem erase_first_pid_erase {k : Kernel} {l : List Nat} {c : Nat} {cp : pcb_t}
    (hlive : ∀ a ∈ l, (deref k a).isSome)
    (hinj : ∀ a ∈ l, ∀ pa, deref k a = some pa → pa.pid = cp.pid → a = c)
    (hcp : deref k c = some cp) :
    erase_first_pid k cp.pid l = some (l.erase c, if c ∈ l then some c else none) := by
  induction l with
  | nil => simp [erase_first_pid]
  | cons a rest ih =>
    unfold erase_first_pid
    cases h1 : deref k a with
    | none => have := hlive a (List.mem_cons_self _ _); rw [h1] at this; cases this
    | some pa =>
      by_cases hp : pa.pid = cp.pid
      · have := hinj a (List.mem_cons_self _ _) pa h1 hp
        subst this
        simp [hp]
      · have hac : a ≠ c := by
          rintro rfl
          rw [hcp] at h1; cases h1; exact hp rfl
        simp only [hp, if_false]
        rw [ih (fun x hx => hlive x (List.mem_cons_of_mem _ hx))
            (fun x hx => hinj x (List.mem_cons_of_mem _ hx))]
        simp [List.erase_cons_tail, hac, Ne.symm hac]


theorem frame_refl (k : Kernel) : frame k k :=
  ⟨rfl, rfl, rfl, fun _ => rfl, fun _ => rfl, fun _ => rfl⟩

theorem frame_trans {k1 k2 k3 : Kernel} (h12 : frame k1 k2) (h23 : frame k2 k3) :
    frame k1 k3 := by
  obtain ⟨a1, a2, a3, a4, a5, a6⟩ := h12
  obtain ⟨b1, b2, b3, b4, b5, b6⟩ := h23
  exact ⟨b1.trans a1, b2.trans a2, b3.trans a3, fun a => (b4 a).trans (a4 a),
    fun a => (b5 a).trans (a5 a), fun a => (b6 a).trans (a6 a)⟩

theorem frame_store {k : Kernel} {a : Nat} {old v : pcb_t} (hold : deref k a = some old)
    (h1 : v.pid = old.pid) (h2 : v.priority = old.priority) (h3 : v.status = old.status) :
    frame k (store k a v) :=
  ⟨rfl, rfl, rfl, pcb_field_store _ hold h1, pcb_field_store _ hold h2,
    pcb_field_store _ hold h3⟩

theorem add_to_queue_frame {k k2 : Kernel} {p : Nat} (h : add_to_queue k p = some k2) :
    k2.heap = k.heap ∧ frame k k2 := by
  unfold add_to_queue at h
  cases h1 : deref k p with
  | none => rw [h1] at h; cases h
  | some pcb =>
    rw [h1] at h
    simp only at h
    cases h2 : queue_get k pcb.priority with
    | none => rw [h2] at h; cases h
    | some q =>
      rw [h2] at h
      simp only [Option.some.injEq] at h
      subst h
      unfold queue_set
      split_ifs <;> exact ⟨rfl, rfl, rfl, rfl, fun _ => rfl, fun _ => rfl, fun _ => rfl⟩

theorem pcb_field_heap {α : Type} (f : pcb_t → α) {k k' : Kernel} (h : k'.heap = k.heap)
    (a : Nat) : pcb_field f k' a = pcb_field f k a := by
  simp [pcb_field, deref, h]

theorem deref_of_field {α : Type} {f : pcb_t → α} {k : Kernel} {a : Nat} {v : α}
    (h : pcb_field f k a = some v) : ∃ p, deref k a = some p ∧ f p = v := by
  unfold pcb_field at h
  cases h1 : deref k a with
  | none => rw [h1] at h; cases h
  | some p => rw [h1] at h; exact ⟨p, rfl, by simpa using h⟩

theorem frame_live {k k' : Kernel} (h : frame k k') {a : Nat} (ha : (deref k a).isSome) :
    (deref k' a).isSome := by
  obtain ⟨p, hp⟩ := Option.isSome_iff_exists.mp ha
  have := h.2.2.2.1 a
  rw [show pcb_field (fun p => p.pid) k a = some p.pid by simp [pcb_field, hp]] at this
  obtain ⟨p', hp', _⟩ := deref_of_field this
  simp [hp']

theorem reparent_loop_spec (init : Nat) : ∀ (gs : List Nat) (k : Kernel),
    k_get_pcb_with_given_pid k 1 = some (some init) →
    (∀ g ∈ gs, (deref k g).isSome) →
    (∃ ip, deref k init = some ip ∧
      (ip.priority = 0 ∨ ip.priority = 1 ∨ ip.priority = 2)) →
    ∃ k', reparent_loop init gs k = some k' ∧ frame k k' ∧
      (∀ a, a ≠ init →
        pcb_field (fun p => p.children) k' a = pcb_field (fun p => p.children) k a) ∧
      ∃ ext, (∀ x ∈ ext, x ∈ gs) ∧
        pcb_field (fun p => p.children) k' init
          = (pcb_field (fun p => p.children) k init).map (fun l => l ++ ext) := by
  intro gs
  induction gs with
  | nil =>
    intro k _ _ _
    exact ⟨k, rfl, frame_refl k, fun _ _ => rfl, [], by simp, by simp⟩
  | cons g gs ih =>
    intro k hinit hlive hip
    obtain ⟨gp, hgp⟩ := Option.isSome_iff_exists.mp (hlive g (List.mem_cons_self _ _))
    obtain ⟨ip, hipd, hprio⟩ := hip
    -- first store
    obtain ⟨k1, hk1⟩ : ∃ k1, k1 = store k g { gp with ppid := 1, waited_by := 1 } := ⟨_, rfl⟩
    have hf1 : frame k k1 := by rw [hk1]; exact frame_store hgp rfl rfl rfl
    have hc1 : ∀ a, pcb_field (fun p => p.children) k1 a
        = pcb_field (fun p => p.children) k a := by
      rw [hk1]; exact pcb_field_store _ hgp rfl
    have hinit1 : k_get_pcb_with_given_pid k1 1 = some (some init) := by
      unfold k_get_pcb_with_given_pid
      rw [hf1.1, find_pid_congr hf1.2.2.2.1]
      exact hinit
    obtain ⟨ip1, hip1, hip1p⟩ : ∃ ip1, deref k1 init = some ip1 ∧ ip1.priority = ip.priority := by
      have := hf1.2.2.2.2.1 init
      rw [show pcb_field (fun p => p.priority) k init = some ip.priority by
        simp [pcb_field, hipd]] at this
      exact deref_of_field this
    have hip1c : pcb_field (fun p => p.children) k init = some ip1.children := by
      rw [← hc1 init]; simp [pcb_field, hip1]
    -- second store
    obtain ⟨k2, hk2⟩ : ∃ k2, k2 = store k1 init { ip1 with children := ip1.children ++ [g] } :=
      ⟨_, rfl⟩
    have hf2 : frame k1 k2 := by rw [hk2]; exact frame_store hip1 rfl rfl rfl
    have hd2 : deref k2 init = some { ip1 with children := ip1.children ++ [g] } := by
      rw [hk2]; exact deref_store_same _ (deref_lt hip1)
    have hc2 : ∀ a, a ≠ init → pcb_field (fun p => p.children) k2 a
        = pcb_field (fun p => p.children) k1 a := by
      intro a ha
      rw [hk2]; unfold pcb_field; rw [deref_store_other _ (Ne.symm ha)]
    obtain ⟨k3, hk3, _, _, _, _, _, _, _⟩ := add_to_queue_spec hd2 (by rw [← hip1p] at hprio; exact hprio)
    obtain ⟨hheap3, hf3⟩ := add_to_queue_frame hk3
    have hf03 : frame k k3 := frame_trans (frame_trans hf1 hf2) hf3
    have hinit3 : k_get_pcb_with_given_pid k3 1 = some (some init) := by
      unfold k_get_pcb_with_given_pid
      rw [hf03.1, find_pid_congr hf03.2.2.2.1]
      exact hinit
    have hd3 : deref k3 init = some { ip1 with children := ip1.children ++ [g] } := by
      rw [← hd2]; simp [deref, hheap3]
    obtain ⟨k', hk', hf', hcs, ext, hext, hci⟩ := ih k3 hinit3
      (fun x hx => frame_live hf03 (hlive x (List.mem_cons_of_mem _ hx)))
      ⟨_, hd3, by rw [← hip1p] at hprio; exact hprio⟩
    refine ⟨k', ?_, frame_trans hf03 hf', ?_, g :: ext, ?_, ?_⟩
    · simp only [reparent_loop, hgp, ← hk1, hinit1, hip1, ← hk2, hk3]
      exact hk'
    · intro a ha
      rw [hcs a ha, pcb_field_heap _ hheap3, hc2 a ha, hc1]
    · intro x hx
      rcases List.mem_cons.mp hx with rfl | h
      · exact List.mem_cons_self _ _
      · exact List.mem_cons_of_mem _ (hext x h)
    · rw [hci, hip1c]
      simp [pcb_field, hd3]


theorem find_pid_some_mem {k : Kernel} {pid : Int} {l : List Nat} {p : Nat}
    (h : find_pid k pid l = some (some p)) : p ∈ l := by
  induction l with
  | nil => simp [find_pid] at h
  | cons a rest ih =>
    unfold find_pid at h
    cases h1 : deref k a with
    | none => rw [h1] at h; cases h
    | some pa =>
      rw [h1] at h
      simp only at h
      split_ifs at h with hp
      · simp only [Option.some.injEq] at h; subst h; exact List.mem_cons_self _ _
      · exact List.mem_cons_of_mem _ (ih h)

theorem find_thread_some_mem {k : Kernel} {self : Nat} {l : List Nat} {p : Nat}
    (h : find_thread k self l = some (some p)) : p ∈ l := by
  induction l with
  | nil => simp [find_thread] at h
  | cons a rest ih =>
    unfold find_thread at h
    cases h1 : deref k a with
    | none => rw [h1] at h; cases h
    | some pa =>
      rw [h1] at h
      simp only at h
      split_ifs at h with hp
      · simp only [Option.some.injEq] at h; subst h; exact List.mem_cons_self _ _
      · exact List.mem_cons_of_mem _ (ih h)

theorem waitpid_parent_mem {k : Kernel} {self : Nat} {ppid : Int} {par : Nat}
    (h : waitpid_parent k self ppid = some (some par)) : par ∈ k.pcb_list := by
  unfold waitpid_parent at h
  split_ifs at h
  · exact find_pid_some_mem h
  · exact find_thread_some_mem h

/-- The scan passes over children that are live and not reapable. -/
theorem waitpid_scan_skip {k : Kernel} {par : Nat} {pid : Int} {ws : Option Int}
    (pre rest : List Nat) (hlive : ∀ x ∈ pre, (deref k x).isSome)
    (hno : ∀ x ∈ pre, reapable k pid x = false) :
    waitpid_scan k par pid ws (pre ++ rest) = waitpid_scan k par pid ws rest := by
  induction pre with
  | nil => rfl
  | cons a pre ih =>
    obtain ⟨pa, hpa⟩ := Option.isSome_iff_exists.mp (hlive a (List.mem_cons_self _ _))
    have hra := hno a (List.mem_cons_self _ _)
    simp only [reapable, hpa, decide_eq_false_iff_not, not_and_or, not_or] at hra
    have ih' := ih (fun x hx => hlive x (List.mem_cons_of_mem _ hx))
      (fun x hx => hno x (List.mem_cons_of_mem _ hx))
    simp only [List.cons_append, waitpid_scan, hpa]
    by_cases hm : pid ≠ -1 ∧ pa.pid ≠ pid
    · rw [if_pos hm]; exact ih'
    · rw [if_neg hm]
      rcases hra with h | h
      · exact absurd ⟨h.1, h.2⟩ hm
      · rw [if_neg h.1, if_neg h.2]; exact ih'


theorem not_mem_erase_append {c : Nat} {l1 l2 : List Nat} (h1 : c ∈ l1) (hnd : l1.Nodup)
    (h2 : c ∉ l2) : c ∉ (l1 ++ l2).erase c := by
  rw [List.erase_append_left _ h1, List.mem_append]
  rintro (h | h)
  · exact (hnd.mem_erase_iff.mp h).1 rfl
  · exact h2 h

theorem deref_set_none_other {k : Kernel} {c q : Nat} (h : c ≠ q) (k' : Kernel)
    (hk' : k'.heap = k.heap.set c none) : deref k' q = deref k q := by
  simp [deref, hk', List.getD_eq_getElem?_getD, List.getElem?_set, h]

/-- Reaping a zombie child: the branch of lines 162-173. -/
theorem waitpid_scan_reap {k : Kernel} (hwf : wf_kernel k) {par c : Nat} {ppcb cpcb : pcb_t}
    (hpar : par ∈ k.pcb_list) (hppcb : deref k par = some ppcb) (hc : c ∈ ppcb.children)
    (hcpcb : deref k c = some cpcb) (pid : Int) (ws : Option Int)
    (hmatch : pid = -1 ∨ cpcb.pid = pid) (hz : cpcb.status = P_ZOMBIED) (rest : List Nat) :
    ∃ k', waitpid_scan k par pid ws (c :: rest)
        = some (some (k', ws.map (fun _ => P_SIGEXIT), cpcb.pid)) ∧
      c ∉ k'.pcb_list ∧ ∃ pp', deref k' par = some pp' ∧ c ∉ pp'.children := by
  obtain ⟨hnd, hall, hinj, hjob, hbg, ia, hia, ip, hip, hip1, hip0⟩ := hwf
  have hlive : ∀ a ∈ k.pcb_list, (deref k a).isSome := by
    intro a ha
    obtain ⟨pa, hpa, _⟩ := hall a ha
    simp [hpa]
  obtain ⟨ppcb', hppcb', _, hppos, _, hpnd, hpch⟩ := hall par hpar
  rw [hppcb] at hppcb'; cases hppcb'
  obtain ⟨hcl, cp, hcp, hcppid⟩ := hpch c hc
  rw [hcpcb] at hcp; cases hcp
  obtain ⟨cpcb', hcpcb', _, _, hcne, _, hcch⟩ := hall c hcl
  rw [hcpcb] at hcpcb'; cases hcpcb'
  have hcnc : c ∉ cpcb.children := by
    intro h
    obtain ⟨_, gp, hgp, hgpp⟩ := hcch c h
    rw [hcpcb] at hgp; cases hgp
    exact hcne hgpp
  have hcia : c ≠ ia := by
    rintro rfl
    rw [hcpcb] at hip; cases hip
    rw [hip0] at hcppid
    omega
  have hparc : par ≠ c := by
    rintro rfl
    rw [hppcb] at hcpcb; cases hcpcb
    exact hcnc hc
  have hinit : k_get_pcb_with_given_pid k 1 = some (some ia) := by
    unfold k_get_pcb_with_given_pid
    rw [← hip1]
    exact find_pid_mem hlive (fun a ha pa hpa hp => hinj a ha ia hia pa ip hpa hip hp) hia hip
  obtain ⟨ip', hip', hipprio, _⟩ := hall ia hia
  rw [hip] at hip'; cases hip'
  -- reparent_children
  obtain ⟨k1', hk1', hf1', hcs, ext, hext, hci⟩ := reparent_loop_spec ia cpcb.children k hinit
    (fun g hg => hlive g (hcch g hg).1) ⟨ip, hip, hipprio⟩
  obtain ⟨pp1, hpp1⟩ := Option.isSome_iff_exists.mp
    (frame_live hf1' (by simp [hcpcb] : (deref k c).isSome))
  have hpp1pid : pp1.pid = cpcb.pid := by
    have := hf1'.2.2.2.1 c
    simp only [pcb_field, hpp1, hcpcb, Option.map_some', Option.some.injEq] at this
    exact this
  obtain ⟨k1, hk1⟩ : ∃ k1, k1 = store k1' c { pp1 with children := [] } := ⟨_, rfl⟩
  have hrep : reparent_children k c = some k1 := by
    simp only [reparent_children, hinit, hcpcb, hcia, false_and, if_false, hk1', hpp1, hk1]
  have hf1 : frame k1' k1 := by rw [hk1]; exact frame_store hpp1 rfl rfl rfl
  -- the parent after reparenting
  obtain ⟨pp2, hpp2, ext2, hext2, hpp2c⟩ : ∃ pp2, deref k1 par = some pp2 ∧
      ∃ ext2, (∀ x ∈ ext2, x ∈ cpcb.children) ∧ pp2.children = ppcb.children ++ ext2 := by
    have hd : deref k1 par = deref k1' par := by rw [hk1]; exact deref_store_other _ hparc.symm
    by_cases hpi : par = ia
    · have h := hci
      rw [← hpi] at h
      simp only [pcb_field, hppcb, Option.map_some'] at h
      obtain ⟨pp2, hpp2, hch⟩ := deref_of_field h
      exact ⟨pp2, by rw [hd]; exact hpp2, ext, hext, hch⟩
    · have h := hcs par hpi
      simp only [pcb_field, hppcb, Option.map_some'] at h
      obtain ⟨pp2, hpp2, hch⟩ := deref_of_field h
      exact ⟨pp2, by rw [hd]; exact hpp2, [], by simp, by simpa using hch⟩
  obtain ⟨k2, hk2⟩ : ∃ k2, k2 = store k1 par { pp2 with children := pp2.children.erase c } :=
    ⟨_, rfl⟩
  have hrem : remove_child_from_parent_pcb k1 par c = some k2 := by
    simp only [remove_child_from_parent_pcb, hpp2, hk2]
  have hf2 : frame k1 k2 := by rw [hk2]; exact frame_store hpp2 rfl rfl rfl
  have hF : frame k k2 := frame_trans (frame_trans hf1' hf1) hf2
  have hd2par : deref k2 par = some { pp2 with children := pp2.children.erase c } := by
    rw [hk2]; exact deref_store_same _ (deref_lt hpp2)
  have hd2c : deref k2 c = some { pp1 with children := [] } := by
    rw [hk2, deref_store_other _ hparc, hk1]
    exact deref_store_same _ (deref_lt hpp1)
  -- k_proc_cleanup
  have hlive2 : ∀ a ∈ k.pcb_list, (deref k2 a).isSome := fun a ha => frame_live hF (hlive a ha)
  have hinj2 : ∀ a ∈ k.pcb_list, ∀ pa, deref k2 a = some pa → pa.pid = cpcb.pid → a = c := by
    intro a ha pa hpa hp
    have := hF.2.2.2.1 a
    simp only [pcb_field, hpa, Option.map_some'] at this
    obtain ⟨pa0, hpa0, hpp⟩ := deref_of_field this.symm
    exact hinj a ha c hcl pa0 cpcb hpa0 hcpcb (hpp.trans hp)
  have he (l : List Nat) (hl : ∀ j ∈ l, j ∈ k.pcb_list) :
      erase_first_pid k2 cpcb.pid l = some (l.erase c, if c ∈ l then some c else none) := by
    have := @erase_first_pid_erase k2 l c { pp1 with children := [] }
      (fun a ha => hlive2 a (hl a ha))
      (fun a ha pa hpa hp => hinj2 a (hl a ha) pa hpa (hp.trans hpp1pid)) hd2c
    rw [show ({ pp1 with children := [] } : pcb_t).pid = cpcb.pid from hpp1pid] at this
    exact this
  obtain ⟨k3, hk3⟩ : ∃ k3 : Kernel, k3 = { k2 with
      job_list := k.job_list.erase c, background_jobs := k.background_jobs.erase c,
      pcb_list := k.pcb_list.erase c, heap := k2.heap.set c none } := ⟨_, rfl⟩
  have hclean : k_proc_cleanup k2 c = some k3 := by
    simp only [k_proc_cleanup, hd2c, hpp1pid, hF.1, hF.2.1, hF.2.2.1, he k.job_list hjob,
      he k.background_jobs hbg, he k.pcb_list (fun _ h => h), hcl, if_true, hk3]
  refine ⟨k3, ?_, ?_, { pp2 with children := pp2.children.erase c }, ?_, ?_⟩
  · have hm : ¬ (pid ≠ -1 ∧ cpcb.pid ≠ pid) := by
      rintro ⟨h1, h2⟩
      rcases hmatch with h | h
      · exact h1 h
      · exact h2 h
    simp only [waitpid_scan, hcpcb, if_neg hm, hz, if_true, hrep, hrem, hclean]
  · rw [hk3]
    show c ∉ k.pcb_list.erase c
    intro h
    exact (hnd.mem_erase_iff.mp h).1 rfl
  · rw [← hd2par]
    exact deref_set_none_other hparc.symm k3 (by rw [hk3])
  · show c ∉ pp2.children.erase c
    rw [hpp2c]
    exact not_mem_erase_append hc hpnd (fun h => hcnc (hext2 c h))


/-- C4: `k_waitpid` called for a parent that has children inspects them in order.
At the first child that matches the target (-1 or its pid) and is `P_ZOMBIED` or
`P_STOPPED`: a zombie gets `P_SIGEXIT` stored in the status word, is removed from
the children of the parent and from the process list, and its pid is returned; a
stopped child gets `P_SIGSTOP` stored, its pid is returned and no table changes
(it stays a child and stays in the process list).  When no matching child is a
zombie or stopped and `nohang` is set, 0 is returned and the kernel is unchanged. -/
theorem C4_waitpid (k : Kernel) (hwf : wf_kernel k) (self : Nat) (pid : Int) (ws : Option Int)
    (nohang : Bool) (ppid : Int) (par : Nat) (ppcb : pcb_t)
    (hpar : waitpid_parent k self ppid = some (some par)) (hppcb : deref k par = some ppcb)
    (hchildren : ppcb.children ≠ []) :
    (∀ pre c post cpcb, ppcb.children = pre ++ c :: post →
      (∀ x ∈ pre, reapable k pid x = false) → reapable k pid c = true →
      deref k c = some cpcb →
      (cpcb.status = P_ZOMBIED →
        ∃ k', k_waitpid k self pid ws nohang ppid
            = some (k', ws.map (fun _ => P_SIGEXIT), WaitOutcome.ret cpcb.pid) ∧
          c ∉ k'.pcb_list ∧ ∃ pp', deref k' par = some pp' ∧ c ∉ pp'.children) ∧
      (cpcb.status = P_STOPPED →
        k_waitpid k self pid ws nohang ppid
            = some (k, ws.map (fun _ => P_SIGSTOP), WaitOutcome.ret cpcb.pid) ∧
          c ∈ ppcb.children ∧ c ∈ k.pcb_list)) ∧
    ((∀ x ∈ ppcb.children, reapable k pid x = false) → nohang = true →
      k_waitpid k self pid ws nohang ppid = some (k, ws, WaitOutcome.ret 0)) := by
  have hparl : par ∈ k.pcb_list := waitpid_parent_mem hpar
  have hwf' := hwf
  obtain ⟨_, hall, _, _, _, _⟩ := hwf'
  obtain ⟨ppcb', hppcb', _, _, _, _, hpch⟩ := hall par hparl
  rw [hppcb] at hppcb'; cases hppcb'
  have hclive : ∀ x ∈ ppcb.children, (deref k x).isSome := by
    intro x hx
    obtain ⟨_, cp, hcp, _⟩ := hpch x hx
    simp [hcp]
  refine ⟨?_, ?_⟩
  · intro pre c post cpcb hsplit hpre hreap hcpcb
    have hcmem : c ∈ ppcb.children := by rw [hsplit]; simp
    have hprelive : ∀ x ∈ pre, (deref k x).isSome := fun x hx =>
      hclive x (by rw [hsplit]; exact List.mem_append_left _ hx)
    have hskip := @waitpid_scan_skip k par pid ws
      pre (c :: post) hprelive hpre
    simp only [reapable, hcpcb, decide_eq_true_eq] at hreap
    refine ⟨?_, ?_⟩
    · intro hz
      obtain ⟨k', hk', h1, h2⟩ :=
        waitpid_scan_reap hwf hparl hppcb hcmem hcpcb pid ws hreap.1 hz post
      refine ⟨k', ?_, h1, h2⟩
      simp only [k_waitpid, hpar, hppcb, if_neg hchildren]
      rw [hsplit, hskip, hk']
    · intro hs
      refine ⟨?_, hcmem, (hpch c hcmem).1⟩
      have hm : ¬ (pid ≠ -1 ∧ cpcb.pid ≠ pid) := by
        rintro ⟨h1, h2⟩
        rcases hreap.1 with h | h
        · exact h1 h
        · exact h2 h
      have hnz : ¬ cpcb.status = P_ZOMBIED := by rw [hs]; decide
      have hscan : waitpid_scan k par pid ws (c :: post)
          = some (some (k, ws.map (fun _ => P_SIGSTOP), cpcb.pid)) := by
        simp only [waitpid_scan, hcpcb, if_neg hm, if_neg hnz, hs, if_true]
        rw [if_neg (by decide)]
      simp only [k_waitpid, hpar, hppcb, if_neg hchildren]
      rw [hsplit, hskip, hscan]
  · intro hnone hnh
    have hskip := @waitpid_scan_skip k par pid ws
      ppcb.children [] hclive hnone
    rw [List.append_nil] at hskip
    simp only [k_waitpid, hpar, hppcb, if_neg hchildren, hskip, waitpid_scan, hnh, if_true]

theorem wf_kernel_wait : wf_kernel kernel_wait := by
  refine ⟨by decide, ?_, ?_, by decide, by decide, 0, by decide, _, rfl, rfl, rfl⟩
  · intro p hp
    have h : p = 0 ∨ p = 1 ∨ p = 2 ∨ p = 3 ∨ p = 4 := by simpa [kernel_wait] using hp
    rcases h with rfl | rfl | rfl | rfl | rfl
    · refine ⟨_, rfl, by decide, by decide, by decide, by decide, ?_⟩
      intro c hc
      have h : c = 1 := by simpa [sample_pcb] using hc
      subst h
      exact ⟨by decide, _, rfl, rfl⟩
    · refine ⟨_, rfl, by decide, by decide, by decide, by decide, ?_⟩
      intro c hc
      have h : c = 2 ∨ c = 3 := by simpa [sample_pcb] using hc
      rcases h with rfl | rfl
      · exact ⟨by decide, _, rfl, rfl⟩
      · exact ⟨by decide, _, rfl, rfl⟩
    · refine ⟨_, rfl, by decide, by decide, by decide, by decide, ?_⟩
      intro c hc
      simp [sample_pcb] at hc
    · refine ⟨_, rfl, by decide, by decide, by decide, by decide, ?_⟩
      intro c hc
      have h : c = 4 := by simpa [sample_pcb] using hc
      subst h
      exact ⟨by decide, _, rfl, rfl⟩
    · refine ⟨_, rfl, by decide, by decide, by decide, by decide, ?_⟩
      intro c hc
      simp [sample_pcb] at hc
  · intro a ha b hb pa pb hpa hpb hpid
    have h1 : a = 0 ∨ a = 1 ∨ a = 2 ∨ a = 3 ∨ a = 4 := by simpa [kernel_wait] using ha
    have h2 : b = 0 ∨ b = 1 ∨ b = 2 ∨ b = 3 ∨ b = 4 := by simpa [kernel_wait] using hb
    rcases h1 with rfl | rfl | rfl | rfl | rfl <;> rcases h2 with rfl | rfl | rfl | rfl | rfl <;>
      first
      | rfl
      | (simp only [deref, kernel_wait, sample_pcb, List.getD_cons_zero, List.getD_cons_succ,
            Option.some.injEq] at hpa hpb
         subst hpa; subst hpb
         simp at hpid)

theorem C4_waitpid_witness :
    (∀ pre c post cpcb, [2, 3] = pre ++ c :: post →
      (∀ x ∈ pre, reapable kernel_wait (-1) x = false) → reapable kernel_wait (-1) c = true →
      deref kernel_wait c = some cpcb →
      (cpcb.status = P_ZOMBIED →
        ∃ k', k_waitpid kernel_wait 1 (-1) (some 0) true (-1)
            = some (k', (some 0).map (fun _ => P_SIGEXIT), WaitOutcome.ret cpcb.pid) ∧
          c ∉ k'.pcb_list ∧ ∃ pp', deref k' 1 = some pp' ∧ c ∉ pp'.children) ∧
      (cpcb.status = P_STOPPED →
        k_waitpid kernel_wait 1 (-1) (some 0) true (-1)
            = some (kernel_wait, (some 0).map (fun _ => P_SIGSTOP), WaitOutcome.ret cpcb.pid) ∧
          c ∈ [2, 3] ∧ c ∈ kernel_wait.pcb_list)) ∧
    ((∀ x ∈ [2, 3], reapable kernel_wait (-1) x = false) → true = true →
      k_waitpid kernel_wait 1 (-1) (some 0) true (-1) = some (kernel_wait, some 0, WaitOutcome.ret 0)) :=
  C4_waitpid kernel_wait wf_kernel_wait 1 (-1) (some 0) true (-1) 1
    { sample_pcb 2 0 with ppid := 1, children := [2, 3] } (by decide) (by decide) (by decide)

/-! ## Open-file table -/

/-- C6 fails on the code when the size is a multiple of the block size: `f` holds
256 bytes `a` (one block of the image of geometry (1, 0)); appending the byte
`b` through an `F_APPEND` descriptor returns 1 and makes the size 257, but the
byte went to offset 0 of the last block: the chain is still the single block 2
and reading 257 bytes from offset 0 gives 256 bytes, the first of them `b`. -/
theorem C6_append_at_block_boundary :
    scen_append.map (fun r => (r.2, r.1.root_dir.map (fun e => (e.size, e.first_block)),
        r.1.fat.take 4)) = some (1, [(257, 2), (0, 0), (0, 0), (0, 0)], [256, 65535, 65535, 0]) ∧
    (scen_append.bind (fun r => read_back r.1 257))
      = some (256, 98 :: List.replicate 255 97) := by
  constructor <;> decide!

/-- C10 fails on the code after the first spawn: `k_fork` copies the descriptor
table of the parent without touching the reference counts.  After `pmount`,
`init_kernel` and the spawn of the shell, each of the global slots 0, 1, 2 has
`ref_count = 1` while two per-process entries (one of init, one of the shell)
point to it. -/
theorem C10_fork_keeps_ref_count :
    mounted_1_0.map (fun s => (s.open_files.take 3).map (fun f => f.ref_count))
      = some [1, 1, 1] ∧
    kernel_booted.map (fun k => (k.pcb_list, fd_refs k 0, fd_refs k 1, fd_refs k 2))
      = some ([0, 1], 2, 2, 2) := by
  constructor <;> decide!


/-! ## Truncation on open -/

theorem find_open_loop_none {s : pennfat_state_t} {fname : List Nat} {mode : Int} :
    ∀ (l : List file_descriptor_t) (i : Nat),
      (∀ f ∈ l, ∀ p, f.entry = some p →
        ∃ e, entry_get s p = some e ∧ cstr e.name ≠ cstr fname) →
      find_open_loop s fname mode l i = some (s, -1) := by
  intro l
  induction l with
  | nil => intro i _; rfl
  | cons f rest ih =>
    intro i h
    unfold find_open_loop
    cases hf : f.entry with
    | none => exact ih (i + 1) (fun g hg => h g (List.mem_cons_of_mem _ hg))
    | some p =>
      obtain ⟨e, he, hne⟩ := h f (List.mem_cons_self _ _) p hf
      simp only [he, if_neg hne]
      exact ih (i + 1) (fun g hg => h g (List.mem_cons_of_mem _ hg))

theorem is_chain_set {fat : List Nat} {x v : Nat} :
    ∀ (l : List Nat) (b : Nat), is_chain fat b l → x ∉ l → is_chain (fat.set x v) b l := by
  intro l
  induction l with
  | nil => intro b h _; exact h
  | cons c rest ih =>
    intro b h hx
    obtain ⟨hcb, hb, next, hn, hrest⟩ := h
    subst hcb
    have hxc : x ≠ c := fun h => hx (h ▸ List.mem_cons_self _ _)
    refine ⟨rfl, hb, next, ?_, ih next hrest (fun h => hx (List.mem_cons_of_mem _ h))⟩
    rw [List.getElem?_set_ne hxc]
    exact hn

theorem is_chain_unique {fat : List Nat} :
    ∀ (l1 l2 : List Nat) (b : Nat), is_chain fat b l1 → is_chain fat b l2 → l1 = l2 := by
  intro l1
  induction l1 with
  | nil =>
    intro l2 b h1 h2
    cases l2 with
    | nil => rfl
    | cons c rest => exact absurd h1 h2.2.1
  | cons c rest ih =>
    intro l2 b h1 h2
    cases l2 with
    | nil => exact absurd h2 h1.2.1
    | cons c2 rest2 =>
      obtain ⟨hc, _, n1, hn1, hr1⟩ := h1
      obtain ⟨hc2, _, n2, hn2, hr2⟩ := h2
      rw [hn1] at hn2
      cases hn2
      rw [hc, hc2, ih rest2 n1 hr1 hr2]

theorem is_chain_suffix {fat : List Nat} :
    ∀ (l : List Nat) (b c : Nat), is_chain fat b l → c ∈ l →
      ∃ pre post, l = pre ++ c :: post ∧ is_chain fat c (c :: post) := by
  intro l
  induction l with
  | nil => intro b c _ hc; cases hc
  | cons a rest ih =>
    intro b c h hc
    rcases List.mem_cons.mp hc with rfl | hcr
    · obtain ⟨hab, hb, next, hn, hrest⟩ := h
      exact ⟨[], rest, rfl, rfl, hab ▸ hb, next, hab ▸ hn, hrest⟩
    · obtain ⟨_, _, next, _, hrest⟩ := h
      obtain ⟨pre, post, hl, hch⟩ := ih next c hrest hcr
      exact ⟨a :: pre, post, by rw [hl]; rfl, hch⟩

theorem is_chain_nodup {fat : List Nat} :
    ∀ (l : List Nat) (b : Nat), is_chain fat b l → l.Nodup := by
  intro l
  induction l with
  | nil => intro _ _; exact List.nodup_nil
  | cons c rest ih =>
    intro b h
    have h' := h
    obtain ⟨hcb, hb, next, hn, hrest⟩ := h
    refine List.nodup_cons.mpr ⟨?_, ih next hrest⟩
    intro hc
    obtain ⟨pre, post, hl, hch⟩ := is_chain_suffix rest next c hrest hc
    have := is_chain_unique (c :: post) (c :: rest) c hch (hcb ▸ h')
    have hlen := congrArg List.length this
    rw [hl] at hlen
    simp at hlen
    omega

theorem is_chain_lt {fat : List Nat} :
    ∀ (l : List Nat) (b : Nat), is_chain fat b l → ∀ c ∈ l, c < fat.length := by
  intro l
  induction l with
  | nil => intro _ _ c hc; cases hc
  | cons a rest ih =>
    intro b h c hc
    obtain ⟨hab, _, next, hn, hrest⟩ := h
    rcases List.mem_cons.mp hc with rfl | hcr
    · subst hab
      by_contra hlt
      rw [List.getElem?_eq_none (Nat.le_of_not_lt hlt)] at hn
      cases hn
    · exact ih next hrest c hcr

theorem nodup_length_le {l : List Nat} {n : Nat} (hnd : l.Nodup) (hlt : ∀ x ∈ l, x < n) :
    l.length ≤ n := by
  have hsub : l ⊆ List.range n := fun x hx => List.mem_range.mpr (hlt x hx)
  have := (List.subperm_of_subset hnd hsub).length_le
  simpa using this

theorem foldl_set_length (v : Nat) :
    ∀ (l : List Nat) (fat : List Nat), (l.foldl (fun f c => f.set c v) fat).length = fat.length := by
  intro l
  induction l with
  | nil => intro fat; rfl
  | cons c rest ih => intro fat; simp [List.foldl_cons, ih]

theorem slot_get_index {s : pennfat_state_t} {fd : Int} {f : file_descriptor_t} {p : entry_ptr}
    (h : slot_get s fd = some (f, p)) :
    0 ≤ fd ∧ fd < 32 ∧ s.open_files[fd.toNat]? = some f ∧ f.entry = some p := by
  unfold slot_get at h
  split_ifs at h with hr
  have hr' : 0 ≤ fd ∧ fd < 32 := by omega
  cases h1 : s.open_files[fd.toNat]? with
  | none => rw [h1] at h; cases h
  | some f' =>
    rw [h1] at h
    simp only at h
    cases h2 : f'.entry with
    | none => rw [h2] at h; cases h
    | some p' =>
      rw [h2] at h
      simp only [Option.some.injEq, Prod.mk.injEq] at h
      obtain ⟨rfl, rfl⟩ := h
      exact ⟨hr'.1, hr'.2, rfl, h2⟩

theorem find_dir_loop_none {s : pennfat_state_t} {name : List Nat} :
    ∀ (m i0 : Nat), (∀ j, i0 ≤ j → j < i0 + m → ∃ e, s.root_dir[j]? = some e ∧
        ¬ (e.name.headD 0 > DIR_ENTRY_DELETED ∧ cstr e.name = cstr name)) →
      find_dir_loop s name m i0 = some none := by
  intro m
  induction m with
  | zero => intro i0 _; rfl
  | succ m ih =>
    intro i0 h
    obtain ⟨e, he, hne⟩ := h i0 (Nat.le_refl _) (by omega)
    unfold find_dir_loop
    rw [he]
    simp only [if_neg hne]
    exact ih (i0 + 1) (fun j h1 h2 => h j (by omega) (by omega))

theorem open_names_differ_spec {s : pennfat_state_t} {skip : entry_ptr → Bool}
    {fname : List Nat} (h : open_names_differ s skip fname = true) :
    ∀ f ∈ s.open_files, ∀ p, f.entry = some p →
      ∃ e, entry_get s p = some e ∧ (skip p = false → cstr e.name ≠ cstr fname) := by
  intro f hf p hp
  have := List.all_eq_true.mp h f hf
  rw [hp] at this
  simp only at this
  cases he : entry_get s p with
  | none => rw [he] at this; cases this
  | some e =>
    rw [he] at this
    refine ⟨e, rfl, fun hs => ?_⟩
    simpa [hs] using this

theorem geometry_bounds {s : pennfat_state_t} (h : mounted_geometry s) :
    256 ≤ s.block_size ∧ s.block_size ≤ 4096 ∧ s.fat_size ≤ 131072 ∧
    s.data_start = s.fat_size ∧ s.fat.length = s.fat_size / 2 ∧ s.fat.length ≤ 65536 := by
  obtain ⟨b, c, hb1, hb2, hc, hbs, hfs, hds, hlen⟩ := h
  have h1 : 256 ≤ s.block_size ∧ s.block_size ≤ 4096 := by
    rw [hbs]
    interval_cases c <;> simp
  have h2 : s.fat_size ≤ 131072 := by
    rw [hfs]
    calc b * s.block_size ≤ 32 * 4096 := Nat.mul_le_mul hb2 h1.2
      _ = 131072 := by norm_num
  refine ⟨h1.1, h1.2, h2, hds, hlen, ?_⟩
  rw [hlen]
  omega

theorem data_pos_eq {s : pennfat_state_t} (h : mounted_geometry s) {b o : Nat} (hb1 : 1 ≤ b)
    (hb2 : b ≤ 65535) (ho : o ≤ s.block_size) : data_pos s b o = block_addr s b o := by
  obtain ⟨h1, h2, h3, h4, _, _⟩ := geometry_bounds h
  unfold data_pos block_addr
  have e1 : (b + 4294967295) * s.block_size = (b - 1) * s.block_size + 4294967296 * s.block_size := by
    have : b + 4294967295 = (b - 1) + 4294967296 := by omega
    rw [this, Nat.add_mul]
  have hle : (b - 1) * s.block_size ≤ 65534 * 4096 :=
    Nat.mul_le_mul (by omega) h2
  rw [e1]
  have e2 : s.data_start + ((b - 1) * s.block_size + 4294967296 * s.block_size) + o
      = (s.data_start + (b - 1) * s.block_size + o) + 4294967296 * s.block_size := by ring
  rw [e2, Nat.add_mul_mod_self_left]
  apply Nat.mod_eq_of_lt
  omega

theorem block_addr_ge {s : pennfat_state_t} (h : mounted_geometry s) (b o : Nat) :
    s.fat_size ≤ block_addr s b o := by
  obtain ⟨_, _, _, h4, _, _⟩ := geometry_bounds h
  unfold block_addr
  omega

/-- Two bytes of data blocks have the same offset in the image only when they
are the same byte of the same block. -/
theorem block_addr_inj {s : pennfat_state_t} {b b' o o' : Nat} (hb : 1 ≤ b) (hb' : 1 ≤ b')
    (ho : o < s.block_size) (ho' : o' < s.block_size)
    (h : block_addr s b o = block_addr s b' o') : b = b' ∧ o = o' := by
  unfold block_addr at h
  have h' : (b - 1) * s.block_size + o = (b' - 1) * s.block_size + o' := by omega
  have hbs : 0 < s.block_size := by omega
  have hd : (b - 1) = (b' - 1) := by
    have e1 := congrArg (fun x => x / s.block_size) h'
    simp only at e1
    rw [Nat.add_comm, Nat.add_mul_div_right _ _ hbs, Nat.div_eq_of_lt ho,
      Nat.add_comm ((b' - 1) * s.block_size), Nat.add_mul_div_right _ _ hbs,
      Nat.div_eq_of_lt ho'] at e1
    omega
  rw [hd] at h'
  exact ⟨by omega, by omega⟩

theorem host_write_data {s : pennfat_state_t} {pos : Nat} (bytes : List Nat)
    (hpos : s.fat_size ≤ pos) :
    host_write s pos bytes = { s with
      data := fun a => if pos ≤ a ∧ a < pos + bytes.length then bytes.getD (a - pos) 0
        else s.data a,
      img_size := if bytes = [] then s.img_size else max s.img_size (pos + bytes.length) } := by
  unfold host_write
  rw [if_pos hpos]
  congr 1
  funext a
  by_cases ha : pos ≤ a ∧ a < pos + bytes.length
  · rw [if_pos ha, if_pos ⟨by omega, ha.1, ha.2⟩]
  · rw [if_neg ha, if_neg (fun h => ha ⟨h.2.1, h.2.2⟩)]

theorem same_meta_refl (s : pennfat_state_t) : same_meta s s := rfl

theorem same_meta_trans {s1 s2 s3 : pennfat_state_t} (h12 : same_meta s1 s2)
    (h23 : same_meta s2 s3) : same_meta s1 s3 := by
  unfold same_meta at *
  rw [h23, h12]

theorem same_meta_host_write {s : pennfat_state_t} {pos : Nat} (bytes : List Nat)
    (hpos : s.fat_size ≤ pos) : same_meta s (host_write s pos bytes) := by
  rw [host_write_data bytes hpos]
  rfl


theorem same_meta_fields {s s' : pennfat_state_t} (h : same_meta s s') :
    s'.fat = s.fat ∧ s'.fat_blocks = s.fat_blocks ∧ s'.block_size = s.block_size ∧
    s'.fat_size = s.fat_size ∧ s'.data_start = s.data_start ∧ s'.root_dir = s.root_dir ∧
    s'.std_entries = s.std_entries ∧ s'.is_mounted = s.is_mounted ∧
    s'.open_files = s.open_files ∧ s'.root_dir_blocks = s.root_dir_blocks ∧
    s'.p_errno = s.p_errno := by
  unfold same_meta at h
  refine ⟨?_, ?_, ?_, ?_, ?_, ?_, ?_, ?_, ?_, ?_, ?_⟩
  · have e := congrArg pennfat_state_t.fat h; exact e
  · have e := congrArg pennfat_state_t.fat_blocks h; exact e
  · have e := congrArg pennfat_state_t.block_size h; exact e
  · have e := congrArg pennfat_state_t.fat_size h; exact e
  · have e := congrArg pennfat_state_t.data_start h; exact e
  · have e := congrArg pennfat_state_t.root_dir h; exact e
  · have e := congrArg pennfat_state_t.std_entries h; exact e
  · have e := congrArg pennfat_state_t.is_mounted h; exact e
  · have e := congrArg pennfat_state_t.open_files h; exact e
  · have e := congrArg pennfat_state_t.root_dir_blocks h; exact e
  · have e := congrArg pennfat_state_t.p_errno h; exact e

theorem geometry_congr {s s' : pennfat_state_t} (h : mounted_geometry s)
    (h1 : s'.block_size = s.block_size) (h2 : s'.fat_size = s.fat_size)
    (h3 : s'.data_start = s.data_start) (h4 : s'.fat.length = s.fat.length) :
    mounted_geometry s' := by
  obtain ⟨b, c, hb1, hb2, hc, hbs, hfs, hds, hlen⟩ := h
  exact ⟨b, c, hb1, hb2, hc, by rw [h1, hbs], by rw [h2, h1, hfs], by rw [h3, h2, hds],
    by rw [h4, h2, hlen]⟩

theorem geometry_same_meta {s s' : pennfat_state_t} (h : mounted_geometry s)
    (hm : same_meta s s') : mounted_geometry s' := by
  obtain ⟨h1, _, h3, h4, h5, _⟩ := same_meta_fields hm
  exact geometry_congr h h3 h4 h5 (by rw [h1])

theorem block_addr_congr {s s' : pennfat_state_t} (h1 : s'.block_size = s.block_size)
    (h2 : s'.data_start = s.data_start) (b o : Nat) : block_addr s' b o = block_addr s b o := by
  unfold block_addr
  rw [h1, h2]

theorem pad_to_length (n : Nat) (l : List Nat) : (pad_to n l).length = n := by
  unfold pad_to
  simp
  omega

theorem le_bytes_length : ∀ (k v : Nat), (le_bytes k v).length = k := by
  intro k
  induction k with
  | zero => intro v; rfl
  | succ k ih => intro v; simp [le_bytes, ih]

theorem encode_entry_length (e : dir_entry_t) : (encode_entry e).length = 64 := by
  simp [encode_entry, pad_to_length, le_bytes_length]

theorem flatten_length_const {α : Type} (c : Nat) :
    ∀ (l : List (List α)), (∀ x ∈ l, x.length = c) → l.flatten.length = c * l.length := by
  intro l
  induction l with
  | nil => intro _; simp
  | cons a rest ih =>
    intro h
    rw [List.flatten_cons, List.length_append, h a (List.mem_cons_self _ _),
      ih (fun x hx => h x (List.mem_cons_of_mem _ hx)), List.length_cons]
    ring

theorem dir_block_bytes_length_le (s : pennfat_state_t) (j : Nat) :
    (dir_block_bytes s j).length ≤ s.block_size := by
  unfold dir_block_bytes
  rw [flatten_length_const 64]
  · simp only [List.length_map, List.length_take]
    calc 64 * min (s.block_size / 64) _ ≤ 64 * (s.block_size / 64) :=
          Nat.mul_le_mul_left _ (Nat.min_le_left _ _)
      _ ≤ s.block_size := Nat.mul_div_le _ _
  · intro x hx
    obtain ⟨e, _, rfl⟩ := List.mem_map.mp hx
    exact encode_entry_length e

theorem is_chain_bounds {s : pennfat_state_t} (hg : mounted_geometry s) {b : Nat} {l : List Nat}
    (h : is_chain s.fat b l) : ∀ c ∈ l, c ≤ 65534 := by
  intro c hc
  have hlt := is_chain_lt _ _ h c hc
  obtain ⟨_, _, _, _, _, hL⟩ := geometry_bounds hg
  have hne : c ≠ FAT_ENTRY_LAST := by
    obtain ⟨_, post, _, hch⟩ := is_chain_suffix _ _ c h hc
    exact hch.2.1
  have : c ≠ 65535 := hne
  omega

/-- `sync_directory_entry` writes inside the blocks of the directory only. -/
theorem sync_loop_spec :
    ∀ (m : Nat) (D : List Nat) (s : pennfat_state_t) (block j : Nat),
      mounted_geometry s → is_chain s.fat block D → 0 ∉ D →
      ∃ s', sync_loop m s block j = some s' ∧ same_meta s s' ∧ s.img_size ≤ s'.img_size ∧
        ∀ a, (∀ d ∈ D, ¬ (block_addr s d 0 ≤ a ∧ a < block_addr s d 0 + s.block_size)) →
          s'.data a = s.data a := by
  intro m
  induction m with
  | zero =>
    intro D s block j _ _ _
    exact ⟨s, rfl, same_meta_refl s, Nat.le_refl _, fun _ _ => rfl⟩
  | succ m ih =>
    intro D s block j hg hch h0
    cases D with
    | nil =>
      have hb : block = FAT_ENTRY_LAST := hch
      exact ⟨s, by simp [sync_loop, hb], same_meta_refl s, Nat.le_refl _, fun _ _ => rfl⟩
    | cons d rest =>
      have hbd := is_chain_bounds hg hch d (List.mem_cons_self _ _)
      obtain ⟨hdb, hb, next, hn, hrest⟩ := hch
      subst hdb
      have hd1 : 1 ≤ d := by
        rcases Nat.eq_zero_or_pos d with h | h
        · exact absurd (h ▸ List.mem_cons_self _ _) h0
        · exact h
      have hpos : data_pos s d 0 = block_addr s d 0 :=
        data_pos_eq hg hd1 (by omega) (Nat.zero_le _)
      have hge := block_addr_ge hg d 0
      obtain ⟨s1, hs1⟩ : ∃ s1, s1 = host_write s (block_addr s d 0) (dir_block_bytes s j) :=
        ⟨_, rfl⟩
      have hm1 : same_meta s s1 := by rw [hs1]; exact same_meta_host_write _ hge
      obtain ⟨f1, _, f3, _, f5, _⟩ := same_meta_fields hm1
      have hg1 := geometry_same_meta hg hm1
      obtain ⟨s', hs', hm', hsz', hdata'⟩ :=
        ih rest s1 next (j + 1) hg1 (by rw [f1]; exact hrest)
          (fun h => h0 (List.mem_cons_of_mem _ h))
      have hsz1 : s.img_size ≤ s1.img_size := by
        rw [hs1, host_write_data _ hge]
        simp only
        split_ifs
        · exact Nat.le_refl _
        · exact Nat.le_max_left _ _
      refine ⟨s', ?_, same_meta_trans hm1 hm', Nat.le_trans hsz1 hsz', ?_⟩
      · simp only [sync_loop, if_pos hb, hpos, ← hs1, fat_get, f1, hn]
        exact hs'
      · intro a ha
        rw [hdata' a (fun x hx => by
          rw [block_addr_congr f3 f5, f3]
          exact ha x (List.mem_cons_of_mem _ hx))]
        rw [hs1, host_write_data _ hge]
        simp only
        have hlen := dir_block_bytes_length_le s j
        have := ha d (List.mem_cons_self _ _)
        rw [if_neg (fun h => this ⟨h.1, by omega⟩)]

theorem sync_spec {s : pennfat_state_t} {D : List Nat} (hg : mounted_geometry s)
    (hd : dir_chain s D) :
    ∃ s', sync_directory_entry s = some s' ∧ same_meta s s' ∧ s.img_size ≤ s'.img_size ∧
      ∀ a, (∀ d ∈ D, ¬ (block_addr s d 0 ≤ a ∧ a < block_addr s d 0 + s.block_size)) →
        s'.data a = s.data a :=
  sync_loop_spec s.root_dir_blocks D s 1 0 hg hd.1 hd.2.2

theorem find_free_loop_found {fat : List Nat} {n : Nat} (hn : n = fat.length) :
    ∀ (fuel i j : Nat), i ≤ j → j < n → j < 65536 → fat[j]? = some FAT_ENTRY_FREE →
      j - i < fuel →
      ∃ b, find_free_loop fat n fuel i = some b ∧ i ≤ b ∧ b ≤ j ∧
        fat[b]? = some FAT_ENTRY_FREE := by
  intro fuel
  induction fuel with
  | zero => intro i j _ _ _ _ hf; omega
  | succ fuel ih =>
    intro i j hij hjn hj hfree hf
    have hin : i < n := by omega
    have hil : i < fat.length := hn ▸ hin
    obtain ⟨v, hv⟩ : ∃ v, fat[i]? = some v := ⟨fat[i], List.getElem?_eq_getElem hil⟩
    unfold find_free_loop
    rw [if_pos hin, hv]
    by_cases hv0 : v = FAT_ENTRY_FREE
    · exact ⟨i, by simp [hv0], Nat.le_refl _, hij, hv0 ▸ hv⟩
    · have hne : i ≠ j := by
        rintro rfl
        rw [hv] at hfree
        exact hv0 (Option.some.inj hfree)
      have hmod : (i + 1) % 65536 = i + 1 := Nat.mod_eq_of_lt (by omega)
      simp only [if_neg hv0, hmod]
      obtain ⟨b, hb, h1, h2, h3⟩ := ih (i + 1) j (by omega) hjn hj hfree (by omega)
      exact ⟨b, hb, by omega, h2, h3⟩

theorem find_free_loop_full {fat : List Nat} {n : Nat} (hn : n ≤ 65535) :
    ∀ (fuel i : Nat), n - i < fuel →
      (∀ x, i ≤ x → x < n → ∃ v, fat[x]? = some v ∧ v ≠ FAT_ENTRY_FREE) →
      find_free_loop fat n fuel i = some 0 := by
  intro fuel
  induction fuel with
  | zero => intro i hf _; omega
  | succ fuel ih =>
    intro i hf hall
    unfold find_free_loop
    by_cases hin : i < n
    · obtain ⟨v, hv, hv0⟩ := hall i (Nat.le_refl _) hin
      have hmod : (i + 1) % 65536 = i + 1 := Nat.mod_eq_of_lt (by omega)
      rw [if_pos hin, hv]
      simp only [if_neg hv0, hmod]
      exact ih (i + 1) (by omega) (fun x h1 h2 => hall x (by omega) h2)
    · rw [if_neg hin]

theorem mem_free_blocks {s : pennfat_state_t} {b : Nat} :
    b ∈ free_blocks s ↔ 2 ≤ b ∧ b < 65535 ∧ s.fat[b]? = some FAT_ENTRY_FREE := by
  unfold free_blocks
  rw [List.mem_filter, List.mem_range]
  simp only [decide_eq_true_eq]
  constructor
  · rintro ⟨h1, h2, h3, h4⟩
    refine ⟨h2, h3, ?_⟩
    rw [List.getD_eq_getElem?_getD, List.getElem?_eq_getElem h1] at h4
    rw [List.getElem?_eq_getElem h1]
    simpa using h4
  · rintro ⟨h2, h3, h4⟩
    have h1 : b < s.fat.length := by
      by_contra hcon
      rw [List.getElem?_eq_none (Nat.le_of_not_lt hcon)] at h4
      cases h4
    refine ⟨h1, h2, h3, ?_⟩
    rw [List.getD_eq_getElem?_getD, h4]
    rfl

/-- With a free block left, `find_free_fat_entry` returns one. -/
theorem find_free_spec {s : pennfat_state_t} (hg : mounted_geometry s)
    (hfree : free_blocks s ≠ []) :
    ∃ b, find_free_fat_entry s = some b ∧ b ∈ free_blocks s := by
  obtain ⟨j, hj⟩ := List.exists_mem_of_ne_nil _ hfree
  obtain ⟨hj2, hj3, hj4⟩ := mem_free_blocks.mp hj
  obtain ⟨_, _, _, _, hlen, _⟩ := geometry_bounds hg
  have hjl : j < s.fat.length := by
    by_contra hcon
    rw [List.getElem?_eq_none (Nat.le_of_not_lt hcon)] at hj4
    cases hj4
  obtain ⟨b, hb, h1, h2, h3⟩ := find_free_loop_found hlen.symm 65536 2 j hj2
    (by omega) (by omega) hj4 (by omega)
  exact ⟨b, hb, mem_free_blocks.mpr ⟨h1, by omega, h3⟩⟩

/-- With no free block left and fewer than 65536 FAT entries,
`find_free_fat_entry` returns 0. -/
theorem find_free_full {s : pennfat_state_t} (hg : mounted_geometry s)
    (hfull : free_blocks s = []) (hL : s.fat.length ≤ 65535) :
    find_free_fat_entry s = some 0 := by
  obtain ⟨_, _, _, _, hlen, _⟩ := geometry_bounds hg
  unfold find_free_fat_entry
  apply find_free_loop_full (by omega) 65536 2 (by omega)
  intro x hx2 hxn
  have hxl : x < s.fat.length := by omega
  refine ⟨s.fat[x], List.getElem?_eq_getElem hxl, ?_⟩
  intro h0
  have : x ∈ free_blocks s :=
    mem_free_blocks.mpr ⟨hx2, by omega, by rw [List.getElem?_eq_getElem hxl, h0]⟩
  rw [hfull] at this
  cases this

theorem free_blocks_nodup (s : pennfat_state_t) : (free_blocks s).Nodup :=
  List.Nodup.filter _ (List.nodup_range _)

/-- Taking one free block out of the FAT leaves one free block less. -/
theorem free_blocks_alloc {s s' : pennfat_state_t} {nb : Nat} (hnb : nb ∈ free_blocks s)
    (h : ∀ x, s'.fat[x]? = some FAT_ENTRY_FREE ↔ (x ≠ nb ∧ s.fat[x]? = some FAT_ENTRY_FREE)) :
    (free_blocks s').length + 1 = (free_blocks s).length := by
  have hperm : List.Perm (free_blocks s') ((free_blocks s).erase nb) := by
    rw [List.perm_ext_iff_of_nodup (free_blocks_nodup s')
      ((free_blocks_nodup s).erase nb)]
    intro a
    rw [(free_blocks_nodup s).mem_erase_iff, mem_free_blocks, mem_free_blocks, h a]
    tauto
  rw [hperm.length_eq, List.length_erase_of_mem hnb]
  have : 0 < (free_blocks s).length := List.length_pos_of_mem hnb
  omega

theorem free_blocks_fat {s s' : pennfat_state_t} (h : s'.fat = s.fat) :
    free_blocks s' = free_blocks s := by
  unfold free_blocks
  rw [h]

/-- No block of a chain that avoids block 0 is marked free. -/
theorem is_chain_used {fat : List Nat} :
    ∀ (l : List Nat) (b : Nat), is_chain fat b l → 0 ∉ l →
      ∀ c ∈ l, fat[c]? ≠ some FAT_ENTRY_FREE := by
  intro l
  induction l with
  | nil => intro _ _ _ c hc; cases hc
  | cons a rest ih =>
    intro b h h0 c hc
    obtain ⟨hab, _, next, hn, hrest⟩ := h
    subst hab
    rcases List.mem_cons.mp hc with rfl | hcr
    · rw [hn]
      intro h
      have hnext : next = 0 := Option.some.inj h
      subst hnext
      cases rest with
      | nil =>
        have : (0 : Nat) = FAT_ENTRY_LAST := hrest
        exact absurd this (by decide)
      | cons r rest2 => exact h0 (List.mem_cons_of_mem _ (hrest.1 ▸ List.mem_cons_self _ _))
    · exact ih next hrest (fun h => h0 (List.mem_cons_of_mem _ h)) c hcr

theorem is_chain_last_entry {fat : List Nat} :
    ∀ (l : List Nat) (b cb : Nat), is_chain fat b l → l.getLast? = some cb →
      fat[cb]? = some FAT_ENTRY_LAST := by
  intro l
  induction l with
  | nil => intro _ _ _ h; cases h
  | cons a rest ih =>
    intro b cb h hl
    obtain ⟨hab, _, next, hn, hrest⟩ := h
    subst hab
    cases rest with
    | nil =>
      have : a = cb := by simpa using hl
      subst this
      have : next = FAT_ENTRY_LAST := hrest
      rw [hn, this]
    | cons r rest2 =>
      exact ih next cb hrest (by simpa [List.getLast?_cons_cons] using hl)

/-- Linking a new block after the last block of a chain. -/
theorem is_chain_append {fat : List Nat} :
    ∀ (l : List Nat) (b cb nb : Nat), is_chain fat b l → l.getLast? = some cb → nb ∉ l →
      nb ≠ FAT_ENTRY_LAST → nb < fat.length →
      is_chain ((fat.set cb nb).set nb FAT_ENTRY_LAST) b (l ++ [nb]) := by
  intro l
  induction l with
  | nil => intro _ _ _ _ h; cases h
  | cons a rest ih =>
    intro b cb nb h hl hnb hne hlt
    have hnd := is_chain_nodup _ _ h
    have halt := is_chain_lt _ _ h a (List.mem_cons_self _ _)
    obtain ⟨hab, hb, next, hn, hrest⟩ := h
    subst hab
    have hna : nb ≠ a := fun h => hnb (h ▸ List.mem_cons_self _ _)
    cases rest with
    | nil =>
      have : a = cb := by simpa using hl
      subst this
      refine ⟨rfl, hb, nb, ?_, rfl, hne, FAT_ENTRY_LAST, ?_, rfl⟩
      · rw [List.getElem?_set_ne hna]
        simp [List.getElem?_set, halt]
      · simp [List.getElem?_set, hlt]
    | cons r rest2 =>
      have hl2 : (r :: rest2).getLast? = some cb := by
        simpa [List.getLast?_cons_cons] using hl
      have hcbmem : cb ∈ r :: rest2 := List.mem_of_getLast?_eq_some hl2
      have hacb : cb ≠ a := by
        rintro rfl
        exact (List.nodup_cons.mp hnd).1 hcbmem
      refine ⟨rfl, hb, next, ?_, ih next cb nb hrest hl2
        (fun h => hnb (List.mem_cons_of_mem _ h)) hne hlt⟩
      rw [List.getElem?_set_ne hna, List.getElem?_set_ne hacb]
      exact hn

theorem slot_get_open_files {s s' : pennfat_state_t} (h : s'.open_files = s.open_files)
    (fd : Int) : slot_get s' fd = slot_get s fd := by
  unfold slot_get
  rw [h]

theorem slot_get_slot_set {s : pennfat_state_t} {fd : Int} {f f' : file_descriptor_t}
    {p : entry_ptr} (h : slot_get s fd = some (f, p)) (hf : f'.entry = some p) :
    slot_get (slot_set s fd f') fd = some (f', p) := by
  obtain ⟨h0, h32, hlt, _⟩ := slot_get_index h
  have hlen : fd.toNat < s.open_files.length := by
    by_contra hcon
    rw [List.getElem?_eq_none (Nat.le_of_not_lt hcon)] at hlt
    cases hlt
  unfold slot_get slot_set
  rw [if_neg (by omega)]
  simp [List.getElem?_set, hlen, hf]

theorem slot_get_entry {s : pennfat_state_t} {fd : Int} {f : file_descriptor_t}
    {p : entry_ptr} (h : slot_get s fd = some (f, p)) : f.entry = some p :=
  (slot_get_index h).2.2.2

theorem write_alloc_keep {fd : Int} {p : entry_ptr} {s : pennfat_state_t} {w n cb oib : Nat}
    (hcb : cb ≠ FAT_ENTRY_LAST) (h : ¬ (oib = s.block_size ∧ w < n)) :
    write_alloc fd p s w n cb oib = some (some (s, cb, oib)) := by
  unfold write_alloc
  rw [if_neg (by tauto)]

theorem write_alloc_full {fd : Int} {p : entry_ptr} {s : pennfat_state_t} {w n cb oib : Nat}
    (hg : mounted_geometry s) (hfull : free_blocks s = []) (hL : s.fat.length ≤ 65535)
    (hoib : oib = s.block_size) (hw : w < n) :
    write_alloc fd p s w n cb oib = some none := by
  unfold write_alloc
  rw [if_pos (Or.inr ⟨hoib, hw⟩), find_free_full hg hfull hL]
  simp

theorem getD_append_left (B : List Nat) (x k : Nat) (hk : k < B.length) :
    (B ++ [x]).getD k 0 = B.getD k 0 := by
  rw [List.getD_eq_getElem?_getD, List.getD_eq_getElem?_getD, List.getElem?_append_left hk]

theorem mul_add_lt_mul {k m bs o : Nat} (h : k * bs + o < m * bs) : k < m := by
  by_contra hcon
  have : m * bs ≤ k * bs := Nat.mul_le_mul_right _ (Nat.le_of_not_lt hcon)
  omega

/-- The head of the write loop when the block is full and a block is free: the
new block is linked after the last block of the file. -/
theorem write_alloc_new {s : pennfat_state_t} {fd : Int} {i : Nat} {B D : List Nat}
    {buf : Nat → Nat} {w n cb oib : Nat} (inv : write_inv s fd i B D buf w)
    (hcb : B.getLast? = some cb) (hoib : oib = s.block_size) (hw : w < n)
    (hpos : (B.length - 1) * s.block_size + oib = w) (hfree : free_blocks s ≠ []) :
    ∃ s1 nb, write_alloc fd (entry_ptr.root i) s w n cb oib = some (some (s1, nb, 0)) ∧
      write_inv s1 fd i (B ++ [nb]) D buf w ∧ s1.block_size = s.block_size ∧
      s1.fat.length = s.fat.length ∧
      (free_blocks s1).length + 1 = (free_blocks s).length := by
  obtain ⟨nb, hfind, hnbfree⟩ := find_free_spec inv.geom hfree
  obtain ⟨hnb2, hnb3, hnbz⟩ := mem_free_blocks.mp hnbfree
  have hcbmem : cb ∈ B := List.mem_of_getLast?_eq_some hcb
  have hBne : B ≠ [] := List.ne_nil_of_mem hcbmem
  have hBlen : 0 < B.length := List.length_pos.mpr hBne
  have hcble := is_chain_bounds inv.geom inv.chain cb hcbmem
  have hcblt := is_chain_lt _ _ inv.chain cb hcbmem
  have hnblt : nb < s.fat.length := by
    by_contra hcon
    rw [List.getElem?_eq_none (Nat.le_of_not_lt hcon)] at hnbz
    cases hnbz
  have h0B : 0 ∉ B := fun h => by have := inv.blocks 0 h; omega
  have hnbB : nb ∉ B := fun h => is_chain_used _ _ inv.chain h0B nb h hnbz
  have hnbD : nb ∉ D := fun h => is_chain_used _ _ inv.dir.1 inv.dir.2.2 nb h hnbz
  have hcbD : cb ∉ D := inv.disj cb hcbmem
  have hcbne : cb ≠ FAT_ENTRY_LAST := by
    have : cb ≠ 65535 := by omega
    exact this
  have hnb0 : nb ≠ 0 := by omega
  have hnbne : nb ≠ FAT_ENTRY_LAST := by
    have : nb ≠ 65535 := by omega
    exact this
  have hcblast := is_chain_last_entry _ _ _ inv.chain hcb
  obtain ⟨f, hslot, hoff, hmode, hlast⟩ := inv.slot
  obtain ⟨s2, hs2⟩ :
      ∃ s2 : pennfat_state_t, s2 = { s with fat := (s.fat.set cb nb).set nb FAT_ENTRY_LAST } :=
    ⟨_, rfl⟩
  have hfat2 : s2.fat = (s.fat.set cb nb).set nb FAT_ENTRY_LAST := by rw [hs2]
  have hof2 : s2.open_files = s.open_files := by rw [hs2]
  have hbs2 : s2.block_size = s.block_size := by rw [hs2]
  have hds2 : s2.data_start = s.data_start := by rw [hs2]
  have hfs2 : s2.fat_size = s.fat_size := by rw [hs2]
  have hrd2 : s2.root_dir = s.root_dir := by rw [hs2]
  have hrb2 : s2.root_dir_blocks = s.root_dir_blocks := by rw [hs2]
  have hdt2 : s2.data = s.data := by rw [hs2]
  have hsz2 : s2.img_size = s.img_size := by rw [hs2]
  have hslot2 : slot_get s2 fd = some (f, entry_ptr.root i) := by
    rw [slot_get_open_files hof2]; exact hslot
  have hlen2 : s2.fat.length = s.fat.length := by rw [hfat2]; simp
  refine ⟨slot_set s2 fd { f with current_block := nb }, nb, ?_, ?_, hbs2, ?_, ?_⟩
  · unfold write_alloc
    rw [if_pos (Or.inr ⟨hoib, hw⟩), hfind]
    simp only [if_neg hnb0, if_neg hcbne, fat_set, if_pos hcblt, List.length_set, if_pos hnblt]
    rw [← hs2, hslot2]
  · have hentry := slot_get_entry hslot
    have hchain2 : is_chain s2.fat (B.headD 0) (B ++ [nb]) := by
      rw [hfat2]
      exact is_chain_append B _ cb nb inv.chain hcb hnbB hnbne hnblt
    have hdir2 : is_chain s2.fat 1 D := by
      rw [hfat2]
      exact is_chain_set D 1 (is_chain_set D 1 inv.dir.1 hcbD) hnbD
    have hslot3 := @slot_get_slot_set s2 fd f { f with current_block := nb } _ hslot2 hentry
    subst hs2
    constructor
    · exact geometry_congr inv.geom hbs2 hfs2 hds2 hlen2
    · exact inv.fd_ge
    · exact ⟨{ f with current_block := nb }, hslot3, hoff, hmode, by simp⟩
    · obtain ⟨e, he, hhead, hsize, hperm⟩ := inv.entry
      refine ⟨e, he, ?_, hsize, hperm⟩
      rw [List.head?_append_of_ne_nil _ hBne]
      exact hhead
    · have : (B ++ [nb]).headD 0 = B.headD 0 := by
        cases B with
        | nil => exact absurd rfl hBne
        | cons a r => rfl
      rw [this]
      exact hchain2
    · intro b hb
      rcases List.mem_append.mp hb with h | h
      · exact inv.blocks b h
      · rw [List.mem_singleton.mp h]; exact hnb2
    · exact ⟨hdir2, inv.dir.2.1, inv.dir.2.2⟩
    · intro b hb
      rcases List.mem_append.mp hb with h | h
      · exact inv.disj b h
      · rw [List.mem_singleton.mp h]; exact hnbD
    · intro k o hk ho hlt
      have hw' : w = B.length * s.block_size := by
        rw [← hpos, hoib]
        have : B.length = (B.length - 1) + 1 := by omega
        nth_rewrite 2 [this]
        rw [Nat.add_mul, Nat.one_mul]
      have hlt' : k * s.block_size + o < w := hlt
      have hkB : k < B.length := by
        rw [hw'] at hlt'
        exact mul_add_lt_mul hlt'
      rw [getD_append_left B nb k hkB]
      exact inv.content k o hkB ho hlt
  · exact hlen2
  · apply free_blocks_alloc hnbfree
    intro x
    show s2.fat[x]? = some FAT_ENTRY_FREE ↔ _
    rw [hfat2]
    by_cases hx : x = nb
    · subst hx
      simp [List.getElem?_set, hnblt]
    · rw [List.getElem?_set_ne (Ne.symm hx)]
      by_cases hxc : x = cb
      · subst hxc
        simp [List.getElem?_set, hcblt, hnb0, hcblast, hx]
      · rw [List.getElem?_set_ne (Ne.symm hxc)]
        simp [hx]

theorem block_addr_region {s : pennfat_state_t} {b d o : Nat} (hb : 1 ≤ b) (hd : 1 ≤ d)
    (ho : o < s.block_size) (h1 : block_addr s d 0 ≤ block_addr s b o)
    (h2 : block_addr s b o < block_addr s d 0 + s.block_size) : b = d := by
  have e : block_addr s b o = block_addr s d (block_addr s b o - block_addr s d 0) := by
    unfold block_addr at *
    omega
  exact (block_addr_inj hb hd ho (by omega) e).1

theorem getD_last {B : List Nat} {cb : Nat} (h : B.getLast? = some cb) :
    B.getD (B.length - 1) 0 = cb := by
  rw [List.getD_eq_getElem?_getD, ← List.getLast?_eq_getElem?, h]
  rfl

theorem getD_mem {B : List Nat} {k : Nat} (hk : k < B.length) : B.getD k 0 ∈ B := by
  rw [List.getD_eq_getElem _ _ hk]
  exact List.getElem_mem hk

theorem getD_inj {B : List Nat} (hnd : B.Nodup) {k m : Nat} (hk : k < B.length)
    (hm : m < B.length) (h : B.getD k 0 = B.getD m 0) : k = m := by
  rw [List.getD_eq_getElem _ _ hk, List.getD_eq_getElem _ _ hm] at h
  exact hnd.getElem_inj_iff.mp h

theorem chunk_getD (buf : Nat → Nat) (w len j : Nat) (hj : j < len) :
    ((List.range len).map (fun j => buf (w + j))).getD j 0 = buf (w + j) := by
  rw [List.getD_eq_getElem?_getD, List.getElem?_map, List.getElem?_range hj]
  rfl

/-- One chunk of the write loop: the bytes land in the last block of the file,
the write head and the size advance by their number. -/
theorem write_chunk_spec {s : pennfat_state_t} {fd : Int} {i : Nat} {B D : List Nat}
    {buf : Nat → Nat} {w len cb oib : Nat} (inv : write_inv s fd i B D buf w)
    (hcb : B.getLast? = some cb) (hpos : (B.length - 1) * s.block_size + oib = w)
    (hlen : oib + len ≤ s.block_size) (hw : w + len < 4294967296) :
    ∃ s4, write_chunk fd (entry_ptr.root i) buf s w len cb oib = some s4 ∧
      write_inv s4 fd i B D buf (w + len) ∧ s4.fat = s.fat ∧
      s4.block_size = s.block_size := by
  have hcbmem : cb ∈ B := List.mem_of_getLast?_eq_some hcb
  have hBlen : 0 < B.length := List.length_pos_of_mem hcbmem
  have hcble := is_chain_bounds inv.geom inv.chain cb hcbmem
  have hcb2 := inv.blocks cb hcbmem
  have hnd := is_chain_nodup _ _ inv.chain
  have hposeq : data_pos s cb oib = block_addr s cb oib :=
    data_pos_eq inv.geom (by omega) (by omega) (by omega)
  have hge := block_addr_ge inv.geom cb oib
  obtain ⟨f, hslot, hoff, hmode, hlast⟩ := inv.slot
  obtain ⟨e, he, hhead, hsize, hperm⟩ := inv.entry
  have hentry := slot_get_entry hslot
  have hilt : i < s.root_dir.length := by
    by_contra hcon
    rw [List.getElem?_eq_none (Nat.le_of_not_lt hcon)] at he
    cases he
  obtain ⟨chunk, hchunk⟩ : ∃ c, c = (List.range len).map (fun j => buf (w + j)) := ⟨_, rfl⟩
  have hclen : chunk.length = len := by rw [hchunk]; simp
  -- the host write
  obtain ⟨sa, hsa⟩ : ∃ sa, sa = host_write s (block_addr s cb oib) chunk := ⟨_, rfl⟩
  have hma : same_meta s sa := by rw [hsa]; exact same_meta_host_write _ hge
  obtain ⟨a1, a2, a3, a4, a5, a6, a7, a8, a9, a10, a11⟩ := same_meta_fields hma
  have hadata : ∀ a, sa.data a =
      if block_addr s cb oib ≤ a ∧ a < block_addr s cb oib + len then
        chunk.getD (a - block_addr s cb oib) 0 else s.data a := by
    intro a
    rw [hsa, host_write_data _ hge, hclen]
  have hasz : s.img_size ≤ sa.img_size ∧ (0 < len → block_addr s cb oib + len ≤ sa.img_size) := by
    rw [hsa, host_write_data _ hge]
    simp only
    split_ifs with hc
    · refine ⟨Nat.le_refl _, fun h => ?_⟩
      rw [hc] at hclen
      simp at hclen
      omega
    · rw [hclen]
      exact ⟨Nat.le_max_left _ _, fun _ => Nat.le_max_right _ _⟩
  have hslota : slot_get sa fd = some (f, entry_ptr.root i) := by
    rw [slot_get_open_files a9]; exact hslot
  -- the slot and the entry
  obtain ⟨f1, hf1⟩ : ∃ f1 : file_descriptor_t,
      f1 = { f with offset := (f.offset + len) % 4294967296 } := ⟨_, rfl⟩
  obtain ⟨e1, he1⟩ : ∃ e1 : dir_entry_t,
      e1 = { e with size := (f.offset + len) % 4294967296 } := ⟨_, rfl⟩
  have hoff1 : (f.offset + len) % 4294967296 = w + len := by
    rw [hoff]; exact Nat.mod_eq_of_lt hw
  obtain ⟨sc, hsc⟩ : ∃ sc, sc = entry_set (slot_set sa fd f1) (entry_ptr.root i) e1 := ⟨_, rfl⟩
  have c1 : sc.fat = s.fat := by rw [hsc]; exact a1
  have c3 : sc.block_size = s.block_size := by rw [hsc]; exact a3
  have c4 : sc.fat_size = s.fat_size := by rw [hsc]; exact a4
  have c5 : sc.data_start = s.data_start := by rw [hsc]; exact a5
  have c6 : sc.root_dir = s.root_dir.set i e1 := by
    rw [hsc]; show sa.root_dir.set i e1 = _; rw [a6]
  have c9 : sc.open_files = s.open_files.set fd.toNat f1 := by
    rw [hsc]; show sa.open_files.set fd.toNat f1 = _; rw [a9]
  have c10 : sc.root_dir_blocks = s.root_dir_blocks := by rw [hsc]; exact a10
  have cdata : sc.data = sa.data := by rw [hsc]; rfl
  have csz : sc.img_size = sa.img_size := by rw [hsc]; rfl
  have hgc : mounted_geometry sc := geometry_congr inv.geom c3 c4 c5 (by rw [c1])
  have hdc : dir_chain sc D := by
    refine ⟨?_, ?_, inv.dir.2.2⟩
    · rw [c1]; exact inv.dir.1
    · rw [c10]; exact inv.dir.2.1
  obtain ⟨s4, hs4, hm4, hsz4, hdata4⟩ := sync_spec hgc hdc
  obtain ⟨d1, d2, d3, d4, d5, d6, d7, d8, d9, d10, d11⟩ := same_meta_fields hm4
  have hD1 : ∀ d ∈ D, 1 ≤ d := by
    intro d hd
    rcases Nat.eq_zero_or_pos d with h | h
    · exact absurd (h ▸ hd) inv.dir.2.2
    · exact h
  -- bytes outside the directory are kept by the write-back
  have hkeep : ∀ k o, k < B.length → o < s.block_size →
      s4.data (block_addr s (B.getD k 0) o) = sa.data (block_addr s (B.getD k 0) o) := by
    intro k o hk ho
    rw [hdata4, cdata]
    intro d hd hin
    rw [block_addr_congr c3 c5, c3] at hin
    have hbk := getD_mem hk
    have := block_addr_region (by have := inv.blocks _ hbk; omega) (hD1 d hd) ho hin.1 hin.2
    exact inv.disj _ hbk (this ▸ hd)
  refine ⟨s4, ?_, ?_, by rw [d1, c1], by rw [d3, c3]⟩
  · unfold write_chunk
    rw [hposeq, ← hchunk, ← hsa, hslota]
    simp only
    rw [← hf1]
    have : entry_get (slot_set sa fd f1) (entry_ptr.root i) = some e := by
      show sa.root_dir[i]? = some e
      rw [a6]; exact he
    rw [this]
    simp only
    rw [← he1, ← hsc]
    exact hs4
  · constructor
    · exact geometry_same_meta hgc hm4
    · exact inv.fd_ge
    · refine ⟨f1, ?_, ?_, ?_, ?_⟩
      · have : s4.open_files = (slot_set s fd f1).open_files := by rw [d9, c9]; rfl
        rw [slot_get_open_files this]
        exact slot_get_slot_set hslot (by rw [hf1]; exact hentry)
      · rw [hf1]; exact hoff1
      · rw [hf1]; exact hmode
      · rw [hf1]; exact hlast
    · refine ⟨e1, ?_, ?_, ?_, ?_⟩
      · rw [d6, c6]
        simp [List.getElem?_set, hilt]
      · rw [he1]; exact hhead
      · rw [he1]; exact hoff1
      · rw [he1]; exact hperm
    · rw [d1, c1]; exact inv.chain
    · exact inv.blocks
    · refine ⟨?_, ?_, inv.dir.2.2⟩
      · rw [d1, c1]; exact inv.dir.1
      · rw [d10, c10]; exact inv.dir.2.1
    · exact inv.disj
    · intro k o hk ho ht
      have hbs4 : s4.block_size = s.block_size := by rw [d3, c3]
      rw [hbs4] at ho ht
      rw [hbs4]
      have hba : ∀ b o, block_addr s4 b o = block_addr s b o :=
        fun b o => @block_addr_congr s s4 (by rw [d3, c3]) (by rw [d5, c5]) b o
      rw [hba, hkeep k o hk ho, hadata]
      by_cases hold : k * s.block_size + o < w
      · obtain ⟨hv, hin⟩ := inv.content k o hk ho hold
        have hnot : ¬ (block_addr s cb oib ≤ block_addr s (B.getD k 0) o ∧
            block_addr s (B.getD k 0) o < block_addr s cb oib + len) := by
          intro hin2
          have e : block_addr s (B.getD k 0) o
              = block_addr s cb (oib + (block_addr s (B.getD k 0) o - block_addr s cb oib)) := by
            unfold block_addr at *
            omega
          have hbk := inv.blocks _ (getD_mem hk)
          obtain ⟨hb, ho'⟩ := block_addr_inj (by omega) (by omega) ho (by omega) e
          have hkm : k = B.length - 1 :=
            getD_inj hnd hk (by omega) (by rw [hb, getD_last hcb])
          rw [hkm] at hold
          omega
        rw [if_neg hnot]
        exact ⟨hv, by omega⟩
      · have hkm : k = B.length - 1 := by
          have h1 : k < (B.length - 1) + 1 := by
            apply @mul_add_lt_mul k _ s.block_size o
            rw [Nat.add_mul, Nat.one_mul]
            omega
          by_contra hne
          have h2 : k + 1 ≤ B.length - 1 := by omega
          have h3 := Nat.mul_le_mul_right s.block_size h2
          rw [Nat.add_mul, Nat.one_mul] at h3
          omega
        have hbk : B.getD k 0 = cb := by rw [hkm, getD_last hcb]
        rw [hbk]
        rw [hkm] at hold ht
        have hin2 : block_addr s cb oib ≤ block_addr s cb o ∧
            block_addr s cb o < block_addr s cb oib + len := by
          unfold block_addr
          omega
        rw [if_pos hin2]
        have hsub : block_addr s cb o - block_addr s cb oib = o - oib := by
          unfold block_addr
          omega
        rw [hsub, hchunk, chunk_getD buf w len (o - oib) (by omega)]
        refine ⟨?_, ?_⟩
        · congr 1
          rw [hkm]
          omega
        · have := hasz.2 (by omega)
          omega

theorem getLast?_append_one (B : List Nat) (x : Nat) : (B ++ [x]).getLast? = some x := by
  simp

/-- The write loop when the bytes left fit in the rest of the current block and
the free blocks: all `n` bytes get written. -/
theorem write_loop_ok (fd : Int) (i : Nat) (D : List Nat) (buf : Nat → Nat) (n : Nat)
    (hn : n < 2147483648) :
    ∀ (fuel : Nat) (s : pennfat_state_t) (B : List Nat) (w cb oib : Nat),
      write_inv s fd i B D buf w → B.getLast? = some cb →
      (B.length - 1) * s.block_size + oib = w → oib ≤ s.block_size → w ≤ n →
      n - w ≤ (s.block_size - oib) + (free_blocks s).length * s.block_size →
      n - w < fuel →
      ∃ s' B', write_loop fd (entry_ptr.root i) buf n fuel s w cb oib = some (s', (n : Int)) ∧
        write_inv s' fd i B' D buf n ∧ s'.block_size = s.block_size ∧
        (B'.length - 1) * s.block_size ≤ n ∧ n ≤ B'.length * s.block_size := by
  intro fuel
  induction fuel with
  | zero => intro s B w cb oib _ _ _ _ _ _ hf; omega
  | succ fuel ih =>
    intro s B w cb oib inv hcb hpos hoib hwn hcap hf
    have hcbmem : cb ∈ B := List.mem_of_getLast?_eq_some hcb
    have hBlen : 0 < B.length := List.length_pos_of_mem hcbmem
    have hcble := is_chain_bounds inv.geom inv.chain cb hcbmem
    have hcbne : cb ≠ FAT_ENTRY_LAST := by
      have : cb ≠ 65535 := by omega
      exact this
    obtain ⟨hbs1, hbs2, _⟩ := geometry_bounds inv.geom
    unfold write_loop
    by_cases hlt : w < n
    · rw [if_pos hlt]
      by_cases hfull : oib = s.block_size
      · have hfree : free_blocks s ≠ [] := by
          intro h
          rw [h, hfull] at hcap
          simp at hcap
          omega
        obtain ⟨s1, nb, ha, inv1, hb1, _, hfc⟩ := write_alloc_new inv hcb hfull hlt hpos hfree
        rw [ha]
        simp only
        rw [hb1, Nat.sub_zero, Nat.zero_add]
        obtain ⟨len, hlen⟩ : ∃ len, len = min s.block_size (n - w) := ⟨_, rfl⟩
        rw [← hlen]
        have hl1 : 1 ≤ len := by rw [hlen]; omega
        have hl2 : len ≤ s.block_size := by rw [hlen]; omega
        have hl3 : len ≤ n - w := by rw [hlen]; omega
        have hpos1 : ((B ++ [nb]).length - 1) * s1.block_size + 0 = w := by
          rw [hb1, List.length_append, List.length_singleton, Nat.add_sub_cancel, ← hpos, hfull]
          have : B.length = (B.length - 1) + 1 := by omega
          nth_rewrite 1 [this]
          rw [Nat.add_mul, Nat.one_mul, Nat.add_zero]
        obtain ⟨s4, hc, inv4, hfat4, hb4⟩ :=
          @write_chunk_spec s1 fd i (B ++ [nb]) D buf w len nb 0 inv1 (getLast?_append_one B nb)
            hpos1 (by rw [hb1]; omega) (by omega)
        rw [hc]
        simp only
        have hb4' : s4.block_size = s.block_size := by rw [hb4, hb1]
        have hfree4 : (free_blocks s4).length + 1 = (free_blocks s).length := by
          rw [free_blocks_fat hfat4]; exact hfc
        obtain ⟨s', B', hr, inv', hb', hB1, hB2⟩ :=
          ih s4 (B ++ [nb]) (w + len) nb len inv4 (getLast?_append_one B nb)
            (by rw [hb4, ← hpos1, Nat.add_zero])
            (by rw [hb4']; exact hl2) (by omega)
            (by
              rw [hb4']
              rw [← hfree4, hfull, Nat.add_mul, Nat.one_mul] at hcap
              omega)
            (by omega)
        refine ⟨s', B', hr, inv', by rw [hb', hb4'], ?_, ?_⟩
        · rw [← hb4']; exact hB1
        · rw [← hb4']; exact hB2
      · rw [write_alloc_keep hcbne (fun h => hfull h.1)]
        simp only
        obtain ⟨len, hlen⟩ : ∃ len, len = min (s.block_size - oib) (n - w) := ⟨_, rfl⟩
        rw [← hlen]
        have hl1 : 1 ≤ len := by rw [hlen]; omega
        have hl2 : len ≤ s.block_size - oib := by rw [hlen]; omega
        have hl3 : len ≤ n - w := by rw [hlen]; omega
        obtain ⟨s4, hc, inv4, hfat4, hb4⟩ :=
          @write_chunk_spec s fd i B D buf w len cb oib inv hcb hpos (by omega) (by omega)
        rw [hc]
        simp only
        obtain ⟨s', B', hr, inv', hb', hB1, hB2⟩ :=
          ih s4 B (w + len) cb (oib + len) inv4 hcb
            (by rw [hb4]; omega)
            (by rw [hb4]; omega) (by omega)
            (by
              rw [hb4, free_blocks_fat hfat4]
              omega)
            (by omega)
        refine ⟨s', B', hr, inv', by rw [hb', hb4], ?_, ?_⟩
        · rw [← hb4]; exact hB1
        · rw [← hb4]; exact hB2
    · rw [if_neg hlt]
      have hwn' : w = n := by omega
      subst hwn'
      refine ⟨s, B, rfl, inv, rfl, by omega, ?_⟩
      have : B.length = (B.length - 1) + 1 := by omega
      rw [this, Nat.add_mul, Nat.one_mul]
      omega

/-- The write loop when the bytes left exceed the rest of the current block and
the free blocks: the loop fills them, then finds no free block and returns
`DISK_FULL`. -/
theorem write_loop_full (fd : Int) (i : Nat) (D : List Nat) (buf : Nat → Nat) (n : Nat)
    (hn : n < 2147483648) :
    ∀ (fuel : Nat) (s : pennfat_state_t) (B : List Nat) (w cb oib : Nat),
      write_inv s fd i B D buf w → B.getLast? = some cb →
      (B.length - 1) * s.block_size + oib = w → oib ≤ s.block_size →
      s.fat.length ≤ 65535 →
      (s.block_size - oib) + (free_blocks s).length * s.block_size < n - w →
      n - w < fuel →
      ∃ s' B', write_loop fd (entry_ptr.root i) buf n fuel s w cb oib = some (s', DISK_FULL) ∧
        write_inv s' fd i B' D buf
          (w + ((s.block_size - oib) + (free_blocks s).length * s.block_size)) := by
  intro fuel
  induction fuel with
  | zero => intro s B w cb oib _ _ _ _ _ _ hf; omega
  | succ fuel ih =>
    intro s B w cb oib inv hcb hpos hoib hL hcap hf
    have hcbmem : cb ∈ B := List.mem_of_getLast?_eq_some hcb
    have hBlen : 0 < B.length := List.length_pos_of_mem hcbmem
    have hcble := is_chain_bounds inv.geom inv.chain cb hcbmem
    have hcbne : cb ≠ FAT_ENTRY_LAST := by
      have : cb ≠ 65535 := by omega
      exact this
    obtain ⟨hbs1, hbs2, _⟩ := geometry_bounds inv.geom
    have hlt : w < n := by omega
    unfold write_loop
    rw [if_pos hlt]
    by_cases hfull : oib = s.block_size
    · by_cases hfree : free_blocks s = []
      · rw [write_alloc_full inv.geom hfree hL hfull hlt]
        refine ⟨s, B, rfl, ?_⟩
        rw [hfree, hfull]
        simpa using inv
      · obtain ⟨s1, nb, ha, inv1, hb1, hlen1, hfc⟩ :=
          write_alloc_new inv hcb hfull hlt hpos hfree
        rw [ha]
        simp only
        rw [hb1, Nat.sub_zero, Nat.zero_add]
        rw [← hfc, hfull, Nat.add_mul, Nat.one_mul] at hcap
        have hlen : min s.block_size (n - w) = s.block_size := by omega
        rw [hlen]
        have hpos1 : ((B ++ [nb]).length - 1) * s1.block_size + 0 = w := by
          rw [hb1, List.length_append, List.length_singleton, Nat.add_sub_cancel, ← hpos, hfull]
          have : B.length = (B.length - 1) + 1 := by omega
          nth_rewrite 1 [this]
          rw [Nat.add_mul, Nat.one_mul, Nat.add_zero]
        obtain ⟨s4, hc, inv4, hfat4, hb4⟩ :=
          @write_chunk_spec s1 fd i (B ++ [nb]) D buf w s.block_size nb 0 inv1
            (getLast?_append_one B nb) hpos1 (by rw [hb1]; omega) (by omega)
        rw [hc]
        simp only
        have hb4' : s4.block_size = s.block_size := by rw [hb4, hb1]
        have hfree4 : (free_blocks s4).length + 1 = (free_blocks s).length := by
          rw [free_blocks_fat hfat4]; exact hfc
        obtain ⟨s', B', hr, inv'⟩ :=
          ih s4 (B ++ [nb]) (w + s.block_size) nb s.block_size inv4 (getLast?_append_one B nb)
            (by rw [hb4, ← hpos1, Nat.add_zero])
            (by rw [hb4']) (by rw [hfat4, hlen1]; exact hL)
            (by
              rw [hb4', free_blocks_fat hfat4]
              omega)
            (by omega)
        refine ⟨s', B', hr, ?_⟩
        have e : w + (s.block_size - oib + (free_blocks s).length * s.block_size)
            = w + s.block_size + (s4.block_size - s.block_size
                + (free_blocks s4).length * s4.block_size) := by
          rw [hb4', ← hfree4, hfull, Nat.add_mul, Nat.one_mul]
          omega
        rw [e]
        exact inv'
    · rw [write_alloc_keep hcbne (fun h => hfull h.1)]
      simp only
      have hlen : min (s.block_size - oib) (n - w) = s.block_size - oib := by omega
      rw [hlen]
      obtain ⟨s4, hc, inv4, hfat4, hb4⟩ :=
        @write_chunk_spec s fd i B D buf w (s.block_size - oib) cb oib inv hcb hpos
          (by omega) (by omega)
      rw [hc]
      simp only
      obtain ⟨s', B', hr, inv'⟩ :=
        ih s4 B (w + (s.block_size - oib)) cb (oib + (s.block_size - oib)) inv4 hcb
          (by rw [hb4]; omega)
          (by rw [hb4]; omega) (by rw [hfat4]; exact hL)
          (by
            rw [hb4, free_blocks_fat hfat4]
            omega)
          (by omega)
      refine ⟨s', B', hr, ?_⟩
      have e : w + (s.block_size - oib + (free_blocks s).length * s.block_size)
          = w + (s.block_size - oib) + (s4.block_size - (oib + (s.block_size - oib))
              + (free_blocks s4).length * s4.block_size) := by
        rw [hb4, free_blocks_fat hfat4]
        omega
      rw [e]
      exact inv'

theorem write_inv_mtime {s : pennfat_state_t} {fd : Int} {i : Nat} {B D : List Nat}
    {buf : Nat → Nat} {w : Nat} (inv : write_inv s fd i B D buf w) {e : dir_entry_t}
    (he : s.root_dir[i]? = some e) (now : Nat) :
    write_inv (entry_set s (entry_ptr.root i) { e with mtime := now }) fd i B D buf w := by
  have hilt : i < s.root_dir.length := by
    by_contra hcon
    rw [List.getElem?_eq_none (Nat.le_of_not_lt hcon)] at he
    cases he
  constructor
  · exact inv.geom
  · exact inv.fd_ge
  · exact inv.slot
  · obtain ⟨e0, he0, h1, h2, h3⟩ := inv.entry
    rw [he] at he0
    cases he0
    refine ⟨{ e with mtime := now }, ?_, h1, h2, h3⟩
    show (s.root_dir.set i _)[i]? = _
    simp [List.getElem?_set, hilt]
  · exact inv.chain
  · exact inv.blocks
  · exact inv.dir
  · exact inv.disj
  · exact inv.content

theorem write_inv_single {s : pennfat_state_t} {fd : Int} {i : Nat} {B D : List Nat}
    {buf : Nat → Nat} {w : Nat} (inv : write_inv s fd i B D buf w) :
    ∃ f e, slot_get s fd = some (f, entry_ptr.root i) ∧ s.root_dir[i]? = some e ∧
      f.offset = w ∧ f.mode = F_WRITE ∧ e.perm = PERM_READ_WRITE ∧ e.size = w ∧
      B.getLast? = some f.current_block ∧ B.head? = some e.first_block := by
  obtain ⟨f, hslot, hoff, hmode, hlast⟩ := inv.slot
  obtain ⟨e, he, hhead, hsize, hperm⟩ := inv.entry
  exact ⟨f, e, hslot, he, hoff, hmode, hperm, hsize, hlast, hhead⟩

/-- A `k_write` of `n` bytes to a file just created, when they fit in its first
block and the free blocks: it returns `n` and the file holds the bytes. -/
theorem k_write_ok {s : pennfat_state_t} {fd : Int} {i : Nat} {B D : List Nat}
    {buf : Nat → Nat} (inv : write_inv s fd i B D buf 0) (hB : B.length = 1) {n : Nat}
    (hn : n < 2147483648)
    (hcap : n ≤ s.block_size + (free_blocks s).length * s.block_size) (now : Nat) :
    ∃ s' B', k_write s fd buf n now = some (s', (n : Int)) ∧ write_inv s' fd i B' D buf n ∧
      s'.block_size = s.block_size ∧ (B'.length - 1) * s.block_size ≤ n ∧
      n ≤ B'.length * s.block_size := by
  obtain ⟨f, e, hslot, he, hoff, hmode, hperm, hsize, hlast, hhead⟩ := write_inv_single inv
  obtain ⟨hbs1, _, _⟩ := geometry_bounds inv.geom
  obtain ⟨s2, B', hr, inv2, hb2, hB1, hB2⟩ :=
    write_loop_ok fd i D buf n hn (n + 1) s B 0 f.current_block 0 inv hlast
      (by rw [hB]; simp) (Nat.zero_le _) (Nat.zero_le _) (by simpa using hcap) (by omega)
  obtain ⟨e2, he2, _, _, _⟩ := inv2.entry
  refine ⟨entry_set s2 (entry_ptr.root i) { e2 with mtime := now }, B', ?_,
    write_inv_mtime inv2 he2 now, hb2, hB1, hB2⟩
  have hfd := inv.fd_ge
  unfold k_write
  rw [hslot]
  simp only [entry_get, he]
  rw [if_neg (by rw [hperm]; decide), if_neg (by omega), if_neg (by omega),
    if_neg (by rw [hmode]; decide)]
  simp only [hoff, Nat.zero_mod]
  rw [hr]
  simp only
  rw [if_neg (by omega), he2]

/-- A `k_write` of `n` bytes to a file just created, when they exceed its first
block and the free blocks: it fills them, returns `DISK_FULL` and leaves the
size of the file at the room there was. -/
theorem k_write_full {s : pennfat_state_t} {fd : Int} {i : Nat} {B D : List Nat}
    {buf : Nat → Nat} (inv : write_inv s fd i B D buf 0) (hB : B.length = 1) {n : Nat}
    (hn : n < 2147483648) (hL : s.fat.length ≤ 65535)
    (hcap : s.block_size + (free_blocks s).length * s.block_size < n) (now : Nat) :
    ∃ s' B', k_write s fd buf n now = some (s', DISK_FULL) ∧
      write_inv s' fd i B' D buf (s.block_size + (free_blocks s).length * s.block_size) := by
  obtain ⟨f, e, hslot, he, hoff, hmode, hperm, hsize, hlast, hhead⟩ := write_inv_single inv
  obtain ⟨hbs1, _, _⟩ := geometry_bounds inv.geom
  obtain ⟨s2, B', hr, inv2⟩ :=
    write_loop_full fd i D buf n hn (n + 1) s B 0 f.current_block 0 inv hlast
      (by rw [hB]; simp) (Nat.zero_le _) hL (by simpa using hcap) (by omega)
  refine ⟨s2, B', ?_, by simpa using inv2⟩
  have hfd := inv.fd_ge
  unfold k_write
  rw [hslot]
  simp only [entry_get, he]
  rw [if_neg (by rw [hperm]; decide), if_neg (by omega), if_neg (by omega),
    if_neg (by rw [hmode]; decide)]
  simp only [hoff, Nat.zero_mod]
  rw [hr]
  simp only
  rw [if_pos (by decide)]

theorem scen_big_open_eq : scen_big_open = some (big_open, 3) := by
  have h : scen_big_open.map Prod.snd = some 3 := by decide!
  unfold big_open
  cases hs : scen_big_open with
  | none => rw [hs] at h; cases h
  | some r =>
    obtain ⟨s1, fd⟩ := r
    rw [hs] at h
    simp only [Option.map_some', Option.some.injEq] at h
    subst h
    rfl

theorem big_open_inv (buf : Nat → Nat) : write_inv big_open 3 0 [2] [1] buf 0 := by
  constructor
  · exact ⟨1, 0, by decide, by decide, by decide, by decide!, by decide!, by decide!, by decide!⟩
  · decide
  · exact ⟨{ fd := 3, current_block := 2, offset := 0, mode := F_WRITE, ref_count := 1,
             entry := some (entry_ptr.root 0) }, by decide!, rfl, rfl, rfl⟩
  · exact ⟨entry_big, by decide!, rfl, rfl, rfl⟩
  · exact ⟨rfl, by decide, 65535, by decide!, rfl⟩
  · decide
  · exact ⟨⟨rfl, by decide, 65535, by decide!, rfl⟩, by decide!, by decide⟩
  · decide
  · intro k o _ _ h
    omega

theorem big_open_room : big_open.block_size = 256 ∧ (free_blocks big_open).length = 125 ∧
    big_open.fat.length = 128 := by
  refine ⟨by decide!, by decide!, by decide!⟩

/-- C7 (refuted as stated): on the fresh image of geometry (1, 0), a `k_write` of
127 × 256 = 32512 bytes to the newly created file `big` returns `DISK_FULL`,
and the size of `big` is then 126 × 256 = 32256. -/
theorem C7_counterexample :
    ∃ s1 s2 e, scen_big_open = some (s1, 3) ∧
      k_write s1 3 (fun _ => 97) 32512 0 = some (s2, DISK_FULL) ∧
      s2.root_dir[0]? = some e ∧ e.size = 32256 := by
  obtain ⟨hbs, hfree, hlen⟩ := big_open_room
  obtain ⟨s2, B', hw, inv2⟩ :=
    @k_write_full big_open 3 0 [2] [1] (fun _ => 97) (big_open_inv _) rfl 32512 (by decide)
      (by rw [hlen]; decide) (by rw [hbs, hfree]; decide) 0
  obtain ⟨e, he, _, hsize, _⟩ := inv2.entry
  exact ⟨big_open, s2, e, scen_big_open_eq, hw, he, by rw [hsize, hbs, hfree]⟩

/-- C7 (amended): on the image made by `mkfs` with geometry (1, 0) and mounted,
the newly created file `big` (descriptor 3, entry 0 of the root directory)
takes in one `k_write` any `n ≤ 126 × 256 = 32256` bytes, `k_write` returning `n`
and the size of `big` being `n`; a `k_write` of more bytes returns `DISK_FULL`
and leaves the size of `big` at 32256. -/
theorem C7_disk_full (buf : Nat → Nat) (n now : Nat) (hn : n < 2147483648) :
    scen_big_open = some (big_open, 3) ∧
    (n ≤ 32256 → ∃ s2 e, k_write big_open 3 buf n now = some (s2, (n : Int)) ∧
      s2.root_dir[0]? = some e ∧ e.size = n) ∧
    (32256 < n → ∃ s2 e, k_write big_open 3 buf n now = some (s2, DISK_FULL) ∧
      s2.root_dir[0]? = some e ∧ e.size = 32256) := by
  obtain ⟨hbs, hfree, hlen⟩ := big_open_room
  refine ⟨scen_big_open_eq, fun hle => ?_, fun hgt => ?_⟩
  · obtain ⟨s2, B', hw, inv2, _⟩ :=
      @k_write_ok big_open 3 0 [2] [1] buf (big_open_inv _) rfl n hn
        (by rw [hbs, hfree]; omega) now
    obtain ⟨e, he, _, hsize, _⟩ := inv2.entry
    exact ⟨s2, e, hw, he, hsize⟩
  · obtain ⟨s2, B', hw, inv2⟩ :=
      @k_write_full big_open 3 0 [2] [1] buf (big_open_inv _) rfl n hn
        (by rw [hlen]; decide) (by rw [hbs, hfree]; omega) now
    obtain ⟨e, he, _, hsize, _⟩ := inv2.entry
    exact ⟨s2, e, hw, he, by rw [hsize, hbs, hfree]⟩

theorem C7_disk_full_witness :
    (32257 : Nat) < 2147483648 ∧
    (32256 < 32257 → ∃ s2 e, k_write big_open 3 (fun _ => 97) 32257 0 = some (s2, DISK_FULL) ∧
      s2.root_dir[0]? = some e ∧ e.size = 32256) :=
  ⟨by decide, (C7_disk_full (fun _ => 97) 32257 0 (by decide)).2.2⟩

theorem same_disk_slot_set {s t : pennfat_state_t} (h : same_disk s t) (fd : Int)
    (g : file_descriptor_t) : same_disk s (slot_set t fd g) := h

theorem is_chain_next {fat : List Nat} :
    ∀ (B : List Nat) (b k : Nat), is_chain fat b B → k < B.length →
      fat[B.getD k 0]? = some (if k + 1 < B.length then B.getD (k + 1) 0 else FAT_ENTRY_LAST) := by
  intro B
  induction B with
  | nil => intro _ k _ hk; simp at hk
  | cons a rest ih =>
    intro b k h hk
    obtain ⟨hab, _, next, hn, hrest⟩ := h
    cases k with
    | zero =>
      simp only [List.getD_cons_zero, List.length_cons, Nat.zero_add]
      rw [hab, hn]
      cases rest with
      | nil =>
        have : next = FAT_ENTRY_LAST := hrest
        simp [this]
      | cons r rest2 =>
        have : r = next := hrest.1
        simp [this]
    | succ k =>
      have hk' : k < rest.length := by simpa using hk
      have := ih next k hrest hk'
      simp only [List.getD_cons_succ, List.length_cons, Nat.add_lt_add_iff_right]
      exact this

theorem range_map_append (f : Nat → Nat) (a b : Nat) :
    (List.range a).map f ++ (List.range b).map (fun j => f (a + j)) = (List.range (a + b)).map f := by
  rw [List.range_add, List.map_append, List.map_map]
  rfl

theorem headD_eq_getD (B : List Nat) : B.headD 0 = B.getD 0 0 := by
  cases B <;> rfl

/-- `k_lseek(fd, 0, F_SEEK_SET)` on a file written from offset 0: the head goes
back to the start of the first block. -/
theorem k_lseek_start {s : pennfat_state_t} {fd : Int} {i : Nat} {B D : List Nat}
    {buf : Nat → Nat} {n : Nat} (inv : write_inv s fd i B D buf n)
    (hB1 : (B.length - 1) * s.block_size ≤ n) :
    ∃ f, slot_get s fd = some (f, entry_ptr.root i) ∧
      k_lseek s fd 0 F_SEEK_SET
        = some (slot_set s fd { f with current_block := B.headD 0, offset := 0 }, 0) := by
  obtain ⟨f, hslot, hoff, hmode, hlast⟩ := inv.slot
  obtain ⟨e, he, hhead, hsize, hperm⟩ := inv.entry
  obtain ⟨hbs1, _, _⟩ := geometry_bounds inv.geom
  have hfb : B.headD 0 = e.first_block := by
    cases B with
    | nil => cases hhead
    | cons a r => simpa using hhead
  refine ⟨f, hslot, ?_⟩
  unfold k_lseek
  rw [hslot]
  simp only [entry_get, he]
  rw [if_neg (by decide), if_neg (by omega)]
  simp only [if_true, Int.zero_emod, Int.toNat_zero, Nat.not_lt_zero, false_and, if_false,
    Nat.zero_div]
  by_cases hdiv : 0 = f.offset / s.block_size
  · rw [if_neg (not_not.mpr hdiv)]
    have hlt : n < s.block_size := by
      rw [hoff] at hdiv
      by_contra hcon
      have := Nat.div_pos (Nat.le_of_not_lt hcon) (by omega : 0 < s.block_size)
      omega
    have hlen : B.length = 1 := by
      have hpos : 0 < B.length := by
        cases B with
        | nil => cases hhead
        | cons a r => simp
      by_contra hne
      have h2 : 1 ≤ B.length - 1 := by omega
      have := Nat.mul_le_mul_right s.block_size h2
      omega
    have hcur : f.current_block = B.headD 0 := by
      cases B with
      | nil => cases hhead
      | cons a r =>
        cases r with
        | nil => simpa using hlast.symm
        | cons _ _ => simp at hlen
    rw [← hcur]
    rfl
  · rw [if_pos hdiv]
    simp only [seek_walk]
    rw [hfb]
    rfl

theorem read_loop_done (fd : Int) (n fuel : Nat) (t : pennfat_state_t) (acc : List Nat)
    (cb oib : Nat) (h : ¬ acc.length < n) :
    read_loop fd n (fuel + 1) t acc cb oib = some (t, acc) := by
  unfold read_loop
  rw [if_neg (fun hc => h hc.1)]

/-- The read loop from the start of block `k` of a file that holds `n` bytes of
`buf`: it returns the first `n` bytes of `buf`. -/
theorem read_loop_spec {s : pennfat_state_t} {fd : Int} {i : Nat} {B D : List Nat}
    {buf : Nat → Nat} {n : Nat} (inv : write_inv s fd i B D buf n)
    (hB2 : n ≤ B.length * s.block_size) (hn : n < 2147483648) :
    ∀ (fuel : Nat) (t : pennfat_state_t) (g : file_descriptor_t) (k : Nat),
      same_disk s t → slot_get t fd = some (g, entry_ptr.root i) →
      g.offset = k * s.block_size → k * s.block_size ≤ n → n - k * s.block_size < fuel →
      ∃ t', read_loop fd n fuel t ((List.range (k * s.block_size)).map buf)
          (if k < B.length then B.getD k 0 else FAT_ENTRY_LAST) 0
        = some (t', (List.range n).map buf) := by
  obtain ⟨hbs1, hbs2, _⟩ := geometry_bounds inv.geom
  obtain ⟨e, he, hhead, hsize, hperm⟩ := inv.entry
  intro fuel
  induction fuel with
  | zero => intro t g k _ _ _ _ hf; omega
  | succ fuel ih =>
    intro t g k hsd hslot hoff hkn hf
    obtain ⟨t1, t2, t3, t4, t5, t6, t7⟩ := hsd
    unfold read_loop
    by_cases hlt : k * s.block_size < n
    · have hkB : k < B.length := by
        apply @mul_add_lt_mul k _ s.block_size 0
        omega
      have hmem := getD_mem hkB
      have hcble := is_chain_bounds inv.geom inv.chain _ hmem
      have hcb2 := inv.blocks _ hmem
      have hcbne : B.getD k 0 ≠ FAT_ENTRY_LAST := by
        have : B.getD k 0 ≠ 65535 := by omega
        exact this
      rw [if_pos hkB]
      rw [if_pos ⟨by simpa using hlt, hcbne⟩, hslot]
      simp only [entry_get, t7, he, List.length_map, List.length_range, t4, hsize, hoff,
        Nat.sub_zero]
      have hmod : (n + 4294967296 - k * s.block_size) % 4294967296 = n - k * s.block_size := by
        have : n + 4294967296 - k * s.block_size = (n - k * s.block_size) + 4294967296 := by
          omega
        rw [this, Nat.add_mod_right]
        exact Nat.mod_eq_of_lt (by omega)
      rw [hmod]
      obtain ⟨len, hlen⟩ : ∃ len, len = min s.block_size (n - k * s.block_size) := ⟨_, rfl⟩
      have hmin : min (min s.block_size (n - k * s.block_size)) (n - k * s.block_size) = len := by
        rw [hlen]; omega
      rw [hmin]
      have hl1 : 1 ≤ len := by rw [hlen]; omega
      have hl2 : len ≤ s.block_size := by rw [hlen]; omega
      have hl3 : len ≤ n - k * s.block_size := by rw [hlen]; omega
      rw [if_neg (by omega)]
      have hgt : mounted_geometry t := geometry_congr inv.geom t4 t5 t6 (by rw [t1])
      have hpos : data_pos t (B.getD k 0) 0 = block_addr s (B.getD k 0) 0 := by
        rw [data_pos_eq hgt (by omega) (by omega) (Nat.zero_le _)]
        exact block_addr_congr t4 t6 _ _
      have hchunk : host_read t (data_pos t (B.getD k 0) 0) len
          = (List.range len).map (fun j => buf (k * s.block_size + j)) := by
        unfold host_read
        rw [hpos, t3]
        have hin := (inv.content k (len - 1) hkB (by omega) (by omega)).2
        have hmn : min len (s.img_size - block_addr s (B.getD k 0) 0) = len := by
          unfold block_addr at hin ⊢
          omega
        rw [hmn]
        apply List.map_congr_left
        intro j hj
        have hj' : j < len := List.mem_range.mp hj
        have hge := block_addr_ge inv.geom (B.getD k 0) 0
        unfold img_byte
        rw [if_neg (by rw [t5]; omega), t2]
        have : block_addr s (B.getD k 0) 0 + j = block_addr s (B.getD k 0) j := by
          unfold block_addr; omega
        rw [this]
        exact (inv.content k j hkB (by omega) (by omega)).1
      rw [hchunk]
      simp only [List.length_map, List.length_range]
      rw [range_map_append buf (k * s.block_size) len]
      have hoffm : (k * s.block_size + len) % 4294967296 = k * s.block_size + len :=
        Nat.mod_eq_of_lt (by omega)
      rw [hoffm]
      by_cases hfull : len = s.block_size
      · have hz : (k * s.block_size + len) % s.block_size = 0 := by
          rw [hfull, ← Nat.succ_mul]
          exact Nat.mul_mod_left _ _
        rw [if_pos hz]
        have hnext := is_chain_next B _ k inv.chain hkB
        simp only [fat_get, t1, hnext]
        have hk1 : k * s.block_size + len = (k + 1) * s.block_size := by
          rw [hfull, Nat.succ_mul]
        rw [hk1]
        have hge : g.entry = some (entry_ptr.root i) := slot_get_entry hslot
        exact ih _ _ (k + 1) ⟨t1, t2, t3, t4, t5, t6, t7⟩
          (@slot_get_slot_set t fd g _ _ hslot hge) rfl (by omega) (by omega)
      · have hnz : (k * s.block_size + len) % s.block_size ≠ 0 := by
          rw [Nat.add_comm, Nat.add_mul_mod_self_right, Nat.mod_eq_of_lt (by omega)]
          omega
        rw [if_neg hnz]
        have hend : k * s.block_size + len = n := by omega
        rw [hend]
        cases fuel with
        | zero => omega
        | succ fuel =>
          exact ⟨_, read_loop_done fd n fuel _ _ _ _ (by simp)⟩
    · have hkn' : k * s.block_size = n := by omega
      rw [if_neg (by simp [hkn'])]
      rw [hkn']
      exact ⟨t, rfl⟩

/-- Seeking to offset 0 and reading `n` bytes from a file that holds `n` bytes of
`buf` returns these bytes. -/
theorem seek_read_spec {s : pennfat_state_t} {fd : Int} {i : Nat} {B D : List Nat}
    {buf : Nat → Nat} {n : Nat} (inv : write_inv s fd i B D buf n)
    (hB1 : (B.length - 1) * s.block_size ≤ n) (hB2 : n ≤ B.length * s.block_size)
    (hn : n < 2147483648) :
    ∃ s3 s4, k_lseek s fd 0 F_SEEK_SET = some (s3, 0) ∧
      k_read s3 fd n = some (s4, (n : Int), (List.range n).map buf) := by
  obtain ⟨f, hslot, hseek⟩ := k_lseek_start inv hB1
  obtain ⟨e, he, hhead, hsize, hperm⟩ := inv.entry
  obtain ⟨hbs1, _, _⟩ := geometry_bounds inv.geom
  have hfd := inv.fd_ge
  have hBpos : 0 < B.length := by
    cases B with
    | nil => cases hhead
    | cons a r => simp
  obtain ⟨f3, hf3⟩ : ∃ f3 : file_descriptor_t,
      f3 = { f with current_block := B.headD 0, offset := 0 } := ⟨_, rfl⟩
  rw [← hf3] at hseek
  have hfe : f.entry = some (entry_ptr.root i) := slot_get_entry hslot
  obtain ⟨s3, hs3⟩ : ∃ s3, s3 = slot_set s fd f3 := ⟨_, rfl⟩
  rw [← hs3] at hseek
  have hslot3 : slot_get s3 fd = some (f3, entry_ptr.root i) := by
    rw [hs3]
    exact @slot_get_slot_set s fd f f3 _ hslot (by rw [hf3]; exact hfe)
  have hent : entry_get s3 (entry_ptr.root i) = some e := by rw [hs3]; exact he
  have hbs3 : s3.block_size = s.block_size := by rw [hs3]; rfl
  have hsd : same_disk s s3 := by rw [hs3]; exact ⟨rfl, rfl, rfl, rfl, rfl, rfl, rfl⟩
  have hcur : f3.current_block = B.getD 0 0 := by rw [hf3, ← headD_eq_getD]
  have hoff : f3.offset = 0 := by rw [hf3]
  have hcbne : B.getD 0 0 ≠ FAT_ENTRY_LAST := by
    have := is_chain_bounds inv.geom inv.chain _ (getD_mem hBpos)
    have : B.getD 0 0 ≠ 65535 := by omega
    exact this
  by_cases hn0 : n = 0
  · refine ⟨s3, s3, hseek, ?_⟩
    unfold k_read
    rw [hslot3]
    simp only [hent]
    rw [if_neg (by rw [hperm]; decide), if_neg (by omega), if_pos (Or.inl (by rw [hsize, hn0]))]
    subst hn0
    rfl
  · obtain ⟨t', hr⟩ := read_loop_spec inv hB2 hn (n + 1) s3 f3 0
      hsd hslot3 (by rw [hoff, Nat.zero_mul]) (by omega) (by omega)
    rw [if_pos hBpos, Nat.zero_mul] at hr
    refine ⟨s3, t', hseek, ?_⟩
    unfold k_read
    rw [hslot3]
    simp only [hent]
    rw [if_neg (by rw [hperm]; decide), if_neg (by omega),
      if_neg (by rw [hsize, hcur]; exact not_or.mpr ⟨hn0, hcbne⟩),
      if_neg (by rw [hbs3]; omega)]
    rw [hcur, hoff, Nat.zero_mod]
    have hr' : read_loop fd n (n + 1) s3 [] (B.getD 0 0) 0
        = some (t', (List.range n).map buf) := hr
    rw [hr']
    simp

theorem fat_link_free {s s' : pennfat_state_t} {cb nb : Nat} (hnb : nb ∈ free_blocks s)
    (hcb : s.fat[cb]? = some FAT_ENTRY_LAST)
    (hfat : s'.fat = (s.fat.set cb nb).set nb FAT_ENTRY_LAST) :
    (free_blocks s').length + 1 = (free_blocks s).length := by
  obtain ⟨hnb2, hnb3, hnbz⟩ := mem_free_blocks.mp hnb
  have hnblt : nb < s.fat.length := by
    by_contra hcon
    rw [List.getElem?_eq_none (Nat.le_of_not_lt hcon)] at hnbz
    cases hnbz
  have hcblt : cb < s.fat.length := by
    by_contra hcon
    rw [List.getElem?_eq_none (Nat.le_of_not_lt hcon)] at hcb
    cases hcb
  have hnb0 : nb ≠ 0 := by omega
  apply free_blocks_alloc hnb
  intro x
  rw [hfat]
  by_cases hx : x = nb
  · subst hx
    simp [List.getElem?_set, hnblt]
  · rw [List.getElem?_set_ne (Ne.symm hx)]
    by_cases hxc : x = cb
    · subst hxc
      simp [List.getElem?_set, hcblt, hnb0, hcb, hx]
    · rw [List.getElem?_set_ne (Ne.symm hxc)]
      simp [hx]

theorem fat_take_free {s s' : pennfat_state_t} {nb : Nat} (hnb : nb ∈ free_blocks s)
    (hfat : s'.fat = s.fat.set nb FAT_ENTRY_LAST) :
    (free_blocks s').length + 1 = (free_blocks s).length := by
  obtain ⟨hnb2, hnb3, hnbz⟩ := mem_free_blocks.mp hnb
  have hnblt : nb < s.fat.length := by
    by_contra hcon
    rw [List.getElem?_eq_none (Nat.le_of_not_lt hcon)] at hnbz
    cases hnbz
  apply free_blocks_alloc hnb
  intro x
  rw [hfat]
  by_cases hx : x = nb
  · subst hx
    simp [List.getElem?_set, hnblt]
  · rw [List.getElem?_set_ne (Ne.symm hx)]
    simp [hx]

theorem chain_last_spec :
    ∀ (l : List Nat) (fuel : Nat) (s : pennfat_state_t) (b last : Nat),
      is_chain s.fat b l → l.getLast? = some last → l.length ≤ fuel →
      chain_last fuel s b = some last := by
  intro l
  induction l with
  | nil => intro _ _ _ _ _ h; cases h
  | cons a rest ih =>
    intro fuel s b last h hl hf
    obtain ⟨hab, hb, next, hn, hrest⟩ := h
    subst hab
    cases fuel with
    | zero => simp at hf
    | succ fuel =>
      unfold chain_last
      simp only [fat_get, hn]
      cases rest with
      | nil =>
        have h1 : next = FAT_ENTRY_LAST := hrest
        have h2 : a = last := by simpa using hl
        rw [if_neg (not_not.mpr h1), h2]
      | cons r rest2 =>
        have hne : next ≠ FAT_ENTRY_LAST := hrest.2.1
        rw [if_pos hne]
        exact ih fuel s next last hrest (by simpa [List.getLast?_cons_cons] using hl)
          (by simpa using hf)

theorem free_slot_spec {dir : List dir_entry_t}
    (h : ∃ e ∈ dir, e.name.headD 0 < DIR_ENTRY_IN_USE) :
    ∃ i, free_slot dir = some i ∧ i < dir.length := by
  obtain ⟨e, he, hp⟩ := h
  have hlt : dir.findIdx (fun e => decide (e.name.headD 0 < DIR_ENTRY_IN_USE)) < dir.length :=
    List.findIdx_lt_length_of_exists ⟨e, he, by simpa using hp⟩
  refine ⟨_, ?_, hlt⟩
  unfold free_slot
  rw [if_pos hlt]

theorem countP_lt_exists {α : Type} (p : α → Bool) :
    ∀ (l : List α), l.countP p < l.length → ∃ e ∈ l, p e = false := by
  intro l
  induction l with
  | nil => intro h; simp at h
  | cons a rest ih =>
    intro h
    by_cases ha : p a = true
    · rw [List.countP_cons_of_pos _ _ ha] at h
      obtain ⟨e, he, hp⟩ := ih (by simpa using h)
      exact ⟨e, List.mem_cons_of_mem _ he, hp⟩
    · exact ⟨a, List.mem_cons_self _ _, by simpa using ha⟩

/-- The growth of the root directory made by `find_or_create_entry`: it
succeeds when a free block is there for it, and leaves an unused entry. -/
theorem expand_root_dir_spec {s : pennfat_state_t} {D : List Nat} (hg : mounted_geometry s)
    (hd : dir_chain s D) (hlen : s.root_dir.length = total_entries s)
    (hfree : dir_cost s ≤ (free_blocks s).length) :
    ∃ s1 D', expand_root_dir s = some (s1, true) ∧ mounted_geometry s1 ∧ dir_chain s1 D' ∧
      s1.block_size = s.block_size ∧ s1.open_files = s.open_files ∧
      s1.is_mounted = s.is_mounted ∧
      (free_blocks s1).length + dir_cost s = (free_blocks s).length ∧
      (∃ e ∈ s1.root_dir, e.name.headD 0 < DIR_ENTRY_IN_USE) := by
  obtain ⟨hbs1, hbs2, _, _, _, _⟩ := geometry_bounds hg
  unfold expand_root_dir
  by_cases hc : valid_entries (s.root_dir.take (total_entries s)) + 1 ≥ total_entries s
  · rw [if_pos hc]
    have hcost : dir_cost s = 1 := by unfold dir_cost; rw [if_pos hc]
    rw [hcost] at hfree
    have hne : free_blocks s ≠ [] := by
      intro h; rw [h] at hfree; simp at hfree
    obtain ⟨nb, hfind, hnbfree⟩ := find_free_spec hg hne
    obtain ⟨hnb2, hnb3, hnbz⟩ := mem_free_blocks.mp hnbfree
    have hnblt : nb < s.fat.length := by
      by_contra hcon
      rw [List.getElem?_eq_none (Nat.le_of_not_lt hcon)] at hnbz
      cases hnbz
    have hDne : D ≠ [] := by
      intro h
      have h1 := hd.1
      rw [h] at h1
      have : (1 : Nat) = FAT_ENTRY_LAST := h1
      exact absurd this (by decide)
    obtain ⟨last, hlast⟩ : ∃ last, D.getLast? = some last := by
      cases hD : D.getLast? with
      | none => exact absurd (List.getLast?_eq_none_iff.mp hD) hDne
      | some v => exact ⟨v, rfl⟩
    have hlastmem : last ∈ D := List.mem_of_getLast?_eq_some hlast
    have hlastlt := is_chain_lt _ _ hd.1 last hlastmem
    have hDlen : D.length ≤ s.fat.length :=
      nodup_length_le (is_chain_nodup _ _ hd.1) (is_chain_lt _ _ hd.1)
    have hcl := chain_last_spec D (s.fat.length + 1) s 1 last hd.1 hlast (by omega)
    have hnbD : nb ∉ D := fun h => is_chain_used _ _ hd.1 hd.2.2 nb h hnbz
    have hnbne : nb ≠ FAT_ENTRY_LAST := by
      have : nb ≠ 65535 := by omega
      exact this
    have hlastent := is_chain_last_entry _ _ _ hd.1 hlast
    rw [hfind]
    simp only [if_neg (by omega : nb ≠ 0), hcl, fat_set, if_pos hlastlt, List.length_set,
      if_pos hnblt]
    refine ⟨_, D ++ [nb], rfl, ?_, ?_, rfl, rfl, rfl, ?_, ?_⟩
    · exact geometry_congr hg rfl rfl rfl (by simp)
    · refine ⟨is_chain_append D 1 last nb hd.1 hlast hnbD hnbne hnblt, ?_, ?_⟩
      · simp [hd.2.1]
      · intro h
        rcases List.mem_append.mp h with h | h
        · exact hd.2.2 h
        · have := List.mem_singleton.mp h
          omega
    · rw [hcost]
      exact @fat_link_free s _ last nb hnbfree hlastent rfl
    · refine ⟨zero_entry, ?_, by decide⟩
      apply List.mem_append_right
      apply List.mem_replicate.mpr
      refine ⟨?_, rfl⟩
      have : 4 ≤ s.block_size / 64 := by omega
      show s.block_size / 64 ≠ 0
      omega
  · rw [if_neg hc]
    have hcost : dir_cost s = 0 := by unfold dir_cost; rw [if_neg hc]
    refine ⟨s, D, rfl, hg, hd, rfl, rfl, rfl, by rw [hcost]; rfl, ?_⟩
    rw [List.take_of_length_le (by omega)] at hc
    have hlt : s.root_dir.countP (fun e => decide (e.name.headD 0 > DIR_ENTRY_DELETED))
        < s.root_dir.length := by
      unfold valid_entries at hc
      omega
    obtain ⟨e, he, hp⟩ := countP_lt_exists _ _ hlt
    refine ⟨e, he, ?_⟩
    have : ¬ e.name.headD 0 > DIR_ENTRY_DELETED := by simpa using hp
    show e.name.headD 0 < 2
    have h1 : ¬ e.name.headD 0 > 1 := this
    omega

theorem set_self {l : List Nat} {i v : Nat} (h : l[i]? = some v) : l.set i v = l := by
  apply List.ext_getElem?
  intro j
  by_cases hj : i = j
  · subst hj
    rw [h]
    have hlt : i < l.length := by
      by_contra hcon
      rw [List.getElem?_eq_none (Nat.le_of_not_lt hcon)] at h
      cases h
    simp [List.getElem?_set, hlt]
  · rw [List.getElem?_set_ne hj]

/-- `find_or_create_entry` for a name that no entry carries, when the free blocks
suffice for the growth of the directory and a first block. -/
theorem find_or_create_new {s : pennfat_state_t} {D : List Nat} {fname : List Nat} (now : Nat)
    (hg : mounted_geometry s) (hd : dir_chain s D)
    (hlen : s.root_dir.length = total_entries s)
    (hnew : ∀ e ∈ s.root_dir, ¬ (e.name.headD 0 > DIR_ENTRY_DELETED ∧ cstr e.name = cstr fname))
    (hfree : dir_cost s + 1 ≤ (free_blocks s).length) :
    ∃ s3 i fb D', find_or_create_entry s fname F_WRITE now = some (s3, some i) ∧
      mounted_geometry s3 ∧ dir_chain s3 D' ∧ s3.block_size = s.block_size ∧
      s3.open_files = s.open_files ∧
      s3.root_dir[i]? = some (new_entry fname fb now) ∧
      s3.fat[fb]? = some FAT_ENTRY_LAST ∧ 2 ≤ fb ∧ fb < 65535 ∧ fb ∉ D' ∧
      (free_blocks s3).length + (dir_cost s + 1) = (free_blocks s).length := by
  have hfind : find_dir_entry s fname = some none := by
    unfold find_dir_entry
    apply find_dir_loop_none
    intro j _ hj
    have hjl : j < s.root_dir.length := by omega
    exact ⟨s.root_dir[j], List.getElem?_eq_getElem hjl, hnew _ (List.getElem_mem hjl)⟩
  obtain ⟨s1, D', hexp, hg1, hd1, hbs1, hof1, _, hfc1, hslot⟩ :=
    expand_root_dir_spec hg hd hlen (by omega)
  obtain ⟨i, hfs, hilt⟩ := free_slot_spec hslot
  have hne1 : free_blocks s1 ≠ [] := by
    intro h; rw [h] at hfc1; simp at hfc1; omega
  obtain ⟨e0, he0⟩ : ∃ e0 : dir_entry_t,
      e0 = { zero_entry with name := stored_name fname, size := 0 } := ⟨_, rfl⟩
  obtain ⟨s2, hs2⟩ : ∃ s2 : pennfat_state_t,
      s2 = { s1 with root_dir := s1.root_dir.set i e0 } := ⟨_, rfl⟩
  have hfat2 : s2.fat = s1.fat := by rw [hs2]
  have hg2 : mounted_geometry s2 := by
    rw [hs2]; exact geometry_congr hg1 rfl rfl rfl rfl
  have hne2 : free_blocks s2 ≠ [] := by rw [free_blocks_fat hfat2]; exact hne1
  obtain ⟨fb, hfb, hfbfree⟩ := find_free_spec hg2 hne2
  rw [free_blocks_fat hfat2] at hfbfree
  obtain ⟨hfb2, hfb3, hfbz⟩ := mem_free_blocks.mp hfbfree
  have hfblt : fb < s1.fat.length := by
    by_contra hcon
    rw [List.getElem?_eq_none (Nat.le_of_not_lt hcon)] at hfbz
    cases hfbz
  have hfbD : fb ∉ D' := fun h => is_chain_used _ _ hd1.1 hd1.2.2 fb h hfbz
  obtain ⟨s3, hs3⟩ : ∃ s3 : pennfat_state_t,
      s3 = { s1 with fat := s1.fat.set fb FAT_ENTRY_LAST,
                     root_dir := (s1.root_dir.set i e0).set i (new_entry fname fb now) } :=
    ⟨_, rfl⟩
  have hfat3 : s3.fat = s1.fat.set fb FAT_ENTRY_LAST := by rw [hs3]
  refine ⟨s3, i, fb, D', ?_, ?_, ?_, ?_, ?_, ?_, ?_, hfb2, hfb3, hfbD, ?_⟩
  · unfold find_or_create_entry
    rw [hfind]
    simp only
    rw [if_neg (by decide), if_neg (not_not.mpr hlen), hexp]
    simp only [hfs]
    rw [← he0, ← hs2, hfb]
    simp only [if_neg (by omega : fb ≠ 0), fat_set]
    rw [if_pos (by rw [hfat2]; exact hfblt)]
    simp only
    rw [hs3, hs2]
    rfl
  · rw [hs3]; exact geometry_congr hg1 rfl rfl rfl (by simp)
  · rw [hs3]
    exact ⟨is_chain_set D' 1 hd1.1 hfbD, hd1.2.1, hd1.2.2⟩
  · rw [hs3]; exact hbs1
  · rw [hs3]; exact hof1
  · rw [hs3]
    show ((s1.root_dir.set i e0).set i (new_entry fname fb now))[i]? = _
    simp [List.getElem?_set, hilt]
  · rw [hfat3]
    simp [List.getElem?_set, hfblt]
  · have := @fat_take_free s1 s3 fb hfbfree hfat3
    omega

/-- `allocate_fd` in write mode on the entry of a file just created. -/
theorem allocate_fd_new {s3 : pennfat_state_t} {D : List Nat} {i fb : Nat} {fname : List Nat}
    {now : Nat} (hg : mounted_geometry s3) (hd : dir_chain s3 D)
    (he : s3.root_dir[i]? = some (new_entry fname fb now))
    (hfat : s3.fat[fb]? = some FAT_ENTRY_LAST) (hfb2 : 2 ≤ fb) (hfb3 : fb < 65535)
    (hfbD : fb ∉ D)
    (hslots : 3 ≤ s3.open_files.findIdx (fun f => f.entry.isNone) ∧
      s3.open_files.findIdx (fun f => f.entry.isNone) < s3.open_files.length ∧
      s3.open_files.length ≤ 32) (buf : Nat → Nat) :
    ∃ s4 fd, allocate_fd s3 i F_WRITE = some (s4, fd) ∧ write_inv s4 fd i [fb] D buf 0 ∧
      s4.block_size = s3.block_size ∧ s4.fat = s3.fat := by
  obtain ⟨h3, hjl, h32⟩ := hslots
  obtain ⟨j, hj⟩ : ∃ j, j = s3.open_files.findIdx (fun f => f.entry.isNone) := ⟨_, rfl⟩
  rw [← hj] at h3 hjl
  have hfblt : fb < s3.fat.length := by
    by_contra hcon
    rw [List.getElem?_eq_none (Nat.le_of_not_lt hcon)] at hfat
    cases hfat
  have hilt : i < s3.root_dir.length := by
    by_contra hcon
    rw [List.getElem?_eq_none (Nat.le_of_not_lt hcon)] at he
    cases he
  obtain ⟨slot, hslot⟩ : ∃ slot : file_descriptor_t,
      slot = { fd := (j : Int), entry := some (entry_ptr.root i), current_block := fb,
               offset := 0, mode := F_WRITE, ref_count := 1 } := ⟨_, rfl⟩
  obtain ⟨s4, hs4⟩ : ∃ s4 : pennfat_state_t,
      s4 = { s3 with open_files := s3.open_files.set j slot,
                     root_dir := s3.root_dir.set i { new_entry fname fb now with size := 0 },
                     fat := s3.fat.set fb FAT_ENTRY_LAST } := ⟨_, rfl⟩
  have hfat4 : s4.fat = s3.fat := by rw [hs4]; exact set_self hfat
  refine ⟨s4, (j : Int), ?_, ?_, by rw [hs4], hfat4⟩
  · unfold allocate_fd
    rw [← hj, if_pos hjl, he]
    simp only [if_true, fat_get, fat_set]
    have e1 : (new_entry fname fb now).first_block = fb := rfl
    rw [e1, hfat]
    simp only [if_pos hfblt, List.length_set]
    unfold truncate_loop
    rw [if_neg (by simp)]
    rw [hs4, hslot]
    rfl
  · constructor
    · rw [hs4]; exact geometry_congr hg rfl rfl rfl (by simp)
    · omega
    · refine ⟨slot, ?_, by rw [hslot], by rw [hslot], by rw [hslot]; rfl⟩
      unfold slot_get
      rw [if_neg (by omega)]
      have : s4.open_files[(j : Int).toNat]? = some slot := by
        rw [hs4]
        show (s3.open_files.set j slot)[(j : Int).toNat]? = _
        simp [List.getElem?_set, hjl]
      rw [this]
      simp only
      rw [hslot]
    · refine ⟨{ new_entry fname fb now with size := 0 }, ?_, rfl, rfl, rfl⟩
      rw [hs4]
      show (s3.root_dir.set i _)[i]? = _
      simp [List.getElem?_set, hilt]
    · rw [hfat4]
      exact ⟨rfl, by
        have : fb ≠ 65535 := by omega
        exact this, FAT_ENTRY_LAST, hfat, rfl⟩
    · intro b hb
      rw [List.mem_singleton.mp hb]; exact hfb2
    · refine ⟨?_, ?_, hd.2.2⟩
      · rw [hfat4]; exact hd.1
      · rw [hs4]; exact hd.2.1
    · intro b hb
      rw [List.mem_singleton.mp hb]; exact hfbD
    · intro k o _ _ h
      omega

/-- `k_open(fname, F_WRITE)` for a name that no entry carries: the file is
created with one block and opened on a descriptor of 3 or more. -/
theorem k_open_create {s : pennfat_state_t} {D : List Nat} {fname : List Nat} (now : Nat)
    (hm : s.is_mounted = true) (hg : mounted_geometry s) (hd : dir_chain s D)
    (hlen : s.root_dir.length = total_entries s)
    (hslots : 3 ≤ s.open_files.findIdx (fun f => f.entry.isNone) ∧
      s.open_files.findIdx (fun f => f.entry.isNone) < s.open_files.length ∧
      s.open_files.length ≤ 32)
    (hopen : open_names_differ s (fun _ => false) fname = true)
    (hnew : ∀ e ∈ s.root_dir, ¬ (e.name.headD 0 > DIR_ENTRY_DELETED ∧ cstr e.name = cstr fname))
    (hfree : dir_cost s + 1 ≤ (free_blocks s).length) (buf : Nat → Nat) :
    ∃ s1 fd i fb D', k_open s fname F_WRITE now = some (s1, fd) ∧
      write_inv s1 fd i [fb] D' buf 0 ∧ s1.block_size = s.block_size ∧
      (free_blocks s1).length + (dir_cost s + 1) = (free_blocks s).length := by
  have hfo : find_open_fd s fname F_WRITE = some (s, -1) := by
    unfold find_open_fd
    apply find_open_loop_none
    intro f hf p hp
    obtain ⟨e, he, hne⟩ := open_names_differ_spec hopen f hf p hp
    exact ⟨e, he, hne rfl⟩
  obtain ⟨s3, i, fb, D', hfc, hg3, hd3, hbs3, hof3, he3, hfat3, hfb2, hfb3, hfbD, hcount⟩ :=
    find_or_create_new now hg hd hlen hnew hfree
  obtain ⟨s4, fd, ha, inv, hbs4, hfat4⟩ :=
    allocate_fd_new hg3 hd3 he3 hfat3 hfb2 hfb3 hfbD (by rw [hof3]; exact hslots) buf
  refine ⟨s4, fd, i, fb, D', ?_, inv, by rw [hbs4, hbs3], ?_⟩
  · unfold k_open
    rw [if_neg (by simp [hm]), if_neg (by decide), hfo]
    simp only
    rw [if_neg (by decide), hfc]
    exact ha
  · rw [free_blocks_fat hfat4]; exact hcount

/-- C2: in a mounted state where the name `fname` is carried by no entry of the
directory and no open slot, and a slot from 3 on is free, for every buffer `buf`
and length `n` that fits in the free blocks (those left once the directory has
grown, if it has to; one block at least, which the file takes at creation),
`k_open(fname, F_WRITE)` succeeds with a descriptor `fd`, `k_write(fd, buf, n)`
returns `n`, `k_lseek(fd, 0, F_SEEK_SET)` returns 0 and `k_read(fd, n)` returns `n`
and exactly the `n` bytes of `buf`. -/
theorem C2_write_read (s : pennfat_state_t) (D : List Nat) (fname : List Nat)
    (buf : Nat → Nat) (n now now2 : Nat)
    (hm : s.is_mounted = true) (hg : mounted_geometry s) (hd : dir_chain s D)
    (hlen : s.root_dir.length = total_entries s)
    (hslots : 3 ≤ s.open_files.findIdx (fun f => f.entry.isNone) ∧
      s.open_files.findIdx (fun f => f.entry.isNone) < s.open_files.length ∧
      s.open_files.length ≤ 32)
    (hopen : open_names_differ s (fun _ => false) fname = true)
    (hnew : ∀ e ∈ s.root_dir, ¬ (e.name.headD 0 > DIR_ENTRY_DELETED ∧ cstr e.name = cstr fname))
    (hn : n < 2147483648)
    (hroom : dir_cost s + 1 ≤ (free_blocks s).length)
    (hfit : n ≤ ((free_blocks s).length - dir_cost s) * s.block_size) :
    ∃ s1 fd s2 s3 s4, k_open s fname F_WRITE now = some (s1, fd) ∧ 0 ≤ fd ∧
      k_write s1 fd buf n now2 = some (s2, (n : Int)) ∧
      k_lseek s2 fd 0 F_SEEK_SET = some (s3, 0) ∧
      k_read s3 fd n = some (s4, (n : Int), (List.range n).map buf) := by
  obtain ⟨s1, fd, i, fb, D', hopen1, inv1, hbs1, hcount⟩ :=
    k_open_create now hm hg hd hlen hslots hopen hnew hroom buf
  have hcap : n ≤ s1.block_size + (free_blocks s1).length * s1.block_size := by
    have e : (free_blocks s).length - dir_cost s = (free_blocks s1).length + 1 := by omega
    rw [e, Nat.add_mul, Nat.one_mul] at hfit
    rw [hbs1]
    omega
  obtain ⟨s2, B, hw, inv2, hbs2, hB1, hB2⟩ := k_write_ok inv1 rfl hn hcap now2
  obtain ⟨s3, s4, hseek, hread⟩ :=
    seek_read_spec inv2 (by rw [hbs2]; exact hB1) (by rw [hbs2]; exact hB2) hn
  have hfd := inv1.fd_ge
  exact ⟨s1, fd, s2, s3, s4, hopen1, by omega, hw, hseek, hread⟩

theorem C2_write_read_witness :
    fresh_1_0.is_mounted = true ∧ (3 : Nat) < 2147483648 ∧
    dir_cost fresh_1_0 + 1 ≤ (free_blocks fresh_1_0).length ∧
    3 ≤ ((free_blocks fresh_1_0).length - dir_cost fresh_1_0) * fresh_1_0.block_size ∧
    ∃ s1 fd s2 s3 s4, k_open fresh_1_0 name_f F_WRITE 0 = some (s1, fd) ∧ 0 ≤ fd ∧
      k_write s1 fd (buf_of [104, 105, 33]) 3 0 = some (s2, ((3 : Nat) : Int)) ∧
      k_lseek s2 fd 0 F_SEEK_SET = some (s3, 0) ∧
      k_read s3 fd 3 = some (s4, ((3 : Nat) : Int), (List.range 3).map (buf_of [104, 105, 33])) :=
  ⟨by decide!, by decide, by decide!, by decide!,
    C2_write_read fresh_1_0 [1] name_f (buf_of [104, 105, 33]) 3 0 0 (by decide!)
      ⟨1, 0, by decide, by decide, by decide, by decide!, by decide!, by decide!, by decide!⟩
      ⟨⟨rfl, by decide, 65535, by decide!, rfl⟩, by decide!, by decide⟩
      (by decide!) (by decide!) (by decide!) (by decide!) (by decide) (by decide!) (by decide!)⟩

/-! ## Signals, sleep and exit (`kernel.c`) -/

/-! ### `chmod` (`pennfat_help.c`, `sys_call.c`) -/

/-! ## First-in first-out run queues -/

theorem queue_get_set {k : Kernel} {j : Int} (hj : j = 0 ∨ j = 1 ∨ j = 2) (q : List Nat) :
    queue_get (queue_set k j q) j = some q := by
  rcases hj with h | h | h <;> subst h <;> simp [queue_get, queue_set]

theorem queue_set_heap (k : Kernel) (j : Int) (q : List Nat) :
    (queue_set k j q).heap = k.heap := by
  unfold queue_set
  split_ifs <;> rfl

theorem deref_queue_set (k : Kernel) (j : Int) (q : List Nat) (p : Nat) :
    deref (queue_set k j q) p = deref k p := by
  unfold deref
  rw [queue_set_heap]

theorem fifo_answers_nil (q : List Nat) : fifo_answers q [] = [] := by
  cases q <;> rfl

theorem fifo_answers_add (q : List Nat) (p : Nat) (ops : List queue_op) :
    fifo_answers q (queue_op.add p :: ops) = fifo_answers (q ++ [p]) ops := by
  cases q <;> rfl

/-- C14: on one priority level (0, 1 or 2), every sequence of calls of
`add_to_queue` (for live PCBs of that priority) and `remove_from_queue` runs to
its end and the calls of `remove_from_queue` return what a first-in first-out
queue answers: the PCBs in the order of their insertion, behind those the queue
held at the start, and NULL exactly when the queue is empty.  The PCBs returned,
followed by those left in the queue, are those of the start followed by the
inserted ones, in order. -/
theorem C14_fifo (priority : Int) (hprio : priority = 0 ∨ priority = 1 ∨ priority = 2) :
    ∀ (ops : List queue_op) (k : Kernel) (q : List Nat), queue_get k priority = some q →
      (∀ p, queue_op.add p ∈ ops → ∃ pcb, deref k p = some pcb ∧ pcb.priority = priority) →
      ∃ k' q', run_queue_ops priority k ops = some (k', fifo_answers q ops) ∧
        queue_get k' priority = some q' ∧
        (fifo_answers q ops).filterMap id ++ q' = q ++ inserted ops ∧
        ((∃ k1, remove_from_queue k priority = some (k1, none)) ↔ q = []) := by
  intro ops
  induction ops with
  | nil =>
    intro k q hq _
    refine ⟨k, q, by rw [fifo_answers_nil]; rfl, hq, by simp [fifo_answers_nil, inserted], ?_⟩
    unfold remove_from_queue
    rw [hq]
    cases q <;> simp
  | cons op ops ih =>
    intro k q hq hadd
    have hnull : (∃ k1, remove_from_queue k priority = some (k1, none)) ↔ q = [] := by
      unfold remove_from_queue
      rw [hq]
      cases q <;> simp
    cases op with
    | add p =>
      obtain ⟨pcb, hp, hpp⟩ := hadd p (List.mem_cons_self _ _)
      have hstep : add_to_queue k p = some (queue_set k priority (q ++ [p])) := by
        unfold add_to_queue
        rw [hp]
        simp only [hpp, hq]
      obtain ⟨k', q', hrun, hq', horder, _⟩ :=
        ih (queue_set k priority (q ++ [p])) (q ++ [p]) (queue_get_set hprio _)
          (fun x hx => by
            obtain ⟨pcb', h1, h2⟩ := hadd x (List.mem_cons_of_mem _ hx)
            exact ⟨pcb', by rw [deref_queue_set]; exact h1, h2⟩)
      refine ⟨k', q', ?_, hq', ?_, hnull⟩
      · simp only [run_queue_ops, hstep, fifo_answers_add]
        exact hrun
      · simp only [fifo_answers_add, inserted]
        rw [horder]
        simp
    | remove =>
      cases q with
      | nil =>
        have hstep : remove_from_queue k priority = some (k, none) := by
          unfold remove_from_queue
          rw [hq]
        obtain ⟨k', q', hrun, hq', horder, _⟩ :=
          ih k [] hq (fun x hx => hadd x (List.mem_cons_of_mem _ hx))
        refine ⟨k', q', ?_, hq', ?_, hnull⟩
        · simp only [run_queue_ops, hstep, fifo_answers, hrun]
        · simp only [fifo_answers, inserted, List.filterMap_cons_none, id]
          exact horder
      | cons x rest =>
        have hstep : remove_from_queue k priority
            = some (queue_set k priority rest, some x) := by
          unfold remove_from_queue
          rw [hq]
        obtain ⟨k', q', hrun, hq', horder, _⟩ :=
          ih (queue_set k priority rest) rest (queue_get_set hprio _)
            (fun y hy => by
              obtain ⟨pcb', h1, h2⟩ := hadd y (List.mem_cons_of_mem _ hy)
              exact ⟨pcb', by rw [deref_queue_set]; exact h1, h2⟩)
        refine ⟨k', q', ?_, hq', ?_, hnull⟩
        · simp only [run_queue_ops, hstep, fifo_answers, hrun]
        · simp only [fifo_answers, inserted]
          rw [List.filterMap_cons_some (by rfl : id (some x) = some x), List.cons_append, horder]
          rfl

theorem C14_fifo_witness :
    ((0 : Int) = 0 ∨ (0 : Int) = 1 ∨ (0 : Int) = 2) ∧
    queue_get kernel_three 0 = some kernel_three.q0 ∧
    ∃ k' q', run_queue_ops 0 kernel_three
        [queue_op.remove, queue_op.add 0, queue_op.remove, queue_op.remove, queue_op.remove]
        = some (k', fifo_answers kernel_three.q0
            [queue_op.remove, queue_op.add 0, queue_op.remove, queue_op.remove,
              queue_op.remove]) ∧
      queue_get k' 0 = some q' ∧
      (fifo_answers kernel_three.q0
          [queue_op.remove, queue_op.add 0, queue_op.remove, queue_op.remove,
            queue_op.remove]).filterMap id ++ q'
        = kernel_three.q0 ++ inserted
          [queue_op.remove, queue_op.add 0, queue_op.remove, queue_op.remove, queue_op.remove] ∧
      ((∃ k1, remove_from_queue kernel_three 0 = some (k1, none)) ↔ kernel_three.q0 = []) :=
  ⟨Or.inl rfl, rfl,
    C14_fifo 0 (Or.inl rfl) _ kernel_three kernel_three.q0 rfl (by
      intro p hp
      have hp0 : p = 0 := by simpa using hp
      subst hp0
      exact ⟨_, rfl, by decide⟩)⟩

/-! ## Stop and continue -/

/-- C13 (the code departs from it): the shell slept 2 ticks and was woken by the
tick handler (status `P_RUNNING`, not in the sleeping set); `k_kill(2, P_SIGSTOP)`
followed by `k_kill(2, P_SIGCONT)` leaves it `P_BLOCKED` and in the sleeping set,
with `wake_tick` 2 ticks ahead, in no run queue. -/
theorem C13_stop_cont_resleeps :
    scen_woken.map (fun k => (pcb_view k 1, k.current_tick))
      = some ((some (2, P_RUNNING, 2), false, false), 2) ∧
    scen_stop_cont.map (fun k => (pcb_view k 1, k.current_tick))
      = some ((some (2, P_BLOCKED, 4), true, false), 2) :=
  ⟨by decide!, by decide!⟩

theorem deref_heap {k k' : Kernel} (h : k'.heap = k.heap) (a : Nat) : deref k' a = deref k a := by
  unfold deref
  rw [h]

theorem find_pid_heap {k k' : Kernel} (h : k'.heap = k.heap) (pid : Int) (l : List Nat) :
    find_pid k' pid l = find_pid k pid l := by
  induction l with
  | nil => rfl
  | cons a rest ih =>
    unfold find_pid
    rw [deref_heap h, ih]

/-- C19 (the code departs from it): `f` (300 bytes, blocks 2 and 3, permission
`PERM_READ`) is open on slot 3 and slot 4 is free; `k_open(f, F_WRITE)` returns 4,
takes slot 4 for `f`, sets the size of `f` to 0 and frees block 3 of its chain. -/
theorem C19_open_denied_falls_through :
    (state_readonly.root_dir[0]?.map (fun e => (cstr e.name, e.perm, e.size, e.first_block))
        = some (name_f, PERM_READ, 300, 2) ∧
      state_readonly.fat[2]? = some 3 ∧ state_readonly.fat[3]? = some FAT_ENTRY_LAST ∧
      state_readonly.open_files[3]?.map (fun f => f.entry) = some (some (entry_ptr.root 0)) ∧
      state_readonly.open_files[4]?.map (fun f => f.entry) = some none) ∧
    ((k_open state_readonly name_f F_WRITE 0).map Prod.snd = some 4 ∧
      (k_open state_readonly name_f F_WRITE 0).map
          (fun r => r.1.open_files[3]?.map (fun f => (f.entry, f.ref_count)))
        = some (some (some (entry_ptr.root 0), 1)) ∧
      (k_open state_readonly name_f F_WRITE 0).map
          (fun r => r.1.open_files[4]?.map (fun f => (f.entry, f.ref_count)))
        = some (some (some (entry_ptr.root 0), 1)) ∧
      (k_open state_readonly name_f F_WRITE 0).map
          (fun r => r.1.root_dir[0]?.map (fun e => e.size)) = some (some 0) ∧
      (k_open state_readonly name_f F_WRITE 0).map (fun r => r.1.fat[2]?)
        = some (some FAT_ENTRY_LAST) ∧
      (k_open state_readonly name_f F_WRITE 0).map (fun r => r.1.fat[3]?)
        = some (some FAT_ENTRY_FREE)) :=
  ⟨⟨by decide!, by decide!, by decide!, by decide!, by decide!⟩,
    ⟨by decide!, by decide!, by decide!, by decide!, by decide!, by decide!⟩⟩

/-- C16 (refuted as stated): the shell forks a child, which gets pid 3, exits and
is reaped by the shell; the next child the shell forks gets pid 3 again. -/
theorem C16_counterexample : scen_pid_reuse = some (3, 3) := by
  decide!

/-- C18 (refuted as stated): the shell forks a child (pid 3, job 3), which forks a
child of its own: this one (address 3) has pid 4, `ppid = 3` and the non-zero
`job_id` 3. -/
theorem C18_counterexample :
    scen_grandchild.map (fun k => (deref k 3).map (fun p => (p.pid, p.ppid, p.job_id)))
        = some (some (4, 3, 3)) ∧
    scen_grandchild.map (fun k => decide (3 ∈ k.pcb_list)) = some true :=
  ⟨by decide!, by decide!⟩

/-! ## The process tree -/

theorem pcb_field_some {α : Type} (f : pcb_t → α) {k : Kernel} {a : Nat} {p : pcb_t}
    (h : deref k a = some p) : pcb_field f k a = some (f p) := by
  simp [pcb_field, h]

theorem field_transfer {α : Type} {f : pcb_t → α} {k k' : Kernel} {a : Nat}
    (h : pcb_field f k' a = pcb_field f k a) {p' : pcb_t} (hp' : deref k' a = some p') :
    ∃ p, deref k a = some p ∧ f p = f p' := by
  rw [pcb_field_some f hp'] at h
  exact deref_of_field h.symm

theorem same_tree_refl (k : Kernel) : same_tree k k :=
  ⟨rfl, rfl, fun _ => rfl, fun _ => rfl, fun _ => rfl, fun _ => rfl⟩

theorem same_tree_symm {k k' : Kernel} (h : same_tree k k') : same_tree k' k :=
  ⟨h.1.symm, h.2.1.symm, fun a => (h.2.2.1 a).symm, fun a => (h.2.2.2.1 a).symm,
    fun a => (h.2.2.2.2.1 a).symm, fun a => (h.2.2.2.2.2 a).symm⟩

theorem same_tree_trans {k1 k2 k3 : Kernel} (h12 : same_tree k1 k2) (h23 : same_tree k2 k3) :
    same_tree k1 k3 :=
  ⟨h23.1.trans h12.1, h23.2.1.trans h12.2.1, fun a => (h23.2.2.1 a).trans (h12.2.2.1 a),
    fun a => (h23.2.2.2.1 a).trans (h12.2.2.2.1 a),
    fun a => (h23.2.2.2.2.1 a).trans (h12.2.2.2.2.1 a),
    fun a => (h23.2.2.2.2.2 a).trans (h12.2.2.2.2.2 a)⟩

/-- Under `same_tree`, a PCB alive in one kernel is alive in the other with the
same place in the tree. -/
theorem same_tree_deref {k k' : Kernel} (h : same_tree k k') {a : Nat} {p' : pcb_t}
    (hp' : deref k' a = some p') :
    ∃ p, deref k a = some p ∧ p.pid = p'.pid ∧ p.ppid = p'.ppid ∧ p.job_id = p'.job_id ∧
      p.children = p'.children := by
  obtain ⟨p, hp, h1⟩ := field_transfer (h.2.2.1 a) hp'
  obtain ⟨p2, hp2, h2⟩ := field_transfer (h.2.2.2.1 a) hp'
  obtain ⟨p3, hp3, h3⟩ := field_transfer (h.2.2.2.2.1 a) hp'
  obtain ⟨p4, hp4, h4⟩ := field_transfer (h.2.2.2.2.2 a) hp'
  rw [hp] at hp2 hp3 hp4
  cases hp2; cases hp3; cases hp4
  exact ⟨p, hp, h1, h2, h3, h4⟩

theorem same_tree_live {k k' : Kernel} (h : same_tree k k') {a : Nat}
    (ha : (deref k a).isSome) : (deref k' a).isSome := by
  obtain ⟨p, hp⟩ := Option.isSome_iff_exists.mp ha
  obtain ⟨p', hp', _⟩ := same_tree_deref (same_tree_symm h) hp
  simp [hp']

/-- The shape of the process tables depends on the process tree only. -/
theorem tree_inv_same_tree {k k' : Kernel} (inv : tree_inv k) (h : same_tree k k') :
    tree_inv k' := by
  have hl := h.1
  constructor
  · intro a ha
    rw [hl] at ha
    exact same_tree_live h (inv.live a ha)
  · rw [hl]
    refine inv.sorted.imp ?_
    intro a b hab pa' pb' hpa' hpb'
    obtain ⟨pa, hpa, e1, _⟩ := same_tree_deref h hpa'
    obtain ⟨pb, hpb, e2, _⟩ := same_tree_deref h hpb'
    rw [← e1, ← e2]
    exact hab pa pb hpa hpb
  · obtain ⟨ia, ip, h1, h2, h3, h4⟩ := inv.init
    obtain ⟨ip', hip', e1, e2, _⟩ := same_tree_deref (same_tree_symm h) h2
    exact ⟨ia, ip', by rw [hl]; exact h1, hip', by rw [e1]; exact h3, by rw [e2]; exact h4⟩
  · intro a ha pa' hpa'
    rw [hl] at ha
    obtain ⟨pa, hpa, e1, e2, _⟩ := same_tree_deref h hpa'
    rw [← e1, ← e2]
    exact inv.below a ha pa hpa
  · intro q hq qp' hqp'
    rw [hl] at hq
    obtain ⟨qp, hqp, e1, _, _, e4⟩ := same_tree_deref h hqp'
    obtain ⟨hnd, hch⟩ := inv.kids q hq qp hqp
    rw [← e4]
    refine ⟨hnd, fun c hc => ?_⟩
    obtain ⟨hcl, cp, hcp, hcpp⟩ := hch c hc
    obtain ⟨cp', hcp', _, f2, _⟩ := same_tree_deref (same_tree_symm h) hcp
    exact ⟨by rw [hl]; exact hcl, cp', hcp', by rw [f2, hcpp, e1]⟩
  · intro a ha pa' hpa' hne
    rw [hl] at ha
    obtain ⟨pa, hpa, _, e2, _⟩ := same_tree_deref h hpa'
    obtain ⟨q, hq, qp, hqp, hqpid, hmem⟩ := inv.parent a ha pa hpa (by rw [e2]; exact hne)
    obtain ⟨qp', hqp', f1, _, _, f4⟩ := same_tree_deref (same_tree_symm h) hqp
    exact ⟨q, by rw [hl]; exact hq, qp', hqp', by rw [f1, hqpid, e2], by rw [f4]; exact hmem⟩
  · refine ⟨by rw [h.2.1]; exact inv.jobs.1, ?_⟩
    intro a ha pa' hpa'
    rw [hl] at ha
    obtain ⟨pa, hpa, _, _, e3, _⟩ := same_tree_deref h hpa'
    rw [h.2.1, ← e3]
    exact inv.jobs.2 a ha pa hpa

/-- Distinct listed PCBs have distinct pids. -/
theorem tree_inv_inj {k : Kernel} (inv : tree_inv k) {a b : Nat} (ha : a ∈ k.pcb_list)
    (hb : b ∈ k.pcb_list) {pa pb : pcb_t} (hpa : deref k a = some pa)
    (hpb : deref k b = some pb) (hp : pa.pid = pb.pid) : a = b := by
  have hS : ∀ x ∈ k.pcb_list, ∀ y ∈ k.pcb_list,
      x = y ∨ ∀ px py, deref k x = some px → deref k y = some py → px.pid ≠ py.pid := by
    apply List.Pairwise.forall_of_forall
    · intro x y hxy
      rcases hxy with h | h
      · exact Or.inl h.symm
      · exact Or.inr (fun px py hx hy e => h py px hy hx e.symm)
    · intro x _
      exact Or.inl rfl
    · refine inv.sorted.imp ?_
      intro x y hxy
      exact Or.inr (fun px py hx hy e => by
        have := hxy px py hx hy
        omega)
  rcases hS a ha b hb with h | h
  · exact h
  · exact absurd hp (h pa pb hpa hpb)

theorem same_tree_of_heap {k k' : Kernel} (h : k'.heap = k.heap)
    (hl : k'.pcb_list = k.pcb_list) (hj : k'.job_counter = k.job_counter) : same_tree k k' :=
  ⟨hl, hj, pcb_field_heap _ h, pcb_field_heap _ h, pcb_field_heap _ h, pcb_field_heap _ h⟩

theorem same_tree_store {k : Kernel} {a : Nat} {old v : pcb_t} (hold : deref k a = some old)
    (h1 : v.pid = old.pid) (h2 : v.ppid = old.ppid) (h3 : v.job_id = old.job_id)
    (h4 : v.children = old.children) : same_tree k (store k a v) :=
  ⟨rfl, rfl, pcb_field_store _ hold h1, pcb_field_store _ hold h2, pcb_field_store _ hold h3,
    pcb_field_store _ hold h4⟩

theorem queue_set_tree (k : Kernel) (j : Int) (q : List Nat) :
    (queue_set k j q).heap = k.heap ∧ (queue_set k j q).pcb_list = k.pcb_list ∧
      (queue_set k j q).job_counter = k.job_counter ∧
      (queue_set k j q).job_list = k.job_list ∧
      (queue_set k j q).background_jobs = k.background_jobs := by
  unfold queue_set
  split_ifs <;> exact ⟨rfl, rfl, rfl, rfl, rfl⟩

theorem add_to_queue_tree {k k2 : Kernel} {p : Nat} (h : add_to_queue k p = some k2) :
    k2.heap = k.heap ∧ k2.pcb_list = k.pcb_list ∧ k2.job_counter = k.job_counter := by
  unfold add_to_queue at h
  cases h1 : deref k p with
  | none => rw [h1] at h; cases h
  | some pcb =>
    rw [h1] at h
    simp only at h
    cases h2 : queue_get k pcb.priority with
    | none => rw [h2] at h; cases h
    | some q =>
      rw [h2] at h
      simp only [Option.some.injEq] at h
      subst h
      obtain ⟨a, b, c, _, _⟩ := queue_set_tree k pcb.priority (q ++ [p])
      exact ⟨a, b, c⟩

theorem pcb_field_store_same {α : Type} (f : pcb_t → α) {k : Kernel} {a : Nat} {old : pcb_t}
    (hold : deref k a = some old) (v : pcb_t) :
    pcb_field f (store k a v) a = some (f v) := by
  unfold pcb_field
  rw [deref_store_same v (deref_lt hold)]
  rfl

theorem pcb_field_store_other {α : Type} (f : pcb_t → α) (k : Kernel) {a b : Nat} (v : pcb_t)
    (h : a ≠ b) : pcb_field f (store k a v) b = pcb_field f k b := by
  unfold pcb_field
  rw [deref_store_other v h]

theorem lookup_congr {k k' : Kernel} (hl : k'.pcb_list = k.pcb_list)
    (hp : ∀ a, pcb_field (fun p => p.pid) k' a = pcb_field (fun p => p.pid) k a) (pid : Int) :
    k_get_pcb_with_given_pid k' pid = k_get_pcb_with_given_pid k pid := by
  unfold k_get_pcb_with_given_pid
  rw [hl, find_pid_congr hp]

/-- What the loop of `reparent_children` does to the process tree: the PCBs of
the list get `ppid = 1` and are appended to the children of init. -/
theorem reparent_loop_inv (init ia : Nat) : ∀ (gs : List Nat) (k k' : Kernel),
    k_get_pcb_with_given_pid k 1 = some (some ia) → reparent_loop init gs k = some k' →
    k'.pcb_list = k.pcb_list ∧ k'.job_counter = k.job_counter ∧
    (∀ a, pcb_field (fun p => p.pid) k' a = pcb_field (fun p => p.pid) k a) ∧
    (∀ a, pcb_field (fun p => p.job_id) k' a = pcb_field (fun p => p.job_id) k a) ∧
    (∀ a, a ∉ gs → pcb_field (fun p => p.ppid) k' a = pcb_field (fun p => p.ppid) k a) ∧
    (∀ a ∈ gs, pcb_field (fun p => p.ppid) k' a = some 1) ∧
    (∀ a, a ≠ ia →
      pcb_field (fun p => p.children) k' a = pcb_field (fun p => p.children) k a) ∧
    pcb_field (fun p => p.children) k' ia
      = (pcb_field (fun p => p.children) k ia).map (fun l => l ++ gs) := by
  intro gs
  induction gs with
  | nil =>
    intro k k' _ h
    simp only [reparent_loop, Option.some.injEq] at h
    subst h
    refine ⟨rfl, rfl, fun _ => rfl, fun _ => rfl, fun _ _ => rfl, ?_, fun _ _ => rfl, ?_⟩
    · intro a ha
      cases ha
    · cases pcb_field (fun p => p.children) k ia <;> simp
  | cons g gs ih =>
    intro k k' hinit h
    unfold reparent_loop at h
    cases hg : deref k g with
    | none => rw [hg] at h; cases h
    | some gp =>
      rw [hg] at h
      simp only at h
      obtain ⟨k1, hk1⟩ : ∃ k1, k1 = store k g { gp with ppid := 1, waited_by := 1 } := ⟨_, rfl⟩
      rw [← hk1] at h
      have hl1 : k1.pcb_list = k.pcb_list := by rw [hk1]; rfl
      have hj1 : k1.job_counter = k.job_counter := by rw [hk1]; rfl
      have hpid1 : ∀ a, pcb_field (fun p => p.pid) k1 a = pcb_field (fun p => p.pid) k a := by
        rw [hk1]; exact pcb_field_store _ hg rfl
      have hjob1 : ∀ a, pcb_field (fun p => p.job_id) k1 a
          = pcb_field (fun p => p.job_id) k a := by
        rw [hk1]; exact pcb_field_store _ hg rfl
      have hch1 : ∀ a, pcb_field (fun p => p.children) k1 a
          = pcb_field (fun p => p.children) k a := by
        rw [hk1]; exact pcb_field_store _ hg rfl
      have hpp1 : ∀ a, a ≠ g → pcb_field (fun p => p.ppid) k1 a
          = pcb_field (fun p => p.ppid) k a := by
        intro a ha
        rw [hk1]; exact pcb_field_store_other _ _ _ (Ne.symm ha)
      have hpp1g : pcb_field (fun p => p.ppid) k1 g = some 1 := by
        rw [hk1]; exact pcb_field_store_same _ hg _
      have hinit1 : k_get_pcb_with_given_pid k1 1 = some (some ia) := by
        rw [lookup_congr hl1 hpid1]; exact hinit
      rw [hinit1] at h
      simp only at h
      cases hip : deref k1 ia with
      | none => rw [hip] at h; cases h
      | some ip =>
        rw [hip] at h
        simp only at h
        obtain ⟨k2, hk2⟩ : ∃ k2, k2 = store k1 ia { ip with children := ip.children ++ [g] } :=
          ⟨_, rfl⟩
        rw [← hk2] at h
        have hl2 : k2.pcb_list = k1.pcb_list := by rw [hk2]; rfl
        have hj2 : k2.job_counter = k1.job_counter := by rw [hk2]; rfl
        have hpid2 : ∀ a, pcb_field (fun p => p.pid) k2 a
            = pcb_field (fun p => p.pid) k1 a := by
          rw [hk2]; exact pcb_field_store _ hip rfl
        have hjob2 : ∀ a, pcb_field (fun p => p.job_id) k2 a
            = pcb_field (fun p => p.job_id) k1 a := by
          rw [hk2]; exact pcb_field_store _ hip rfl
        have hpp2 : ∀ a, pcb_field (fun p => p.ppid) k2 a
            = pcb_field (fun p => p.ppid) k1 a := by
          rw [hk2]; exact pcb_field_store _ hip rfl
        have hch2 : ∀ a, a ≠ ia → pcb_field (fun p => p.children) k2 a
            = pcb_field (fun p => p.children) k1 a := by
          intro a ha
          rw [hk2]; exact pcb_field_store_other _ _ _ (Ne.symm ha)
        have hch2i : pcb_field (fun p => p.children) k2 ia = some (ip.children ++ [g]) := by
          rw [hk2]; exact pcb_field_store_same _ hip _
        cases hq : add_to_queue k2 init with
        | none => rw [hq] at h; cases h
        | some k3 =>
          rw [hq] at h
          simp only at h
          obtain ⟨hheap3, hl3, hj3⟩ := add_to_queue_tree hq
          have hinit3 : k_get_pcb_with_given_pid k3 1 = some (some ia) := by
            rw [lookup_congr hl3 (pcb_field_heap _ hheap3), lookup_congr hl2 hpid2]
            exact hinit1
          obtain ⟨a1, a2, a3, a4, a5, a6, a7, a8⟩ := ih k3 k' hinit3 h
          refine ⟨?_, ?_, ?_, ?_, ?_, ?_, ?_, ?_⟩
          · rw [a1, hl3, hl2, hl1]
          · rw [a2, hj3, hj2, hj1]
          · intro a
            rw [a3, pcb_field_heap _ hheap3, hpid2, hpid1]
          · intro a
            rw [a4, pcb_field_heap _ hheap3, hjob2, hjob1]
          · intro a ha
            rw [a5 a (fun h => ha (List.mem_cons_of_mem _ h)), pcb_field_heap _ hheap3, hpp2,
              hpp1 a (fun h => ha (h ▸ List.mem_cons_self _ _))]
          · intro a ha
            by_cases hags : a ∈ gs
            · exact a6 a hags
            · have hag : a = g := by
                rcases List.mem_cons.mp ha with h | h
                · exact h
                · exact absurd h hags
              rw [a5 a hags, pcb_field_heap _ hheap3, hpp2, hag]
              exact hpp1g
          · intro a ha
            rw [a7 a ha, pcb_field_heap _ hheap3, hch2 a ha, hch1]
          · rw [a8, pcb_field_heap _ hheap3, hch2i, ← hch1 ia, pcb_field_some _ hip]
            simp

/-- What `reparent_children(c)` does to the process tree. -/
theorem reparent_children_inv {k k1 : Kernel} {c : Nat} (h : reparent_children k c = some k1) :
    ∃ ia cp, k_get_pcb_with_given_pid k 1 = some (some ia) ∧ deref k c = some cp ∧
      ¬ (c = ia ∧ cp.children ≠ []) ∧
      k1.pcb_list = k.pcb_list ∧ k1.job_counter = k.job_counter ∧
      (∀ a, pcb_field (fun p => p.pid) k1 a = pcb_field (fun p => p.pid) k a) ∧
      (∀ a, pcb_field (fun p => p.job_id) k1 a = pcb_field (fun p => p.job_id) k a) ∧
      (∀ a, a ∉ cp.children →
        pcb_field (fun p => p.ppid) k1 a = pcb_field (fun p => p.ppid) k a) ∧
      (∀ a ∈ cp.children, pcb_field (fun p => p.ppid) k1 a = some 1) ∧
      pcb_field (fun p => p.children) k1 c = some [] ∧
      (∀ a, a ≠ ia → a ≠ c →
        pcb_field (fun p => p.children) k1 a = pcb_field (fun p => p.children) k a) ∧
      (c ≠ ia → pcb_field (fun p => p.children) k1 ia
        = (pcb_field (fun p => p.children) k ia).map (fun l => l ++ cp.children)) := by
  unfold reparent_children at h
  cases hl : k_get_pcb_with_given_pid k 1 with
  | none => rw [hl] at h; cases h
  | some r =>
    cases r with
    | none => rw [hl] at h; cases h
    | some ia =>
      rw [hl] at h
      simp only at h
      cases hc : deref k c with
      | none => rw [hc] at h; cases h
      | some cp =>
        rw [hc] at h
        simp only at h
        by_cases hcond : c = ia ∧ cp.children ≠ []
        · rw [if_pos hcond] at h; cases h
        · rw [if_neg hcond] at h
          cases hloop : reparent_loop ia cp.children k with
          | none => rw [hloop] at h; cases h
          | some k1' =>
            rw [hloop] at h
            simp only at h
            obtain ⟨a1, a2, a3, a4, a5, a6, a7, a8⟩ :=
              reparent_loop_inv ia ia cp.children k k1' hl hloop
            cases hc1 : deref k1' c with
            | none => rw [hc1] at h; cases h
            | some pp1 =>
              rw [hc1] at h
              simp only [Option.some.injEq] at h
              subst h
              refine ⟨ia, cp, rfl, rfl, hcond, a1, a2, ?_, ?_, ?_, ?_, ?_, ?_, ?_⟩
              · intro a
                rw [@pcb_field_store _ (fun p => p.pid) k1' c pp1 { pp1 with children := [] } hc1 rfl, a3]
              · intro a
                rw [@pcb_field_store _ (fun p => p.job_id) k1' c pp1 { pp1 with children := [] } hc1 rfl, a4]
              · intro a ha
                rw [@pcb_field_store _ (fun p => p.ppid) k1' c pp1 { pp1 with children := [] } hc1 rfl, a5 a ha]
              · intro a ha
                rw [@pcb_field_store _ (fun p => p.ppid) k1' c pp1 { pp1 with children := [] } hc1 rfl, a6 a ha]
              · exact pcb_field_store_same _ hc1 _
              · intro a hai hac
                rw [pcb_field_store_other _ _ _ (Ne.symm hac), a7 a hai]
              · intro hci
                rw [pcb_field_store_other _ _ _ hci, a8]

/-- What `remove_child_from_parent_pcb(par, c)` does to the process tree. -/
theorem remove_child_inv {k k2 : Kernel} {par c : Nat}
    (h : remove_child_from_parent_pcb k par c = some k2) :
    ∃ pp, deref k par = some pp ∧ k2.pcb_list = k.pcb_list ∧
      k2.job_counter = k.job_counter ∧
      (∀ a, pcb_field (fun p => p.pid) k2 a = pcb_field (fun p => p.pid) k a) ∧
      (∀ a, pcb_field (fun p => p.ppid) k2 a = pcb_field (fun p => p.ppid) k a) ∧
      (∀ a, pcb_field (fun p => p.job_id) k2 a = pcb_field (fun p => p.job_id) k a) ∧
      (∀ a, a ≠ par →
        pcb_field (fun p => p.children) k2 a = pcb_field (fun p => p.children) k a) ∧
      pcb_field (fun p => p.children) k2 par = some (pp.children.erase c) := by
  unfold remove_child_from_parent_pcb at h
  cases hp : deref k par with
  | none => rw [hp] at h; cases h
  | some pp =>
    rw [hp] at h
    simp only [Option.some.injEq] at h
    subst h
    exact ⟨pp, rfl, rfl, rfl, pcb_field_store _ hp rfl, pcb_field_store _ hp rfl,
      pcb_field_store _ hp rfl, fun a ha => pcb_field_store_other _ _ _ (Ne.symm ha),
      pcb_field_store_same _ hp _⟩

/-- What `k_proc_cleanup(c)` does to the process list and the heap. -/
theorem cleanup_inv {k k3 : Kernel} {c : Nat} (h : k_proc_cleanup k c = some k3) :
    ∃ cp l r, deref k c = some cp ∧ erase_first_pid k cp.pid k.pcb_list = some (l, r) ∧
      k3.pcb_list = l ∧ k3.job_counter = k.job_counter ∧
      k3.heap = (match r with
        | none => k.heap
        | some a => k.heap.set a none) := by
  unfold k_proc_cleanup at h
  cases hc : deref k c with
  | none => rw [hc] at h; cases h
  | some cp =>
    rw [hc] at h
    simp only at h
    cases h1 : erase_first_pid k cp.pid k.job_list with
    | none => rw [h1] at h; cases h
    | some r1 =>
      obtain ⟨jobs, x1⟩ := r1
      rw [h1] at h
      simp only at h
      cases h2 : erase_first_pid k cp.pid k.background_jobs with
      | none => rw [h2] at h; cases h
      | some r2 =>
        obtain ⟨bg, x2⟩ := r2
        rw [h2] at h
        simp only at h
        cases h3 : erase_first_pid k cp.pid k.pcb_list with
        | none => rw [h3] at h; cases h
        | some r3 =>
          obtain ⟨pl, x3⟩ := r3
          rw [h3] at h
          cases x3 with
          | none =>
            simp only [Option.some.injEq] at h
            subst h
            exact ⟨cp, pl, none, rfl, h3, rfl, rfl, rfl⟩
          | some a =>
            simp only [Option.some.injEq] at h
            subst h
            exact ⟨cp, pl, some a, rfl, h3, rfl, rfl, rfl⟩

theorem mark_waited_tree (ppid : Int) : ∀ (l : List Nat) (k k' : Kernel),
    mark_waited ppid l k = some k' → same_tree k k' := by
  intro l
  induction l with
  | nil =>
    intro k k' h
    simp only [mark_waited, Option.some.injEq] at h
    subst h
    exact same_tree_refl k
  | cons c rest ih =>
    intro k k' h
    unfold mark_waited at h
    cases hc : deref k c with
    | none => rw [hc] at h; cases h
    | some child =>
      rw [hc] at h
      simp only at h
      exact same_tree_trans
        (@same_tree_store k c child { child with waited_by := ppid } hc rfl rfl rfl rfl)
        (ih _ _ h)

/-- A scan of `k_waitpid` that returns either changes nothing or reaps one of
the children scanned. -/
theorem waitpid_scan_inv {k : Kernel} {par : Nat} {pid : Int} {ws : Option Int} :
    ∀ (l : List Nat) (k3 : Kernel) (ws' : Option Int) (r : Int),
      waitpid_scan k par pid ws l = some (some (k3, ws', r)) →
      k3 = k ∨ ∃ c ∈ l, ∃ k1 k2, reparent_children k c = some k1 ∧
        remove_child_from_parent_pcb k1 par c = some k2 ∧ k_proc_cleanup k2 c = some k3 := by
  intro l
  induction l with
  | nil => intro k3 ws' r h; simp [waitpid_scan] at h
  | cons c rest ih =>
    intro k3 ws' r h
    unfold waitpid_scan at h
    cases hc : deref k c with
    | none => rw [hc] at h; cases h
    | some child =>
      rw [hc] at h
      simp only at h
      split_ifs at h with h1 h2 h3
      · rcases ih k3 ws' r h with h | ⟨x, hx, rest'⟩
        · exact Or.inl h
        · exact Or.inr ⟨x, List.mem_cons_of_mem _ hx, rest'⟩
      · cases ha : reparent_children k c with
        | none => rw [ha] at h; cases h
        | some k1 =>
          rw [ha] at h
          simp only at h
          cases hb : remove_child_from_parent_pcb k1 par c with
          | none => rw [hb] at h; cases h
          | some k2 =>
            rw [hb] at h
            simp only at h
            cases hd : k_proc_cleanup k2 c with
            | none => rw [hd] at h; cases h
            | some k3' =>
              rw [hd] at h
              simp only [Option.some.injEq, Prod.mk.injEq] at h
              obtain ⟨rfl, _, _⟩ := h
              exact Or.inr ⟨c, List.mem_cons_self _ _, k1, k2, ha, hb, hd⟩
      · simp only [Option.some.injEq, Prod.mk.injEq] at h
        exact Or.inl h.1.symm
      · rcases ih k3 ws' r h with h | ⟨x, hx, rest'⟩
        · exact Or.inl h
        · exact Or.inr ⟨x, List.mem_cons_of_mem _ hx, rest'⟩

/-- A call of `k_waitpid` leaves the process tree alone or reaps a child of a
listed PCB. -/
theorem k_waitpid_inv {k k' : Kernel} {self : Nat} {pid : Int} {ws ws' : Option Int}
    {nohang : Bool} {ppid : Int} {out : WaitOutcome}
    (h : k_waitpid k self pid ws nohang ppid = some (k', ws', out)) :
    same_tree k k' ∨ ∃ par pp c k1 k2, par ∈ k.pcb_list ∧ deref k par = some pp ∧
      c ∈ pp.children ∧ reparent_children k c = some k1 ∧
      remove_child_from_parent_pcb k1 par c = some k2 ∧ k_proc_cleanup k2 c = some k' := by
  unfold k_waitpid at h
  cases hp : waitpid_parent k self ppid with
  | none => rw [hp] at h; cases h
  | some r =>
    cases r with
    | none =>
      rw [hp] at h
      simp only [Option.some.injEq, Prod.mk.injEq] at h
      rw [← h.1]
      exact Or.inl (same_tree_refl k)
    | some par =>
      rw [hp] at h
      simp only at h
      have hparmem := waitpid_parent_mem hp
      cases hpp : deref k par with
      | none => rw [hpp] at h; cases h
      | some pp =>
        rw [hpp] at h
        simp only at h
        by_cases h1 : pp.children = []
        · rw [if_pos h1] at h
          simp only [Option.some.injEq, Prod.mk.injEq] at h
          rw [← h.1]
          exact Or.inl (same_tree_refl k)
        · rw [if_neg h1] at h
          cases hs : waitpid_scan k par pid ws pp.children with
          | none => rw [hs] at h; cases h
          | some res =>
            rw [hs] at h
            cases res with
            | some t =>
              obtain ⟨k3, ws3, r3⟩ := t
              simp only [Option.some.injEq, Prod.mk.injEq] at h
              obtain ⟨rfl, _, _⟩ := h
              rcases waitpid_scan_inv _ _ _ _ hs with h | ⟨c, hc, k1, k2, ha, hb, hd⟩
              · rw [h]; exact Or.inl (same_tree_refl k)
              · exact Or.inr ⟨par, pp, c, k1, k2, hparmem, hpp, hc, ha, hb, hd⟩
            | none =>
              simp only at h
              by_cases h2 : nohang = true
              · rw [if_pos h2] at h
                simp only [Option.some.injEq, Prod.mk.injEq] at h
                rw [← h.1]
                exact Or.inl (same_tree_refl k)
              · rw [if_neg h2] at h
                cases hm : mark_waited pp.pid pp.children k with
                | none => rw [hm] at h; cases h
                | some k1 =>
                  rw [hm] at h
                  simp only at h
                  cases hd : deref k1 par with
                  | none => rw [hd] at h; cases h
                  | some pp1 =>
                    rw [hd] at h
                    simp only [Option.some.injEq, Prod.mk.injEq] at h
                    rw [← h.1]
                    exact Or.inl (same_tree_trans (mark_waited_tree _ _ _ _ hm)
                      (@same_tree_store k1 par pp1 { pp1 with status := P_BLOCKED } hd
                        rfl rfl rfl rfl))

theorem find_pid_found {k : Kernel} {pid : Int} : ∀ (l : List Nat) (p : Nat),
    find_pid k pid l = some (some p) → p ∈ l ∧ ∃ pcb, deref k p = some pcb ∧ pcb.pid = pid := by
  intro l
  induction l with
  | nil => intro p h; simp [find_pid] at h
  | cons a rest ih =>
    intro p h
    unfold find_pid at h
    cases ha : deref k a with
    | none => rw [ha] at h; cases h
    | some pa =>
      rw [ha] at h
      simp only at h
      by_cases hp : pa.pid = pid
      · rw [if_pos hp] at h
        simp only [Option.some.injEq] at h
        subst h
        exact ⟨List.mem_cons_self _ _, pa, ha, hp⟩
      · rw [if_neg hp] at h
        obtain ⟨h1, h2⟩ := ih p h
        exact ⟨List.mem_cons_of_mem _ h1, h2⟩

theorem tree_inv_nodup {k : Kernel} (inv : tree_inv k) : k.pcb_list.Nodup := by
  have : k.pcb_list.Pairwise (fun a b => a ≠ b) := by
    refine inv.sorted.imp_of_mem ?_
    intro a b ha _ hab heq
    subst heq
    obtain ⟨pa, hpa⟩ := Option.isSome_iff_exists.mp (inv.live a ha)
    have := hab pa pa hpa hpa
    omega
  exact this

/-- Init is the only PCB with pid 1; the others have a larger pid. -/
theorem tree_inv_head {k : Kernel} (inv : tree_inv k) {ia : Nat}
    (hia : k.pcb_list.head? = some ia) {a : Nat} (ha : a ∈ k.pcb_list) {pa : pcb_t}
    (hpa : deref k a = some pa) : (a = ia ∧ pa.pid = 1) ∨ (a ≠ ia ∧ 1 < pa.pid) := by
  obtain ⟨ia', ip, h1, h2, h3, h4⟩ := inv.init
  rw [hia] at h1
  cases h1
  cases hl : k.pcb_list with
  | nil => rw [hl] at hia; cases hia
  | cons x rest =>
    rw [hl] at hia
    simp only [List.head?_cons, Option.some.injEq] at hia
    subst hia
    have hs := inv.sorted
    rw [hl] at hs ha
    rcases List.mem_cons.mp ha with h | h
    · subst h
      rw [h2] at hpa
      cases hpa
      exact Or.inl ⟨rfl, h3⟩
    · have hlt := (List.pairwise_cons.mp hs).1 a h ip pa h2 hpa
      refine Or.inr ⟨?_, by omega⟩
      rintro rfl
      rw [h2] at hpa
      cases hpa
      omega

theorem tree_inv_pid_pos {k : Kernel} (inv : tree_inv k) {a : Nat} (ha : a ∈ k.pcb_list)
    {pa : pcb_t} (hpa : deref k a = some pa) : 1 ≤ pa.pid := by
  obtain ⟨ia, ip, h1, _⟩ := inv.init
  rcases tree_inv_head inv h1 ha hpa with h | h <;> omega

theorem tree_inv_lookup_init {k : Kernel} (inv : tree_inv k) {ia : Nat}
    (h : k_get_pcb_with_given_pid k 1 = some (some ia)) : k.pcb_list.head? = some ia := by
  obtain ⟨hmem, pcb, hp, hpid⟩ := find_pid_found _ _ h
  obtain ⟨ia', ip, h1, _⟩ := inv.init
  rcases tree_inv_head inv h1 hmem hp with h | h
  · rw [h.1]; exact h1
  · omega

theorem deref_set_none {k k' : Kernel} {c : Nat} (h : k'.heap = k.heap.set c none) (a : Nat) :
    deref k' a = if a = c then none else deref k a := by
  unfold deref
  rw [h, List.getD_eq_getElem?_getD, List.getD_eq_getElem?_getD]
  by_cases hac : a = c
  · subst hac
    rw [if_pos rfl]
    by_cases hlt : a < k.heap.length
    · simp [List.getElem?_set, hlt]
    · rw [List.getElem?_eq_none (by simpa using Nat.le_of_not_lt hlt)]
      rfl
  · rw [if_neg hac, List.getElem?_set_ne (Ne.symm hac)]

theorem field_eq_of_deref {α : Type} {f : pcb_t → α} {k : Kernel} {a : Nat} {p : pcb_t} {v : α}
    (hp : deref k a = some p) (h : pcb_field f k a = some v) : f p = v := by
  rw [pcb_field_some f hp] at h
  exact Option.some.inj h

/-- The process tables after a zombie child `c` of `par` has been reaped:
`c` is gone, its children have `ppid = 1` and follow the children of init, and
`c` is erased from the children of `par`. -/
theorem reap_view {k k1 k2 k3 : Kernel} {par c : Nat} {pp : pcb_t} (inv : tree_inv k)
    (hpar : par ∈ k.pcb_list) (hpp : deref k par = some pp) (hc : c ∈ pp.children)
    (h1 : reparent_children k c = some k1)
    (h2 : remove_child_from_parent_pcb k1 par c = some k2)
    (h3 : k_proc_cleanup k2 c = some k3) :
    ∃ ia cp, k.pcb_list.head? = some ia ∧ deref k c = some cp ∧ c ∈ k.pcb_list ∧ c ≠ ia ∧
      par ≠ c ∧ cp.ppid = pp.pid ∧
      k3.pcb_list = k.pcb_list.erase c ∧ k3.job_counter = k.job_counter ∧
      deref k3 c = none ∧
      (∀ a, a ≠ c → ∀ pa, deref k a = some pa →
        ∃ pa3, deref k3 a = some pa3 ∧ pa3.pid = pa.pid ∧ pa3.job_id = pa.job_id ∧
          pa3.ppid = (if a ∈ cp.children then 1 else pa.ppid) ∧
          pa3.children =
            (if a = par then
              (if a = ia then pa.children ++ cp.children else pa.children).erase c
             else (if a = ia then pa.children ++ cp.children else pa.children))) ∧
      (∀ a pa3, deref k3 a = some pa3 → a ≠ c ∧ ∃ pa, deref k a = some pa) := by
  obtain ⟨hppnd, hppch⟩ := inv.kids par hpar pp hpp
  obtain ⟨hcl, cp0, hcp0, hcppid⟩ := hppch c hc
  obtain ⟨ia, cp, hlook, hcp, hcond, a1, a2, a3, a4, a5, a6, a7, a8, a9⟩ :=
    reparent_children_inv h1
  rw [hcp0] at hcp
  cases hcp
  have hhead := tree_inv_lookup_init inv hlook
  obtain ⟨ia', ip, hh, hip, hip1, hip0⟩ := inv.init
  rw [hhead] at hh
  cases hh
  have hpppos := tree_inv_pid_pos inv hpar hpp
  have hcia : c ≠ ia := by
    rintro rfl
    rw [hip] at hcp0
    cases hcp0
    omega
  have hparc : par ≠ c := by
    rintro rfl
    rw [hpp] at hcp0
    cases hcp0
    have := inv.below par hpar pp hpp
    omega
  obtain ⟨pp1, hpp1, b1, b2, b3, b4, b5, b6, b7⟩ := remove_child_inv h2
  obtain ⟨cp2, l, r, hcp2, herase, c1, c2, c3⟩ := cleanup_inv h3
  -- pids in k2
  have hpid2 : ∀ a, pcb_field (fun p => p.pid) k2 a = pcb_field (fun p => p.pid) k a :=
    fun a => (b3 a).trans (a3 a)
  have hl2 : k2.pcb_list = k.pcb_list := b1.trans a1
  have hcp2pid : cp2.pid = cp0.pid := by
    have := hpid2 c
    rw [pcb_field_some _ hcp2, pcb_field_some _ hcp0] at this
    exact Option.some.inj this
  have hlive2 : ∀ a ∈ k.pcb_list, (deref k2 a).isSome := by
    intro a ha
    obtain ⟨pa, hpa⟩ := Option.isSome_iff_exists.mp (inv.live a ha)
    have := hpid2 a
    rw [pcb_field_some _ hpa] at this
    obtain ⟨pa2, hpa2, _⟩ := deref_of_field this
    simp [hpa2]
  have hinj2 : ∀ a ∈ k.pcb_list, ∀ pa2, deref k2 a = some pa2 → pa2.pid = cp2.pid → a = c := by
    intro a ha pa2 hpa2 hp
    obtain ⟨pa, hpa, hpe⟩ := field_transfer (hpid2 a) hpa2
    exact tree_inv_inj inv ha hcl hpa hcp0 (by
      show pa.pid = cp0.pid
      rw [← hcp2pid, ← hp]
      exact hpe)
  have herase2 := @erase_first_pid_erase k2 k.pcb_list c cp2 hlive2 hinj2 hcp2
  rw [hl2, herase2, if_pos hcl] at herase
  simp only [Option.some.injEq, Prod.mk.injEq] at herase
  obtain ⟨hl, hr⟩ := herase
  subst hl
  subst hr
  simp only at c3
  have hd3 : ∀ a, deref k3 a = if a = c then none else deref k2 a := deref_set_none c3
  -- children of the parent after reparenting
  have hpp1c : pp1.children = if par = ia then pp.children ++ cp0.children else pp.children := by
    by_cases hpi : par = ia
    · rw [if_pos hpi]
      have := a9 hcia
      rw [← hpi, pcb_field_some _ hpp] at this
      exact field_eq_of_deref hpp1 this
    · rw [if_neg hpi]
      have := a8 par hpi hparc
      rw [pcb_field_some _ hpp] at this
      exact field_eq_of_deref hpp1 this
  refine ⟨ia, cp0, hhead, hcp0, hcl, hcia, hparc, hcppid, c1, c2.trans (b2.trans a2), ?_, ?_, ?_⟩
  · rw [hd3, if_pos rfl]
  · intro a hac pa hpa
    have hpidf := hpid2 a
    rw [pcb_field_some _ hpa] at hpidf
    obtain ⟨pa2, hpa2, hpide⟩ := deref_of_field hpidf
    refine ⟨pa2, by rw [hd3, if_neg hac]; exact hpa2, hpide, ?_, ?_, ?_⟩
    · have := (b5 a).trans (a4 a)
      rw [pcb_field_some _ hpa] at this
      exact field_eq_of_deref hpa2 this
    · by_cases hag : a ∈ cp0.children
      · rw [if_pos hag]
        exact field_eq_of_deref hpa2 ((b4 a).trans (a6 a hag))
      · rw [if_neg hag]
        have := (b4 a).trans (a5 a hag)
        rw [pcb_field_some _ hpa] at this
        exact field_eq_of_deref hpa2 this
    · by_cases hap : a = par
      · subst hap
        rw [hpp] at hpa
        cases hpa
        rw [if_pos rfl, ← hpp1c]
        exact field_eq_of_deref hpa2 b7
      · rw [if_neg hap]
        by_cases hai : a = ia
        · subst hai
          rw [if_pos rfl]
          have := (b6 a hap).trans (a9 hcia)
          rw [pcb_field_some _ hpa] at this
          exact field_eq_of_deref hpa2 this
        · rw [if_neg hai]
          have := (b6 a hap).trans (a8 a hai hac)
          rw [pcb_field_some _ hpa] at this
          exact field_eq_of_deref hpa2 this
  · intro a pa3 hpa3
    rw [hd3] at hpa3
    by_cases hac : a = c
    · rw [if_pos hac] at hpa3; cases hpa3
    · rw [if_neg hac] at hpa3
      obtain ⟨pa, hpa, _⟩ := field_transfer (hpid2 a) hpa3
      exact ⟨hac, pa, hpa⟩

/-- Reaping a zombie child keeps the process tree well formed. -/
theorem reap_tree_inv {k k1 k2 k3 : Kernel} {par c : Nat} {pp : pcb_t} (inv : tree_inv k)
    (hpar : par ∈ k.pcb_list) (hpp : deref k par = some pp) (hc : c ∈ pp.children)
    (h1 : reparent_children k c = some k1)
    (h2 : remove_child_from_parent_pcb k1 par c = some k2)
    (h3 : k_proc_cleanup k2 c = some k3) : tree_inv k3 := by
  obtain ⟨ia, cp, hhead, hcp, hcl, hcia, hparc, hcppid, hl3, hj3, hc3, hfw, hbw⟩ :=
    reap_view inv hpar hpp hc h1 h2 h3
  have hnd := tree_inv_nodup inv
  have hmem3 : ∀ a, a ∈ k3.pcb_list ↔ a ≠ c ∧ a ∈ k.pcb_list := by
    intro a
    rw [hl3]
    exact hnd.mem_erase_iff
  obtain ⟨ia', ip, hh, hip, hip1, hip0⟩ := inv.init
  rw [hhead] at hh
  cases hh
  have hial : ia ∈ k.pcb_list := List.mem_of_mem_head? hhead
  have hcpid : 1 < cp.pid := by
    rcases tree_inv_head inv hhead hcl hcp with h | h
    · exact absurd h.1 hcia
    · exact h.2
  obtain ⟨hcnd, hckids⟩ := inv.kids c hcl cp hcp
  have hia_nc : ia ∉ cp.children := by
    intro h
    obtain ⟨_, xp, hxp, hx⟩ := hckids ia h
    rw [hip] at hxp
    cases hxp
    omega
  have hc_nc : c ∉ cp.children := by
    intro h
    obtain ⟨_, xp, hxp, hx⟩ := hckids c h
    rw [hcp] at hxp
    cases hxp
    have := inv.below c hcl cp hcp
    omega
  -- the view, read backwards
  have back : ∀ a pa3, deref k3 a = some pa3 → a ≠ c ∧ ∃ pa, deref k a = some pa ∧
      pa3.pid = pa.pid ∧ pa3.job_id = pa.job_id ∧
      pa3.ppid = (if a ∈ cp.children then 1 else pa.ppid) ∧
      pa3.children =
        (if a = par then
          (if a = ia then pa.children ++ cp.children else pa.children).erase c
         else (if a = ia then pa.children ++ cp.children else pa.children)) := by
    intro a pa3 h
    obtain ⟨hac, pa, hpa⟩ := hbw a pa3 h
    obtain ⟨pa3', h', e1, e2, e3, e4⟩ := hfw a hac pa hpa
    rw [h] at h'
    cases h'
    exact ⟨hac, pa, hpa, e1, e2, e3, e4⟩
  -- the children before the erase
  have hbase_nd : ∀ q ∈ k.pcb_list, ∀ qp, deref k q = some qp →
      (if q = ia then qp.children ++ cp.children else qp.children).Nodup := by
    intro q hq qp hqp
    by_cases hqi : q = ia
    · rw [if_pos hqi]
      subst hqi
      rw [hip] at hqp
      cases hqp
      refine List.Nodup.append (inv.kids q hial ip hip).1 hcnd ?_
      intro x hx1 hx2
      obtain ⟨_, xp, hxp, hx⟩ := (inv.kids q hial ip hip).2 x hx1
      obtain ⟨_, xp', hxp', hx'⟩ := hckids x hx2
      rw [hxp] at hxp'
      cases hxp'
      omega
    · rw [if_neg hqi]
      exact (inv.kids q hq qp hqp).1
  have hbase_mem : ∀ q ∈ k.pcb_list, q ≠ c → ∀ qp, deref k q = some qp →
      ∀ x ∈ (if q = ia then qp.children ++ cp.children else qp.children),
        x ∈ k.pcb_list ∧ (q ≠ par → x ≠ c) ∧ ∃ xp, deref k x = some xp ∧
          (if x ∈ cp.children then (1 : Int) else xp.ppid) = qp.pid := by
    intro q hq hqc qp hqp x hx
    have hfrom_q : x ∈ qp.children → x ∈ k.pcb_list ∧ (q ≠ par → x ≠ c) ∧
        ∃ xp, deref k x = some xp ∧
          (if x ∈ cp.children then (1 : Int) else xp.ppid) = qp.pid := by
      intro hxq
      obtain ⟨hxl, xp, hxp, hxpp⟩ := (inv.kids q hq qp hqp).2 x hxq
      refine ⟨hxl, ?_, xp, hxp, ?_⟩
      · intro hqpar hxc
        subst hxc
        rw [hcp] at hxp
        cases hxp
        exact hqpar (tree_inv_inj inv hq hpar hqp hpp (by omega))
      · by_cases hxc : x ∈ cp.children
        · exfalso
          obtain ⟨_, xp', hxp', hx'⟩ := hckids x hxc
          rw [hxp] at hxp'
          cases hxp'
          exact hqc (tree_inv_inj inv hq hcl hqp hcp (by omega))
        · rw [if_neg hxc]
          exact hxpp
    by_cases hqi : q = ia
    · rw [if_pos hqi] at hx
      rcases List.mem_append.mp hx with hx | hx
      · exact hfrom_q hx
      · obtain ⟨hxl, xp, hxp, hxpp⟩ := hckids x hx
        refine ⟨hxl, ?_, xp, hxp, ?_⟩
        · intro _ hxc
          subst hxc
          exact hc_nc hx
        · rw [if_pos hx]
          subst hqi
          rw [hip] at hqp
          cases hqp
          exact hip1.symm
    · rw [if_neg hqi] at hx
      exact hfrom_q hx
  refine ⟨?_, ?_, ?_, ?_, ?_, ?_, ?_⟩
  · -- live
    intro a ha
    obtain ⟨hac, hal⟩ := (hmem3 a).mp ha
    obtain ⟨pa, hpa⟩ := Option.isSome_iff_exists.mp (inv.live a hal)
    obtain ⟨pa3, h, _⟩ := hfw a hac pa hpa
    simp [h]
  · -- sorted
    rw [hl3]
    refine (inv.sorted.sublist (List.erase_sublist c k.pcb_list)).imp ?_
    intro a b hab pa3 pb3 ha3 hb3
    obtain ⟨_, pa, hpa, ea, _⟩ := back a pa3 ha3
    obtain ⟨_, pb, hpb, eb, _⟩ := back b pb3 hb3
    rw [ea, eb]
    exact hab pa pb hpa hpb
  · -- init
    obtain ⟨ip3, hip3, e1, _, e3, _⟩ := hfw ia (Ne.symm hcia) ip hip
    refine ⟨ia, ip3, ?_, hip3, by rw [e1]; exact hip1, by rw [e3, if_neg hia_nc]; exact hip0⟩
    rw [hl3]
    cases hl : k.pcb_list with
    | nil => rw [hl] at hhead; cases hhead
    | cons x rest =>
      rw [hl] at hhead
      simp only [List.head?_cons, Option.some.injEq] at hhead
      subst hhead
      rw [List.erase_cons_tail (by simpa using Ne.symm hcia)]
      rfl
  · -- below
    intro a ha pa3 hpa3
    obtain ⟨hac, hal⟩ := (hmem3 a).mp ha
    obtain ⟨_, pa, hpa, e1, _, e3, _⟩ := back a pa3 hpa3
    rw [e1, e3]
    by_cases hag : a ∈ cp.children
    · rw [if_pos hag]
      rcases tree_inv_head inv hhead hal hpa with h | h
      · exact absurd (h.1 ▸ hag) hia_nc
      · exact h.2
    · rw [if_neg hag]
      exact inv.below a hal pa hpa
  · -- kids
    intro q hq qp3 hqp3
    obtain ⟨hqc, hql⟩ := (hmem3 q).mp hq
    obtain ⟨_, qp, hqp, e1, _, _, e4⟩ := back q qp3 hqp3
    have hbnd := hbase_nd q hql qp hqp
    have hbm := hbase_mem q hql hqc qp hqp
    have hsub : ∀ x ∈ qp3.children,
        x ∈ (if q = ia then qp.children ++ cp.children else qp.children) ∧ x ≠ c := by
      intro x hx
      rw [e4] at hx
      by_cases hqp' : q = par
      · rw [if_pos hqp'] at hx
        exact ⟨List.mem_of_mem_erase hx, (hbnd.mem_erase_iff.mp hx).1⟩
      · rw [if_neg hqp'] at hx
        exact ⟨hx, (hbm x hx).2.1 hqp'⟩
    constructor
    · rw [e4]
      by_cases hqp' : q = par
      · rw [if_pos hqp']
        exact hbnd.erase c
      · rw [if_neg hqp']
        exact hbnd
    · intro x hx
      obtain ⟨hxb, hxc⟩ := hsub x hx
      obtain ⟨hxl, _, xp, hxp, hxpp⟩ := hbm x hxb
      obtain ⟨xp3, hxp3, _, _, f3, _⟩ := hfw x hxc xp hxp
      exact ⟨(hmem3 x).mpr ⟨hxc, hxl⟩, xp3, hxp3, by rw [f3, e1]; exact hxpp⟩
  · -- parent
    intro a ha pa3 hpa3 hne
    obtain ⟨hac, hal⟩ := (hmem3 a).mp ha
    obtain ⟨_, pa, hpa, e1, _, e3, _⟩ := back a pa3 hpa3
    have key : ∀ q ∈ k.pcb_list, q ≠ c → ∀ qp, deref k q = some qp → qp.pid = pa3.ppid →
        a ∈ (if q = ia then qp.children ++ cp.children else qp.children) →
        ∃ q ∈ k3.pcb_list, ∃ qp3, deref k3 q = some qp3 ∧ qp3.pid = pa3.ppid ∧
          a ∈ qp3.children := by
      intro q hql hqc qp hqp hpid hmem
      obtain ⟨qp3, hqp3, f1, _, _, f4⟩ := hfw q hqc qp hqp
      refine ⟨q, (hmem3 q).mpr ⟨hqc, hql⟩, qp3, hqp3, by rw [f1]; exact hpid, ?_⟩
      rw [f4]
      by_cases hqp' : q = par
      · rw [if_pos hqp']
        exact (List.mem_erase_of_ne hac).mpr hmem
      · rw [if_neg hqp']
        exact hmem
    by_cases hag : a ∈ cp.children
    · rw [if_pos hag] at e3
      refine key ia hial (Ne.symm hcia) ip hip (by rw [e3]; exact hip1) ?_
      rw [if_pos rfl]
      exact List.mem_append_right _ hag
    · rw [if_neg hag] at e3
      obtain ⟨q, hql, qp, hqp, hqpid, haq⟩ := inv.parent a hal pa hpa (by rw [← e3]; exact hne)
      have hqc : q ≠ c := by
        rintro rfl
        rw [hcp] at hqp
        cases hqp
        exact hag haq
      refine key q hql hqc qp hqp (by rw [e3]; exact hqpid) ?_
      by_cases hqi : q = ia
      · rw [if_pos hqi]
        exact List.mem_append_left _ haq
      · rw [if_neg hqi]
        exact haq
  · -- jobs
    refine ⟨by rw [hj3]; exact inv.jobs.1, ?_⟩
    intro a ha pa3 hpa3
    obtain ⟨hac, hal⟩ := (hmem3 a).mp ha
    obtain ⟨_, pa, hpa, _, e2, _⟩ := back a pa3 hpa3
    rw [e2, hj3]
    exact inv.jobs.2 a hal pa hpa

theorem deref_append_new {k k1 : Kernel} {v : pcb_t} (h : k1.heap = k.heap ++ [some v]) :
    deref k1 k.heap.length = some v := by
  unfold deref
  rw [h, List.getD_eq_getElem?_getD]
  simp

theorem deref_append_old {k k1 : Kernel} {v : pcb_t} (h : k1.heap = k.heap ++ [some v])
    {a : Nat} (ha : a ≠ k.heap.length) : deref k1 a = deref k a := by
  unfold deref
  rw [h, List.getD_eq_getElem?_getD, List.getD_eq_getElem?_getD]
  rcases Nat.lt_or_gt_of_ne ha with hlt | hgt
  · rw [List.getElem?_append_left hlt]
  · rw [List.getElem?_eq_none (by simp; omega), List.getElem?_eq_none (by omega)]

theorem fork_lookup_mem {k : Kernel} {self : Nat} {parent_id : Int} {is_init : Bool}
    {parent : Nat}
    (h : (if is_init then k_get_pcb_with_given_pid k parent_id
          else find_parent_with_current_thread k self) = some (some parent)) :
    parent ∈ k.pcb_list := by
  cases is_init with
  | true => exact (find_pid_found _ _ h).1
  | false => exact find_thread_some_mem h

/-- What a successful `k_fork` does to the process tables. -/
theorem k_fork_inv {k k' : Kernel} {self : Nat} {parent_id priority : Int} {status : Nat}
    {is_init is_background : Bool} {uninit pid : Int}
    (h : k_fork k self parent_id priority status is_init is_background uninit = some (k', pid)) :
    ∃ parent pp last lp cp,
      (if is_init then k_get_pcb_with_given_pid k parent_id
       else find_parent_with_current_thread k self) = some (some parent) ∧
      parent ∈ k.pcb_list ∧ deref k parent = some pp ∧
      k.pcb_list.getLast? = some last ∧ deref k last = some lp ∧
      k'.pcb_list = k.pcb_list ++ [k.heap.length] ∧
      k'.job_counter = (if pp.pid = 2 then k.job_counter + 1 else k.job_counter) ∧
      deref k' k.heap.length = some cp ∧ pid = cp.pid ∧ cp.pid = lp.pid + 1 ∧
      cp.ppid = pp.pid ∧
      cp.job_id = (if pp.pid = 2 then k.job_counter + 1 else pp.job_id) ∧ cp.children = [] ∧
      deref k' parent = some { pp with children := pp.children ++ [k.heap.length] } ∧
      (∀ a, a ≠ k.heap.length → a ≠ parent → deref k' a = deref k a) := by
  unfold k_fork at h
  cases hlook : (if is_init then k_get_pcb_with_given_pid k parent_id
       else find_parent_with_current_thread k self) with
  | none => rw [hlook] at h; cases h
  | some o =>
    cases o with
    | none => rw [hlook] at h; cases h
    | some parent =>
      rw [hlook] at h
      simp only at h
      have hpl := fork_lookup_mem hlook
      cases hcr : k_proc_create k parent priority status is_background uninit with
      | none => rw [hcr] at h; cases h
      | some r =>
        obtain ⟨k1, child⟩ := r
        rw [hcr] at h
        simp only at h
        unfold k_proc_create at hcr
        cases hlast : k.pcb_list.getLast? with
        | none => rw [hlast] at hcr; cases hcr
        | some last =>
          rw [hlast] at hcr
          simp only at hcr
          cases hlp : deref k last with
          | none => rw [hlp] at hcr; cases hcr
          | some lp =>
            cases hpp : deref k parent with
            | none => rw [hlp, hpp] at hcr; cases hcr
            | some pp =>
              rw [hlp, hpp] at hcr
              simp only [Option.some.injEq, Prod.mk.injEq] at hcr
              obtain ⟨hk1, hchild⟩ := hcr
              subst hchild
              have hparlt := deref_lt hpp
              have hparne : parent ≠ k.heap.length := Nat.ne_of_lt hparlt
              obtain ⟨cp, hcp⟩ : ∃ cp : pcb_t, cp =
                  { pid := lp.pid + 1,
                    job_id := if pp.pid = 2 then
                        (if pp.pid = 2 then k.job_counter + 1 else k.job_counter)
                      else pp.job_id,
                    ppid := pp.pid, priority := priority,
                    file_descriptors := pp.file_descriptors,
                    status := if status ≠ 0 then status else P_BLOCKED,
                    children := [], wake_tick := 0, remaining_sleep_ticks := 0,
                    waited_by := uninit, is_background := is_background } := ⟨_, rfl⟩
              have hheap1 : k1.heap = k.heap ++ [some cp] := by rw [← hk1, hcp]
              have hlist1 : k1.pcb_list = k.pcb_list ++ [k.heap.length] := by rw [← hk1]
              have hjc1 : k1.job_counter =
                  (if pp.pid = 2 then k.job_counter + 1 else k.job_counter) := by rw [← hk1]
              have hcp_pid : cp.pid = lp.pid + 1 := by rw [hcp]
              have hcp_ppid : cp.ppid = pp.pid := by rw [hcp]
              have hcp_ch : cp.children = [] := by rw [hcp]
              have hcp_job : cp.job_id =
                  (if pp.pid = 2 then k.job_counter + 1 else pp.job_id) := by
                rw [hcp]
                by_cases h2 : pp.pid = 2
                · simp [h2]
                · simp [h2]
              clear hk1 hcp
              cases hq : add_to_queue k1 k.heap.length with
              | none => rw [hq] at h; cases h
              | some k2 =>
                rw [hq] at h
                simp only at h
                obtain ⟨hh2, hl2, hj2⟩ := add_to_queue_tree hq
                unfold add_child_to_parent_pcb at h
                have hpp2 : deref k2 parent = some pp := by
                  rw [deref_heap hh2, deref_append_old hheap1 hparne]
                  exact hpp
                rw [hpp2] at h
                simp only at h
                have hlt2 : parent < k2.heap.length := deref_lt hpp2
                have hcp3 : deref (store k2 parent
                    { pp with children := pp.children ++ [k.heap.length] }) k.heap.length
                    = some cp := by
                  rw [deref_store_other _ hparne, deref_heap hh2]
                  exact deref_append_new hheap1
                rw [hcp3] at h
                simp only [Option.some.injEq, Prod.mk.injEq] at h
                obtain ⟨hk', hpid⟩ := h
                have hd : ∀ a, deref k' a = deref (store k2 parent
                    { pp with children := pp.children ++ [k.heap.length] }) a := by
                  intro a
                  rw [← hk']
                  cases is_background <;> rfl
                have hl' : k'.pcb_list = k2.pcb_list := by
                  rw [← hk']
                  cases is_background <;> rfl
                have hj' : k'.job_counter = k2.job_counter := by
                  rw [← hk']
                  cases is_background <;> rfl
                refine ⟨parent, pp, last, lp, cp, rfl, hpl, by first | rfl | exact hpp,
                  rfl, by first | rfl | exact hlp, ?_, ?_, ?_,
                  hpid.symm, hcp_pid, hcp_ppid, hcp_job, hcp_ch, ?_, ?_⟩
                · rw [hl', hl2, hlist1]
                · rw [hj', hj2, hjc1]
                · rw [hd]; exact hcp3
                · rw [hd]; exact deref_store_same _ hlt2
                · intro a ha hap
                  rw [hd, deref_store_other _ (Ne.symm hap), deref_heap hh2,
                    deref_append_old hheap1 ha]

/-- `k_fork` returns when its parent is found, the last PCB of the process list is
live and the priority is one of the three queues. -/
theorem k_fork_some {k : Kernel} {self : Nat} {parent_id priority : Int} {status : Nat}
    {is_init is_background : Bool} {uninit : Int} {parent : Nat}
    (hlive : ∀ a ∈ k.pcb_list, (deref k a).isSome)
    (hlook : (if is_init then k_get_pcb_with_given_pid k parent_id
       else find_parent_with_current_thread k self) = some (some parent))
    (hprio : priority = 0 ∨ priority = 1 ∨ priority = 2) :
    ∃ r, k_fork k self parent_id priority status is_init is_background uninit = some r := by
  have hpl := fork_lookup_mem hlook
  obtain ⟨pp, hpp⟩ := Option.isSome_iff_exists.mp (hlive parent hpl)
  obtain ⟨last, hlast⟩ : ∃ last, k.pcb_list.getLast? = some last := by
    cases hl : k.pcb_list with
    | nil => rw [hl] at hpl; cases hpl
    | cons x rest => exact Option.isSome_iff_exists.mp (by simp)
  obtain ⟨lp, hlp⟩ := Option.isSome_iff_exists.mp
    (hlive last (List.mem_of_getLast?_eq_some hlast))
  have hparne : parent ≠ k.heap.length := Nat.ne_of_lt (deref_lt hpp)
  unfold k_fork
  rw [hlook]
  simp only
  unfold k_proc_create
  rw [hlast]
  simp only
  rw [hlp, hpp]
  simp only
  obtain ⟨cp, hcp⟩ : ∃ cp : pcb_t, cp =
      { pid := lp.pid + 1,
        job_id := if pp.pid = 2 then
            (if pp.pid = 2 then k.job_counter + 1 else k.job_counter)
          else pp.job_id,
        ppid := pp.pid, priority := priority,
        file_descriptors := pp.file_descriptors,
        status := if status ≠ 0 then status else P_BLOCKED,
        children := [], wake_tick := 0, remaining_sleep_ticks := 0,
        waited_by := uninit, is_background := is_background } := ⟨_, rfl⟩
  have hprio' : cp.priority = 0 ∨ cp.priority = 1 ∨ cp.priority = 2 := by rw [hcp]; exact hprio
  rw [← hcp]
  obtain ⟨k1, hk1⟩ : ∃ k1 : Kernel, k1 =
      { k with
        heap := k.heap ++ [some cp],
        job_counter := if pp.pid = 2 then k.job_counter + 1 else k.job_counter,
        job_list := if pp.pid = 2 then k.job_list ++ [k.heap.length] else k.job_list,
        pcb_list := k.pcb_list ++ [k.heap.length] } := ⟨_, rfl⟩
  rw [← hk1]
  have hheap1 : k1.heap = k.heap ++ [some cp] := by rw [hk1]
  have hcp1 : deref k1 k.heap.length = some cp := deref_append_new hheap1
  obtain ⟨k2, hq, hh2, _⟩ := add_to_queue_spec hcp1 hprio'
  rw [hq]
  simp only
  have hpp2 : deref k2 parent = some pp := by
    rw [deref_heap hh2, deref_append_old hheap1 hparne]
    exact hpp
  unfold add_child_to_parent_pcb
  rw [hpp2]
  simp only
  have hcp3 : deref (store k2 parent
      { pp with children := pp.children ++ [k.heap.length] }) k.heap.length = some cp := by
    rw [deref_store_other _ hparne, deref_heap hh2]
    exact hcp1
  rw [hcp3]
  exact ⟨_, rfl⟩

/-- In a sorted process list the last PCB has the largest pid. -/
theorem tree_inv_last_max {k : Kernel} (inv : tree_inv k) {last : Nat} {lp : pcb_t}
    (hlast : k.pcb_list.getLast? = some last) (hlp : deref k last = some lp) {a : Nat}
    (ha : a ∈ k.pcb_list) {pa : pcb_t} (hpa : deref k a = some pa) : pa.pid ≤ lp.pid := by
  obtain ⟨ys, hys⟩ := List.getLast?_eq_some_iff.mp hlast
  have hs := inv.sorted
  rw [hys] at hs ha
  rcases List.mem_append.mp ha with h | h
  · have := (List.pairwise_append.mp hs).2.2 a h last (List.mem_singleton_self _) pa lp hpa hlp
    omega
  · rw [List.mem_singleton] at h
    subst h
    rw [hlp] at hpa
    cases hpa
    exact le_refl _

/-- A fork keeps the process tree well formed. -/
theorem fork_tree_inv {k k' : Kernel} {self : Nat} {parent_id priority : Int} {status : Nat}
    {is_init is_background : Bool} {uninit pid : Int} (inv : tree_inv k)
    (h : k_fork k self parent_id priority status is_init is_background uninit = some (k', pid)) :
    tree_inv k' := by
  obtain ⟨parent, pp, last, lp, cp, _, hpl, hpp, hlast, hlp, hl', hj', hcp', hpid, hcpid,
    hcppid, hcjob, hcch, hpar', hother⟩ := k_fork_inv h
  obtain ⟨n, hn⟩ : ∃ n, n = k.heap.length := ⟨_, rfl⟩
  rw [← hn] at hl' hcp' hpar' hother
  have hlt : ∀ a ∈ k.pcb_list, a ≠ n := by
    intro a ha
    obtain ⟨pa, hpa⟩ := Option.isSome_iff_exists.mp (inv.live a ha)
    rw [hn]
    exact Nat.ne_of_lt (deref_lt hpa)
  have hparn : parent ≠ n := hlt parent hpl
  have hmem' : ∀ a, a ∈ k'.pcb_list ↔ a ∈ k.pcb_list ∨ a = n := by
    intro a
    rw [hl', List.mem_append, List.mem_singleton]
  -- the old PCBs in the new state
  have fw : ∀ a, a ≠ n → ∀ pa, deref k a = some pa → ∃ pa', deref k' a = some pa' ∧
      pa'.pid = pa.pid ∧ pa'.ppid = pa.ppid ∧ pa'.job_id = pa.job_id ∧
      pa'.children = (if a = parent then pa.children ++ [n] else pa.children) := by
    intro a han pa hpa
    by_cases hap : a = parent
    · subst hap
      rw [hpp] at hpa
      cases hpa
      exact ⟨_, hpar', rfl, rfl, rfl, by rw [if_pos rfl]⟩
    · exact ⟨pa, by rw [hother a han hap]; exact hpa, rfl, rfl, rfl, by rw [if_neg hap]⟩
  have bw : ∀ a, a ≠ n → ∀ pa', deref k' a = some pa' → ∃ pa, deref k a = some pa ∧
      pa'.pid = pa.pid ∧ pa'.ppid = pa.ppid ∧ pa'.job_id = pa.job_id ∧
      pa'.children = (if a = parent then pa.children ++ [n] else pa.children) := by
    intro a han pa' hpa'
    by_cases hap : a = parent
    · subst hap
      rw [hpar'] at hpa'
      cases hpa'
      exact ⟨pp, hpp, rfl, rfl, rfl, by rw [if_pos rfl]⟩
    · rw [hother a han hap] at hpa'
      exact ⟨pa', hpa', rfl, rfl, rfl, by rw [if_neg hap]⟩
  have hmax : ∀ a ∈ k.pcb_list, ∀ pa, deref k a = some pa → pa.pid < cp.pid := by
    intro a ha pa hpa
    have := tree_inv_last_max inv hlast hlp ha hpa
    omega
  refine ⟨?_, ?_, ?_, ?_, ?_, ?_, ?_⟩
  · -- live
    intro a ha
    rcases (hmem' a).mp ha with h | h
    · obtain ⟨pa, hpa⟩ := Option.isSome_iff_exists.mp (inv.live a h)
      obtain ⟨pa', h', _⟩ := fw a (hlt a h) pa hpa
      simp [h']
    · subst h
      simp [hcp']
  · -- sorted
    rw [hl']
    refine List.pairwise_append.mpr ⟨?_, List.pairwise_singleton _ _, ?_⟩
    · refine inv.sorted.imp_of_mem ?_
      intro a b ha hb hab pa' pb' hpa' hpb'
      obtain ⟨pa, hpa, ea, _⟩ := bw a (hlt a ha) pa' hpa'
      obtain ⟨pb, hpb, eb, _⟩ := bw b (hlt b hb) pb' hpb'
      rw [ea, eb]
      exact hab pa pb hpa hpb
    · intro a ha b hb pa' pb' hpa' hpb'
      rw [List.mem_singleton] at hb
      subst hb
      rw [hcp'] at hpb'
      cases hpb'
      obtain ⟨pa, hpa, ea, _⟩ := bw a (hlt a ha) pa' hpa'
      rw [ea]
      exact hmax a ha pa hpa
  · -- init
    obtain ⟨ia, ip, hh, hip, hip1, hip0⟩ := inv.init
    have hial : ia ∈ k.pcb_list := List.mem_of_mem_head? hh
    obtain ⟨ip', hip', e1, e2, _⟩ := fw ia (hlt ia hial) ip hip
    refine ⟨ia, ip', ?_, hip', by rw [e1]; exact hip1, by rw [e2]; exact hip0⟩
    rw [hl', List.head?_append_of_ne_nil _ (List.ne_nil_of_mem hial)]
    exact hh
  · -- below
    intro a ha pa' hpa'
    rcases (hmem' a).mp ha with h | h
    · obtain ⟨pa, hpa, e1, e2, _⟩ := bw a (hlt a h) pa' hpa'
      rw [e1, e2]
      exact inv.below a h pa hpa
    · subst h
      rw [hcp'] at hpa'
      cases hpa'
      rw [hcppid]
      exact hmax parent hpl pp hpp
  · -- kids
    intro q hq qp' hqp'
    rcases (hmem' q).mp hq with h | h
    · obtain ⟨qp, hqp, e1, _, _, e4⟩ := bw q (hlt q h) qp' hqp'
      obtain ⟨hnd, hkids⟩ := inv.kids q h qp hqp
      have hn_not : n ∉ qp.children := fun hx => hlt n (hkids n hx).1 rfl
      have hold : ∀ x ∈ qp.children, x ∈ k'.pcb_list ∧
          ∃ xp', deref k' x = some xp' ∧ xp'.ppid = qp'.pid := by
        intro x hx
        obtain ⟨hxl, xp, hxp, hxpp⟩ := hkids x hx
        obtain ⟨xp', hxp', _, f2, _⟩ := fw x (hlt x hxl) xp hxp
        exact ⟨(hmem' x).mpr (Or.inl hxl), xp', hxp', by rw [f2, e1]; exact hxpp⟩
      by_cases hqp : q = parent
      · rw [if_pos hqp] at e4
        rw [e4]
        refine ⟨List.Nodup.append hnd (List.nodup_singleton n) ?_, ?_⟩
        · intro x hx1 hx2
          rw [List.mem_singleton] at hx2
          subst hx2
          exact hn_not hx1
        · intro x hx
          rcases List.mem_append.mp hx with hx | hx
          · exact hold x hx
          · rw [List.mem_singleton] at hx
            subst hx
            refine ⟨(hmem' x).mpr (Or.inr rfl), cp, hcp', ?_⟩
            rw [hcppid, e1]
            subst hqp
            rw [hpp] at hqp
            cases hqp
            rfl
      · rw [if_neg hqp] at e4
        rw [e4]
        exact ⟨hnd, hold⟩
    · subst h
      rw [hcp'] at hqp'
      cases hqp'
      rw [hcch]
      exact ⟨List.nodup_nil, fun x hx => absurd hx (List.not_mem_nil x)⟩
  · -- parent
    intro a ha pa' hpa' hne
    rcases (hmem' a).mp ha with h | h
    · obtain ⟨pa, hpa, e1, e2, _⟩ := bw a (hlt a h) pa' hpa'
      obtain ⟨q, hql, qp, hqp, hqpid, haq⟩ := inv.parent a h pa hpa (by rw [← e2]; exact hne)
      obtain ⟨qp', hqp', f1, _, _, f4⟩ := fw q (hlt q hql) qp hqp
      refine ⟨q, (hmem' q).mpr (Or.inl hql), qp', hqp', by rw [f1, e2]; exact hqpid, ?_⟩
      rw [f4]
      by_cases hqp2 : q = parent
      · rw [if_pos hqp2]
        exact List.mem_append_left _ haq
      · rw [if_neg hqp2]
        exact haq
    · subst h
      rw [hcp'] at hpa'
      cases hpa'
      refine ⟨parent, (hmem' parent).mpr (Or.inl hpl), _, hpar', hcppid.symm, ?_⟩
      exact List.mem_append_right _ (List.mem_singleton_self _)
  · -- jobs
    have hjc : k.job_counter ≤ k'.job_counter := by
      rw [hj']
      split_ifs <;> omega
    refine ⟨le_trans inv.jobs.1 hjc, ?_⟩
    intro a ha pa' hpa'
    rcases (hmem' a).mp ha with h | h
    · obtain ⟨pa, hpa, _, _, e3, _⟩ := bw a (hlt a h) pa' hpa'
      rw [e3]
      exact le_trans (inv.jobs.2 a h pa hpa) hjc
    · subst h
      rw [hcp'] at hpa'
      cases hpa'
      rw [hcjob, hj']
      by_cases h2 : pp.pid = 2
      · rw [if_pos h2, if_pos h2]
      · rw [if_neg h2, if_neg h2]
        exact inv.jobs.2 parent hpl pp hpp

/-- The kernel made by `init_kernel` has a well-formed process tree. -/
theorem init_tree_inv {uninit : Int} {k : Kernel} (h : init_kernel uninit = some k) :
    tree_inv k := by
  unfold init_kernel at h
  obtain ⟨hh, hl, hj⟩ := add_to_queue_tree h
  simp only at hh hl hj
  obtain ⟨p0, hp0⟩ : ∃ p0 : pcb_t, p0 =
      { pid := 1, job_id := 0, ppid := 0, priority := 0,
        file_descriptors := init_fd_table, status := P_BLOCKED, children := [],
        wake_tick := 0, remaining_sleep_ticks := 0, waited_by := uninit,
        is_background := false } := ⟨_, rfl⟩
  rw [← hp0] at hh
  have hd0 : deref k 0 = some p0 := by
    unfold deref
    rw [hh]
    rfl
  have hall : ∀ a ∈ k.pcb_list, ∀ pa, deref k a = some pa → pa = p0 := by
    intro a ha pa hpa
    rw [hl, List.mem_singleton] at ha
    subst ha
    rw [hd0] at hpa
    cases hpa
    rfl
  refine ⟨?_, ?_, ?_, ?_, ?_, ?_, ?_⟩
  · intro a ha
    rw [hl, List.mem_singleton] at ha
    subst ha
    simp [hd0]
  · rw [hl]
    exact List.pairwise_singleton _ _
  · exact ⟨0, p0, by rw [hl]; rfl, hd0, by rw [hp0], by rw [hp0]⟩
  · intro a ha pa hpa
    rw [hall a ha pa hpa, hp0]
    show (0 : Int) < 1
    omega
  · intro q hq qp hqp
    rw [hall q hq qp hqp, hp0]
    exact ⟨List.nodup_nil, fun x hx => absurd hx (List.not_mem_nil x)⟩
  · intro a ha pa hpa hne
    rw [hall a ha pa hpa, hp0] at hne
    exact absurd rfl hne
  · refine ⟨by rw [hj], ?_⟩
    intro a ha pa hpa
    rw [hall a ha pa hpa, hp0, hj]
    show (0 : Int) ≤ 2
    omega

/-- A call of `k_waitpid` keeps the process tree well formed. -/
theorem waitpid_tree_inv {k k' : Kernel} {self : Nat} {pid : Int} {ws ws' : Option Int}
    {nohang : Bool} {ppid : Int} {out : WaitOutcome} (inv : tree_inv k)
    (h : k_waitpid k self pid ws nohang ppid = some (k', ws', out)) : tree_inv k' := by
  rcases k_waitpid_inv h with hs | ⟨par, pp, c, k1, k2, hpar, hpp, hc, h1, h2, h3⟩
  · exact tree_inv_same_tree inv hs
  · exact reap_tree_inv inv hpar hpp hc h1 h2 h3

/-- Every reachable state has a well-formed process tree. -/
theorem reachable_inv {k : Kernel} (h : reachable k) : tree_inv k := by
  induction h with
  | boot uninit k hk => exact init_tree_inv hk
  | fork k k' self parent_id priority status is_init is_background uninit pid _ hf ih =>
    exact fork_tree_inv ih hf
  | waitpid k k' self pid ws ws' nohang ppid out _ hw ih => exact waitpid_tree_inv ih hw
  | other k k' _ hs ih => exact tree_inv_same_tree ih hs

theorem history_reachable {k : Kernel} {js : List Int} (h : history k js) : reachable k := by
  induction h with
  | boot uninit k hk => exact reachable.boot uninit k hk
  | fork k k' js self parent_id priority status is_init is_background uninit pid cp _ hf _ ih =>
    exact reachable.fork k k' self parent_id priority status is_init is_background uninit pid
      ih hf
  | waitpid k k' js self pid ws ws' nohang ppid out _ hw ih =>
    exact reachable.waitpid k k' self pid ws ws' nohang ppid out ih hw
  | other k k' js _ hs ih => exact reachable.other k k' ih hs

/-- No job id handed out so far exceeds the job counter. -/
theorem history_job_counter {k : Kernel} {js : List Int} (h : history k js) :
    ∀ j ∈ js, j ≤ k.job_counter := by
  induction h with
  | boot uninit k hk =>
    intro j hj
    rw [List.mem_singleton] at hj
    subst hj
    have := (init_tree_inv hk).jobs.1
    omega
  | fork k k' js self parent_id priority status is_init is_background uninit pid cp hh hf hcp
      ih =>
    have inv' := fork_tree_inv (reachable_inv (history_reachable hh)) hf
    obtain ⟨parent, pp, last, lp, cp0, _, _, _, _, _, hl', hj', hcp', _⟩ := k_fork_inv hf
    intro j hj
    rcases List.mem_cons.mp hj with h | h
    · subst h
      exact inv'.jobs.2 k.heap.length (by rw [hl']; simp) cp hcp
    · have := ih j h
      rw [hj']
      split_ifs <;> omega
  | waitpid k k' js self pid ws ws' nohang ppid out hh hw ih =>
    intro j hj
    have hjc : k'.job_counter = k.job_counter := by
      rcases k_waitpid_inv hw with hs | ⟨par, pp, c, k1, k2, hpar, hpp, hc, h1, h2, h3⟩
      · exact hs.2.1
      · obtain ⟨_, _, _, _, _, _, _, _, _, hj3, _⟩ :=
          reap_view (reachable_inv (history_reachable hh)) hpar hpp hc h1 h2 h3
        exact hj3
    rw [hjc]
    exact ih j hj
  | other k k' js _ hs ih =>
    intro j hj
    rw [hs.2.1]
    exact ih j hj

/-- C15: in every reachable state (with `js` the job ids handed out so far), a
`k_fork` whose parent is found and whose priority names a run queue returns; the
new PCB, appended to the process list, gets `pid = 1 + m` where `m` is the
largest pid in the process list, and the pid of the parent as `ppid`; when the
parent has pid 2 its job id is greater than every job id handed out before (and
than the job id of every listed PCB), otherwise it is the job id of the parent. -/
theorem C15_fork_ids (k : Kernel) (js : List Int) (hist : history k js) (self : Nat)
    (parent_id priority : Int) (status : Nat) (is_init is_background : Bool) (uninit : Int)
    (parent : Nat)
    (hlook : (if is_init then k_get_pcb_with_given_pid k parent_id
       else find_parent_with_current_thread k self) = some (some parent))
    (hprio : priority = 0 ∨ priority = 1 ∨ priority = 2) :
    ∃ k' pp cp m,
      k_fork k self parent_id priority status is_init is_background uninit = some (k', cp.pid) ∧
      deref k parent = some pp ∧
      k'.pcb_list = k.pcb_list ++ [k.heap.length] ∧ deref k' k.heap.length = some cp ∧
      (∃ a ∈ k.pcb_list, pcb_field (fun p => p.pid) k a = some m) ∧
      (∀ a ∈ k.pcb_list, ∀ pa, deref k a = some pa → pa.pid ≤ m) ∧
      cp.pid = 1 + m ∧ cp.ppid = pp.pid ∧
      (pp.pid = 2 → (∀ j ∈ js, j < cp.job_id) ∧
        ∀ a ∈ k.pcb_list, ∀ pa, deref k a = some pa → pa.job_id < cp.job_id) ∧
      (pp.pid ≠ 2 → cp.job_id = pp.job_id) := by
  have inv := reachable_inv (history_reachable hist)
  obtain ⟨⟨k', pid⟩, hf⟩ := @k_fork_some k self parent_id priority status is_init
    is_background uninit parent inv.live hlook hprio
  obtain ⟨parent', pp, last, lp, cp, hlook', hpl, hpp, hlast, hlp, hl', hj', hcp', hpid, hcpid,
    hcppid, hcjob, hcch, hpar', hother⟩ := k_fork_inv hf
  rw [hlook] at hlook'
  simp only [Option.some.injEq] at hlook'
  subst hlook'
  subst hpid
  refine ⟨k', pp, cp, lp.pid, hf, hpp, hl', hcp',
    ⟨last, List.mem_of_getLast?_eq_some hlast, pcb_field_some _ hlp⟩,
    fun a ha pa hpa => tree_inv_last_max inv hlast hlp ha hpa, by rw [hcpid]; omega, hcppid,
    ?_, ?_⟩
  · intro h2
    rw [hcjob, if_pos h2]
    constructor
    · intro j hj
      have := history_job_counter hist j hj
      omega
    · intro a ha pa hpa
      have := inv.jobs.2 a ha pa hpa
      omega
  · intro h2
    rw [hcjob, if_neg h2]

theorem C15_fork_ids_witness :
    ∃ k' pp cp m,
      k_fork kernel_shell 1 0 1 P_RUNNING false false 0 = some (k', cp.pid) ∧
      deref kernel_shell 1 = some pp ∧
      k'.pcb_list = kernel_shell.pcb_list ++ [kernel_shell.heap.length] ∧
      deref k' kernel_shell.heap.length = some cp ∧
      (∃ a ∈ kernel_shell.pcb_list, pcb_field (fun p => p.pid) kernel_shell a = some m) ∧
      (∀ a ∈ kernel_shell.pcb_list, ∀ pa, deref kernel_shell a = some pa → pa.pid ≤ m) ∧
      cp.pid = 1 + m ∧ cp.ppid = pp.pid ∧
      (pp.pid = 2 → (∀ j ∈ [0, 0], j < cp.job_id) ∧
        ∀ a ∈ kernel_shell.pcb_list, ∀ pa, deref kernel_shell a = some pa →
          pa.job_id < cp.job_id) ∧
      (pp.pid ≠ 2 → cp.job_id = pp.job_id) :=
  C15_fork_ids kernel_shell [0, 0]
    (history.fork kernel_start kernel_shell [0] 0 1 0 P_BLOCKED true false 0 2
      { pid := 2, job_id := 0, ppid := 1, priority := 0, file_descriptors := init_fd_table,
        status := P_BLOCKED, children := [], wake_tick := 0, remaining_sleep_ticks := 0,
        waited_by := 0, is_background := false }
      (history.boot 0 kernel_start (by decide!)) (by decide!) (by decide!))
    1 0 1 P_RUNNING false false 0 1 (by decide!) (by decide)

/-- C16 (amended): in every reachable state the PCBs of the process list have
pairwise distinct pids, and the pid a `k_fork` returns is 1 + the largest of
them, the pid of no listed PCB: a pid is never shared by two PCBs that exist
together, while the pid of a reaped PCB returns when it was the largest. -/
theorem C16_live_pids_distinct (k : Kernel) (hr : reachable k) (self : Nat)
    (parent_id priority : Int) (status : Nat) (is_init is_background : Bool) (uninit : Int)
    (k' : Kernel) (pid : Int)
    (hf : k_fork k self parent_id priority status is_init is_background uninit = some (k', pid)) :
    (∀ a ∈ k.pcb_list, ∀ b ∈ k.pcb_list, ∀ pa pb, deref k a = some pa → deref k b = some pb →
      pa.pid = pb.pid → a = b) ∧
    (∀ a ∈ k.pcb_list, ∀ pa, deref k a = some pa → pa.pid < pid) ∧
    (∃ a ∈ k.pcb_list, pcb_field (fun p => p.pid) k a = some (pid - 1)) ∧
    (∀ a ∈ k'.pcb_list, ∀ b ∈ k'.pcb_list, ∀ pa pb, deref k' a = some pa →
      deref k' b = some pb → pa.pid = pb.pid → a = b) := by
  have inv := reachable_inv hr
  have inv' := fork_tree_inv inv hf
  obtain ⟨parent', pp, last, lp, cp, hlook', hpl, hpp, hlast, hlp, hl', hj', hcp', hpid, hcpid,
    _⟩ := k_fork_inv hf
  refine ⟨fun a ha b hb pa pb hpa hpb e => tree_inv_inj inv ha hb hpa hpb e, ?_, ?_,
    fun a ha b hb pa pb hpa hpb e => tree_inv_inj inv' ha hb hpa hpb e⟩
  · intro a ha pa hpa
    have := tree_inv_last_max inv hlast hlp ha hpa
    omega
  · refine ⟨last, List.mem_of_getLast?_eq_some hlast, ?_⟩
    rw [pcb_field_some _ hlp, hpid, hcpid]
    simp

theorem C16_live_pids_distinct_witness :
    k_fork kernel_shell 1 0 1 P_RUNNING false false 0 = some (kernel_child, 3) ∧
    ((∀ a ∈ kernel_shell.pcb_list, ∀ b ∈ kernel_shell.pcb_list, ∀ pa pb,
      deref kernel_shell a = some pa → deref kernel_shell b = some pb →
      pa.pid = pb.pid → a = b) ∧
    (∀ a ∈ kernel_shell.pcb_list, ∀ pa, deref kernel_shell a = some pa → pa.pid < 3) ∧
    (∃ a ∈ kernel_shell.pcb_list, pcb_field (fun p => p.pid) kernel_shell a = some (3 - 1)) ∧
    (∀ a ∈ kernel_child.pcb_list, ∀ b ∈ kernel_child.pcb_list, ∀ pa pb,
      deref kernel_child a = some pa → deref kernel_child b = some pb →
      pa.pid = pb.pid → a = b)) :=
  ⟨by decide!,
    C16_live_pids_distinct kernel_shell
      (reachable.fork kernel_start kernel_shell 0 1 0 P_BLOCKED true false 0 2
        (reachable.boot 0 kernel_start (by decide!)) (by decide!))
      1 0 1 P_RUNNING false false 0 kernel_child 3 (by decide!)⟩

/-- C17: in every reachable state, for every PCB `P` of the process list with
`ppid ≠ 0` the process list holds a PCB `Q` with `Q.pid = P.ppid` that has `P`
among its children, and `Q` is the only listed PCB with that pid. -/
theorem C17_parent_link (k : Kernel) (hr : reachable k) (a : Nat) (ha : a ∈ k.pcb_list)
    (pa : pcb_t) (hpa : deref k a = some pa) (hne : pa.ppid ≠ 0) :
    ∃ q ∈ k.pcb_list, ∃ qp, deref k q = some qp ∧ qp.pid = pa.ppid ∧ a ∈ qp.children ∧
      ∀ q2 ∈ k.pcb_list, ∀ qp2, deref k q2 = some qp2 → qp2.pid = pa.ppid → q2 = q := by
  have inv := reachable_inv hr
  obtain ⟨q, hq, qp, hqp, hpid, hmem⟩ := inv.parent a ha pa hpa hne
  refine ⟨q, hq, qp, hqp, hpid, hmem, ?_⟩
  intro q2 hq2 qp2 hqp2 hpid2
  exact tree_inv_inj inv hq2 hq hqp2 hqp (by rw [hpid2, hpid])

theorem C17_parent_link_witness :
    ∃ q ∈ kernel_child.pcb_list, ∃ qp, deref kernel_child q = some qp ∧
      qp.pid = (2 : Int) ∧ 2 ∈ qp.children ∧
      ∀ q2 ∈ kernel_child.pcb_list, ∀ qp2, deref kernel_child q2 = some qp2 →
        qp2.pid = (2 : Int) → q2 = q :=
  C17_parent_link kernel_child
    (reachable.fork kernel_shell kernel_child 1 0 1 P_RUNNING false false 0 3
      (reachable.fork kernel_start kernel_shell 0 1 0 P_BLOCKED true false 0 2
        (reachable.boot 0 kernel_start (by decide!)) (by decide!)) (by decide!))
    2 (by decide!)
    { pid := 3, job_id := 3, ppid := 2, priority := 1, file_descriptors := init_fd_table,
      status := P_BLOCKED, children := [], wake_tick := 0, remaining_sleep_ticks := 0,
      waited_by := 0, is_background := false }
    (by decide!) (by decide)

/-- C18 (amended): in every reachable state, the PCB a `k_fork` makes has a
non-zero `job_id` exactly when its parent is the shell (pid 2) or has a
non-zero `job_id` itself: the job id of a child of the shell is inherited by
all its descendants. -/
theorem C18_job_id_inherited (k : Kernel) (hr : reachable k) (self : Nat)
    (parent_id priority : Int) (status : Nat) (is_init is_background : Bool) (uninit : Int)
    (k' : Kernel) (pid : Int)
    (hf : k_fork k self parent_id priority status is_init is_background uninit = some (k', pid)) :
    ∃ parent pp cp,
      (if is_init then k_get_pcb_with_given_pid k parent_id
       else find_parent_with_current_thread k self) = some (some parent) ∧
      deref k parent = some pp ∧ deref k' k.heap.length = some cp ∧
      k'.pcb_list = k.pcb_list ++ [k.heap.length] ∧ cp.pid = pid ∧ cp.ppid = pp.pid ∧
      (cp.job_id ≠ 0 ↔ pp.pid = 2 ∨ pp.job_id ≠ 0) := by
  have inv := reachable_inv hr
  obtain ⟨parent, pp, last, lp, cp, hlook, hpl, hpp, hlast, hlp, hl', hj', hcp', hpid, hcpid,
    hcppid, hcjob, _⟩ := k_fork_inv hf
  refine ⟨parent, pp, cp, hlook, hpp, hcp', hl', hpid.symm, hcppid, ?_⟩
  rw [hcjob]
  have h2 := inv.jobs.1
  by_cases hs : pp.pid = 2
  · rw [if_pos hs]
    constructor
    · intro _
      exact Or.inl hs
    · intro _
      omega
  · rw [if_neg hs]
    constructor
    · intro h
      exact Or.inr h
    · intro h
      rcases h with h | h
      · exact absurd h hs
      · exact h

theorem C18_job_id_inherited_witness :
    ∃ parent pp cp,
      (if false = true then k_get_pcb_with_given_pid kernel_child 0
       else find_parent_with_current_thread kernel_child 2) = some (some parent) ∧
      deref kernel_child parent = some pp ∧
      deref (scen_grandchild.getD kernel_three) kernel_child.heap.length = some cp ∧
      (scen_grandchild.getD kernel_three).pcb_list =
        kernel_child.pcb_list ++ [kernel_child.heap.length] ∧
      cp.pid = 4 ∧ cp.ppid = pp.pid ∧
      (cp.job_id ≠ 0 ↔ pp.pid = 2 ∨ pp.job_id ≠ 0) :=
  C18_job_id_inherited kernel_child
    (reachable.fork kernel_shell kernel_child 1 0 1 P_RUNNING false false 0 3
      (reachable.fork kernel_start kernel_shell 0 1 0 P_BLOCKED true false 0 2
        (reachable.boot 0 kernel_start (by decide!)) (by decide!)) (by decide!))
    2 0 1 P_RUNNING false false 0 (scen_grandchild.getD kernel_three) 4 (by decide!)

/-- C23 fails on the code: with the children of pid 3 and pid 4 queued in this
order at priority 1, `k_kill(4, P_SIGSTOP)` returns 0 and pops the head of the
queue: the PCB of pid 3 (address 2) leaves the run queue, the stopped PCB of pid
4 (address 3) stays in it, and the blocked shell (address 1), already queued at
priority 0, is queued once more. -/
theorem C23_stop_pops_head :
    (k_fork kernel_child 1 0 1 P_BLOCKED false false 0).map (fun r => queue_view r.1)
      = some ([0, 1], [2, 3], [], [], []) ∧
    scen_stop_second.map Prod.snd = some 0 ∧
    scen_stop_second.map (fun r => queue_view r.1) = some ([0, 1, 1], [3], [], [], [3]) ∧
    scen_stop_second.map (fun r => status_view r.1)
      = some [some (1, P_BLOCKED), some (2, P_RUNNING), some (3, P_BLOCKED),
              some (4, P_STOPPED)] :=
  ⟨by decide!, by decide!, by decide!, by decide!⟩

/-- C24 fails on the code: the child of pid 3 (address 2) sleeps; after
`k_kill(3, P_SIGTERM)`, and likewise after `k_kill(3, P_SIGQUIT)`, its status is
`P_ZOMBIED` and its address is still in the sleeping set. -/
theorem C24_zombie_stays_in_sleeping_set :
    (k_sleep kernel_child 2 5).map queue_view = some ([0, 1], [], [], [2], []) ∧
    (scen_kill_sleeper P_SIGTERM).map (fun r => (r.2, r.1.sleeping_processes, status_view r.1))
      = some (0, [2], [some (1, P_BLOCKED), some (2, P_RUNNING), some (3, P_ZOMBIED)]) ∧
    (scen_kill_sleeper P_SIGQUIT).map (fun r => (r.2, r.1.sleeping_processes, status_view r.1))
      = some (0, [2], [some (1, P_BLOCKED), some (2, P_RUNNING), some (3, P_ZOMBIED)]) :=
  ⟨by decide!, by decide!, by decide!⟩

/-- C25 fails on the code: the child of pid 3 (address 2) exits and is a zombie
in no run queue; `k_kill(3, P_SIGCONT)` returns 0, makes it `P_RUNNING` and puts
it in the run queue of priority 1, while it is still in the process list and in
the children of the shell, which has not reaped it. -/
theorem C25_zombie_continued :
    (k_exit kernel_child 2).map queue_view = some ([0, 1], [], [], [], []) ∧
    (k_exit kernel_child 2).map status_view
      = some [some (1, P_BLOCKED), some (2, P_BLOCKED), some (3, P_ZOMBIED)] ∧
    scen_cont_zombie.map Prod.snd = some 0 ∧
    scen_cont_zombie.map (fun r => queue_view r.1) = some ([0, 1, 1], [2], [], [], []) ∧
    scen_cont_zombie.map (fun r => status_view r.1)
      = some [some (1, P_BLOCKED), some (2, P_RUNNING), some (3, P_RUNNING)] ∧
    scen_cont_zombie.map (fun r => (r.1.pcb_list, (deref r.1 1).map (fun p => p.children)))
      = some ([0, 1, 2], some [2]) :=
  ⟨by decide!, by decide!, by decide!, by decide!, by decide!, by decide!⟩

/-- C26 fails on the code: in `kernel_child` the child of pid 3 (address 2) is
queued once at priority 1 and the shell (address 1) once at priority 0; after
`k_kill(3, P_SIGCONT)` both are queued twice. -/
theorem C26_queued_twice :
    queue_view kernel_child = ([0, 1], [2], [], [], []) ∧
    (k_kill kernel_child 3 P_SIGCONT).map Prod.snd = some 0 ∧
    (k_kill kernel_child 3 P_SIGCONT).map (fun r => queue_view r.1)
      = some ([0, 1, 1], [2, 2], [], [], []) :=
  ⟨by decide!, by decide!, by decide!⟩

/-- C27 fails on the code when the FAT has more than one block: on the image of
geometry (2, 0) (FAT of 512 bytes, 256 entries) the new file `f` holds block 2;
`k_unlink(f)` returns 0, marks the entry deleted and frees `FAT[2]`, but it writes
the first directory block at file offset `block_size` = 256, inside the FAT:
the entries 128, 146 and 147, free before and on no chain, now hold 1, 2 and
1537 (the first name byte, `first_block`, and `type` with `perm` of the entry). -/
theorem C27_unlink_overwrites_fat :
    mounted_2_0.map (fun s => (s.fat_blocks, s.block_size, s.fat_size, s.fat.length))
      = some (2, 256, 512, 256) ∧
    scen_created_2_0.map (fun s => used_entries s.fat)
      = some [(0, 512), (1, 65535), (2, 65535)] ∧
    scen_created_2_0.map dir_view
      = some [(102, 0, 2, 1, 6), (0, 0, 0, 0, 0), (0, 0, 0, 0, 0), (0, 0, 0, 0, 0)] ∧
    scen_unlinked_2_0.map (fun r => (r.2, r.1.fat.getD 2 1, r.1.fat.getD 128 0,
        r.1.fat.getD 146 0, r.1.fat.getD 147 0)) = some (0, 0, 1, 2, 1537) ∧
    scen_unlinked_2_0.map (fun r => dir_view r.1)
      = some [(1, 0, 2, 1, 6), (0, 0, 0, 0, 0), (0, 0, 0, 0, 0), (0, 0, 0, 0, 0)] :=
  ⟨by decide!, by decide!, by decide!, by decide!, by decide!⟩

/-- C28 fails on the code when the first write ends on a block boundary: after
256 bytes `a` and then the byte `b` through the same descriptor of the new file
`f` (both calls return what was asked, 256 and 1), the size is 257 and
`first_block` is still 2, but the chain is the single block 2 and reading 257
bytes from offset 0 gives 256 bytes, the first of them `b`. -/
theorem C28_second_write_overwrites :
    scen_two_writes.map Prod.snd = some (256, 1) ∧
    scen_two_writes.map (fun r => dir_view r.1)
      = some [(102, 257, 2, 1, 6), (0, 0, 0, 0, 0), (0, 0, 0, 0, 0), (0, 0, 0, 0, 0)] ∧
    scen_two_writes.map (fun r => r.1.fat.take 4) = some [256, 65535, 65535, 0] ∧
    (scen_two_writes.bind (fun r => read_back r.1 257))
      = some (256, 98 :: List.replicate 255 97) :=
  ⟨by decide!, by decide!, by decide!, by decide!⟩

/-- C29 fails on the code: on the full image `state_full`, where `f` has no
directory entry, `k_open(f, F_WRITE)` returns -1 with `P_ERRNO = FILE_NOT_FOUND`
and leaves the FAT as it was, but the entry at index 1 now carries the name `f`
(size 0, `first_block` 0, type 0, perm 0): `find_dir_entry(f)` finds it, and
`k_open(f, F_READ)` then returns descriptor 3. -/
theorem C29_failed_create_leaves_entry :
    find_dir_entry state_full name_f = some none ∧
    used_entries state_full.fat = state_full.fat.enum ∧
    (k_open state_full name_f F_WRITE 0).map (fun r => (r.2, r.1.p_errno))
      = some (-1, FILE_NOT_FOUND) ∧
    (k_open state_full name_f F_WRITE 0).map (fun r => r.1.fat) = some state_full.fat ∧
    (k_open state_full name_f F_WRITE 0).map (fun r => dir_view r.1)
      = some [(98, 32256, 2, 1, 6), (102, 0, 0, 0, 0), (0, 0, 0, 0, 0), (0, 0, 0, 0, 0)] ∧
    (k_open state_full name_f F_WRITE 0).map (fun r => find_dir_entry r.1 name_f)
      = some (some (some 1)) ∧
    ((k_open state_full name_f F_WRITE 0).bind (fun r => k_open r.1 name_f F_READ 0)).map
      Prod.snd = some 3 :=
  ⟨by decide!, by decide!, by decide!, by decide!, by decide!, by decide!, by decide!⟩

theorem find_free_loop_wraps {fat : List Nat}
    (hused : ∀ i, i < 65536 → ∃ v, fat[i]? = some v ∧ v ≠ FAT_ENTRY_FREE) :
    ∀ (fuel i : Nat), i < 65536 → find_free_loop fat 65536 fuel i = none := by
  intro fuel
  induction fuel with
  | zero => intro i _; rfl
  | succ fuel ih =>
    intro i hi
    obtain ⟨v, hv, hv0⟩ := hused i hi
    unfold find_free_loop
    rw [if_pos hi, hv]
    simp only [if_neg hv0]
    exact ih _ (Nat.mod_lt _ (by omega))

/-- C30 fails on the code for the geometry (32, 4), whose FAT has 65536 entries,
the bound `fat_size / 2` being then above every value of the 16-bit counter:
when the entries below 65535 are all in use, `find_free_fat_entry` returns
65535 = `FAT_ENTRY_LAST` if `FAT[65535]` is free, and if that entry is in use
too the search goes round for ever (no number of iterations gives a result). -/
theorem C30_find_free_16_bit_counter (s : pennfat_state_t) (hlen : s.fat.length = 65536)
    (hsize : s.fat_size = 131072)
    (hused : ∀ i, i < 65535 → ∃ v, s.fat[i]? = some v ∧ v ≠ FAT_ENTRY_FREE) :
    (s.fat[65535]? = some FAT_ENTRY_FREE → find_free_fat_entry s = some FAT_ENTRY_LAST) ∧
    ((∃ v, s.fat[65535]? = some v ∧ v ≠ FAT_ENTRY_FREE) →
      ∀ fuel, find_free_loop s.fat (s.fat_size / 2) fuel 2 = none) := by
  have hn : s.fat_size / 2 = 65536 := by rw [hsize]
  constructor
  · intro hfree
    unfold find_free_fat_entry
    rw [hn]
    obtain ⟨b, hb, h1, h2, h3⟩ := @find_free_loop_found s.fat 65536 hlen.symm 65536 2 65535
      (by omega) (by omega) (by omega) hfree (by omega)
    have hb' : b = 65535 := by
      by_contra hne
      obtain ⟨v, hv, hv0⟩ := hused b (by omega)
      rw [hv] at h3
      exact hv0 (Option.some.inj h3)
    rw [hb, hb']
  · rintro ⟨v, hv, hv0⟩ fuel
    rw [hn]
    refine find_free_loop_wraps ?_ fuel 2 (by omega)
    intro i hi
    by_cases h : i < 65535
    · exact hused i h
    · have : i = 65535 := by omega
      subst this
      exact ⟨v, hv, hv0⟩

theorem fat_last_free_get (i : Nat) (hi : i < 65536) :
    fat_last_free[i]? =
      some (if i = 0 then 8196 else if i = 65535 then FAT_ENTRY_FREE else FAT_ENTRY_LAST) := by
  unfold fat_last_free
  rw [List.getElem?_map, List.getElem?_range hi]
  rfl

theorem fat_last_free_length : fat_last_free.length = 65536 := by
  unfold fat_last_free
  rw [List.length_map, List.length_range]

theorem state_last_free_fat : state_last_free.fat = fat_last_free := by
  simp only [state_last_free]

theorem C30_find_free_16_bit_counter_witness :
    find_free_fat_entry state_last_free = some FAT_ENTRY_LAST :=
  (C30_find_free_16_bit_counter state_last_free
    (by rw [state_last_free_fat]; exact fat_last_free_length) rfl
    (by
      intro i hi
      rw [state_last_free_fat]
      refine ⟨_, fat_last_free_get i (by omega), ?_⟩
      by_cases h0 : i = 0
      · rw [if_pos h0]; decide
      · rw [if_neg h0, if_neg (by omega)]; decide)).1
    (by rw [state_last_free_fat]; exact fat_last_free_get 65535 (by omega))

theorem block_sizes_get (c : Nat) (hc : c ≤ 4) : block_sizes.getD c 0 = 256 * 2 ^ c := by
  interval_cases c <;> rfl

/-- The image `mkfs` makes for an accepted configuration. -/
theorem mkfs_image (s : pennfat_state_t) (hs : s.is_mounted = false) (b c : Nat)
    (hb1 : 1 ≤ b) (hb32 : b ≤ 32) (hc : c ≤ 4) :
    ∃ img, mkfs s b c = (0, some img) ∧
      img.size = (b + b * (256 * 2 ^ c) / 2 - 1) * (256 * 2 ^ c)
        - (if b = 32 ∧ c = 4 then 4096 else 0) ∧
      (∀ a, img.bytes a =
        if a ≥ img.size then 0
        else if a = 0 then c
        else if a = 1 then b
        else if a = 2 ∨ a = 3 then 255
        else 0) := by
  have hbs : 256 * 2 ^ c = 256 ∨ 256 * 2 ^ c = 512 ∨ 256 * 2 ^ c = 1024 ∨
      256 * 2 ^ c = 2048 ∨ 256 * 2 ^ c = 4096 := by
    interval_cases c <;> simp
  obtain ⟨bs, hbsdef⟩ : ∃ bs, bs = 256 * 2 ^ c := ⟨_, rfl⟩
  rw [← hbsdef] at hbs ⊢
  have hcond1 : ¬ ((b : Int) < 1 ∨ (b : Int) > 32) := by omega
  have hcond2 : ¬ ((c : Int) < 0 ∨ (c : Int) > 4) := by omega
  have hget : block_sizes.getD c 0 = bs := by rw [hbsdef]; exact block_sizes_get c hc
  have h32 : ((b : Int) = 32 ∧ (c : Int) = 4) ↔ (b = 32 ∧ c = 4) := by omega
  have hc4 : c = 4 → bs = 4096 := by
    intro h; rw [hbsdef, h]; rfl
  have hfe : (b * bs / 2 + 4294967295) % 4294967296 = b * bs / 2 - 1 := by
    rcases hbs with h | h | h | h | h <;> rw [h] <;> omega
  have htb : (b + (b * bs / 2 - 1)) % 4294967296 = b + b * bs / 2 - 1 := by
    rcases hbs with h | h | h | h | h <;> rw [h] <;> omega
  have htot : ((b + b * bs / 2 - 1) * bs) % 4294967296 = (b + b * bs / 2 - 1) * bs := by
    rcases hbs with h | h | h | h | h <;> rw [h] <;> omega
  have hhdr : (b * 256 + c) % 65536 = b * 256 + c := by omega
  have hsize : (if (b : Int) = 32 ∧ (c : Int) = 4 then
        ((b + b * bs / 2 - 1) * bs + 4294967296 - 4096) % 4294967296
      else (b + b * bs / 2 - 1) * bs) =
      (b + b * bs / 2 - 1) * bs - (if b = 32 ∧ c = 4 then 4096 else 0) := by
    by_cases h : b = 32 ∧ c = 4
    · rw [if_pos (h32.mpr h), if_pos h]
      have := hc4 h.2
      rw [this, h.1]
    · rw [if_neg (fun h' => h (h32.mp h')), if_neg h]
      omega
  refine ⟨{ size := (b + b * bs / 2 - 1) * bs - (if b = 32 ∧ c = 4 then 4096 else 0),
             bytes := fun a =>
               if a ≥ (b + b * bs / 2 - 1) * bs - (if b = 32 ∧ c = 4 then 4096 else 0) then 0
               else if a = 0 then (b * 256 + c) % 256
               else if a = 1 then (b * 256 + c) / 256
               else if a = 2 ∨ a = 3 then 255
               else 0 }, ?_, ?_, ?_⟩
  · unfold mkfs
    rw [hs]
    simp only [Bool.false_eq_true, if_false, if_neg hcond1, if_neg hcond2, Int.toNat_ofNat,
      hget, hfe, htb, htot, hhdr, hsize]
  · rfl
  · intro a
    simp only []
    have h1 : (b * 256 + c) % 256 = c := by omega
    have h2 : (b * 256 + c) / 256 = b := by omega
    rw [h1, h2]

theorem load_root_one (t : pennfat_state_t) (h : fat_get t 1 = some FAT_ENTRY_LAST) :
    ∃ dir, load_root_loop t 64 1 [] 0 = some (dir, 1) := by
  show ∃ dir, load_root_loop t (63 + 1) 1 [] 0 = some (dir, 1)
  unfold load_root_loop
  rw [if_pos (by decide), h]
  simp only
  show ∃ dir, load_root_loop t (62 + 1) FAT_ENTRY_LAST _ (0 + 1) = some (dir, 1)
  unfold load_root_loop
  rw [if_neg (by simp)]
  exact ⟨_, rfl⟩

theorem load_root_one_eq (t : pennfat_state_t) (r : Option (List dir_entry_t × Nat))
    (ht : load_root_loop t 64 1 [] 0 = r) (h : fat_get t 1 = some FAT_ENTRY_LAST) :
    ∃ dir, r = some (dir, 1) := by
  obtain ⟨dir, hdir⟩ := load_root_one t h
  exact ⟨dir, by rw [← ht, hdir]⟩

theorem pmount_mkfs (s : pennfat_state_t) (hs : s.is_mounted = false) (b c : Nat)
    (hb1 : 1 ≤ b) (hb32 : b ≤ 32) (hc : c ≤ 4) (img : host_file)
    (hsz : 4 ≤ img.size)
    (hbytes : ∀ a, img.bytes a =
        if a ≥ img.size then 0
        else if a = 0 then c
        else if a = 1 then b
        else if a = 2 ∨ a = 3 then 255
        else 0) :
    ∃ s', pmount s img = some (s', 0) ∧ s'.block_size = 256 * 2 ^ c ∧ s'.fat_blocks = b ∧
      s'.fat_size = b * (256 * 2 ^ c) ∧ s'.data_start = b * (256 * 2 ^ c) ∧
      s'.is_mounted = true ∧ s'.root_dir_blocks = 1 := by
  have hbs : 256 * 2 ^ c = 256 ∨ 256 * 2 ^ c = 512 ∨ 256 * 2 ^ c = 1024 ∨
      256 * 2 ^ c = 2048 ∨ 256 * 2 ^ c = 4096 := by
    interval_cases c <;> simp
  have h0 : img.bytes 0 = c := by rw [hbytes]; simp; omega
  have h1 : img.bytes 1 = b := by rw [hbytes]; simp; omega
  have h2 : img.bytes 2 = 255 := by rw [hbytes]; simp; omega
  have h3 : img.bytes 3 = 255 := by rw [hbytes]; simp; omega
  have he : img.bytes 0 % 256 + 256 * (img.bytes 1 % 256) = b * 256 + c := by
    rw [h0, h1]; omega
  have hec : (b * 256 + c) % 256 = c := by omega
  have heb : (b * 256 + c) / 256 = b := by omega
  have hmod : 256 * 2 ^ c % 65536 = 256 * 2 ^ c := by
    rcases hbs with h | h | h | h | h <;> rw [h]
  obtain ⟨bs, hbsdef⟩ : ∃ bs, bs = 256 * 2 ^ c := ⟨_, rfl⟩
  rw [← hbsdef] at hbs hmod ⊢
  have hne : bs * b ≠ 0 := by
    rcases hbs with h | h | h | h | h <;> rw [h] <;> omega
  unfold pmount
  rw [hs]
  simp only [Bool.false_eq_true, if_false, he, hec, heb, ← hbsdef, hmod, if_neg hne,
    if_neg (show ¬ c > 22 by omega)]
  generalize ht : load_root_loop _ 64 1 [] 0 = r
  have h1lt : 1 < bs * b / 2 := by
    rcases hbs with h | h | h | h | h <;> rw [h] <;> omega
  obtain ⟨dir, hr⟩ := load_root_one_eq _ _ ht (by
    show (List.map _ (List.range (bs * b / 2)))[1]? = some FAT_ENTRY_LAST
    rw [List.getElem?_map, List.getElem?_range h1lt]
    simp [h2, h3])
  subst hr
  exact ⟨_, rfl, rfl, rfl, Nat.mul_comm _ _, Nat.mul_comm _ _, rfl, rfl⟩

theorem mkfs_image_size {b c : Nat} (hb1 : 1 ≤ b) (hb32 : b ≤ 32) (hc : c ≤ 4) :
    b * (256 * 2 ^ c) + 64 ≤ (b + b * (256 * 2 ^ c) / 2 - 1) * (256 * 2 ^ c)
        - (if b = 32 ∧ c = 4 then 4096 else 0) := by
  interval_cases c <;> interval_cases b <;> decide

theorem image_header_bytes {img : host_file} {b c : Nat} (hsz : 4 ≤ img.size)
    (hbytes : ∀ a, img.bytes a =
        if a ≥ img.size then 0
        else if a = 0 then c
        else if a = 1 then b
        else if a = 2 ∨ a = 3 then 255
        else 0) :
    img.bytes 0 = c ∧ img.bytes 1 = b ∧ img.bytes 2 = 255 ∧ img.bytes 3 = 255 := by
  refine ⟨?_, ?_, ?_, ?_⟩
  · rw [hbytes]; simp; omega
  · rw [hbytes]; simp; omega
  · rw [hbytes]; simp; omega
  · rw [hbytes]; simp; omega

/-- C22: for `b` in 1..32 and `c` in 0..4, `pmount` of the image that
`mkfs(b, c)` makes, whose header word `FAT[0]` is `b * 256 + c`, returns 0 and
derives `block_size = 256 * 2^c`, `fat_blocks = b` and
`fat_size = data_start = b * block_size`; these values are below the capacity of
the 16-bit (`block_size`, `fat_blocks`) and 32-bit (`fat_size`, `data_start`)
fields that hold them. -/
theorem C22_pmount_geometry (s : pennfat_state_t) (hs : s.is_mounted = false) (b c : Nat)
    (hb1 : 1 ≤ b) (hb32 : b ≤ 32) (hc : c ≤ 4) :
    ∃ img s', mkfs s b c = (0, some img) ∧ image_fat_entry img 0 = b * 256 + c ∧
      pmount s img = some (s', 0) ∧
      s'.block_size = 256 * 2 ^ c ∧ s'.fat_blocks = b ∧
      s'.fat_size = b * (256 * 2 ^ c) ∧ s'.data_start = b * (256 * 2 ^ c) ∧
      s'.block_size < 65536 ∧ s'.fat_blocks < 65536 ∧
      s'.fat_size < 4294967296 ∧ s'.data_start < 4294967296 := by
  obtain ⟨img, hmk, hsize, hbytes⟩ := mkfs_image s hs b c hb1 hb32 hc
  have hge := mkfs_image_size hb1 hb32 hc
  rw [← hsize] at hge
  have hsz : 4 ≤ img.size := by omega
  obtain ⟨s', hpm, h1, h2, h3, h4, _⟩ := pmount_mkfs s hs b c hb1 hb32 hc img hsz hbytes
  have hbs : 256 * 2 ^ c ≤ 4096 := by
    interval_cases c <;> decide
  have hfs : b * (256 * 2 ^ c) ≤ 32 * 4096 := Nat.mul_le_mul hb32 hbs
  obtain ⟨e0, e1, _, _⟩ := @image_header_bytes img b c hsz hbytes
  refine ⟨img, s', hmk, ?_, hpm, h1, h2, h3, h4, ?_, ?_, ?_, ?_⟩
  · unfold image_fat_entry
    rw [e0, e1]
    omega
  · rw [h1]; omega
  · rw [h2]; omega
  · rw [h3]; omega
  · rw [h4]; omega

theorem C22_pmount_geometry_witness :
    ∃ img s', mkfs state0 32 4 = (0, some img) ∧ image_fat_entry img 0 = 32 * 256 + 4 ∧
      pmount state0 img = some (s', 0) ∧
      s'.block_size = 256 * 2 ^ 4 ∧ s'.fat_blocks = 32 ∧
      s'.fat_size = 32 * (256 * 2 ^ 4) ∧ s'.data_start = 32 * (256 * 2 ^ 4) ∧
      s'.block_size < 65536 ∧ s'.fat_blocks < 65536 ∧
      s'.fat_size < 4294967296 ∧ s'.data_start < 4294967296 :=
  C22_pmount_geometry state0 rfl 32 4 (by decide) (by decide) (by decide)

/-- C11 fails on the code when the root directory has more than 64 blocks: in
`state_dir65` (no descriptor open but the standard ones) the directory has 65
blocks and 260 entries, and the live entry at index 256, in block 65, is the
file `f`; `punmount` followed by `pmount` of the image return 0, but `pmount`
loads 64 directory blocks and no more: the root directory then has 64 blocks
and 256 entries, those of the blocks 1 to 64, and `find_dir_entry` inspects
256 entries: the entry of `f` is not in the directory any more. -/
theorem C11_remount_loses_entries :
    state_dir65.root_dir[256]?.map
        (fun e => (cstr e.name, e.size, e.first_block, e.type, e.perm))
      = some (name_f, 0, 322, FT_REGULAR, PERM_READ_WRITE) ∧
    (state_dir65.root_dir_blocks, state_dir65.root_dir.length, total_entries state_dir65)
      = (65, 260, 260) ∧
    (state_dir65.open_files.drop 3).any (fun f => f.entry.isSome) = false ∧
    (remount state_dir65).map (fun r => (r.2, r.1.root_dir_blocks, r.1.root_dir.length,
        total_entries r.1)) = some (0, 64, 256, 256) :=
  ⟨by decide!, by decide!, by decide!, by decide!⟩

end PennOS
